import Mathlib

/-!
# pipe-up: cache / orchestration layer

A shallow embedding of the cache manager (`internal/cache/cache.go`), the
synthesis runner (`internal/piperexec/piper.go`), the request handler
(`internal/server/server.go`) and the command line input
(`internal/cli/input.go`), with theorems about eviction, key derivation,
normalization, the request state machine and the choice of the input text.

Conventions of the embedding
* Go strings are lists of characters (`Str`); request texts arrive through the
  JSON decoder and are therefore valid UTF-8.
* `int64` values are integers, every `int64` addition and subtraction of the
  source is followed by `wrap64` (two's complement wrap-around, as Go defines it).
* A `time.Time` is an integer instant; `Before` is `<`.
* The cache directory is a list of entries; what a system call on an entry
  answers (stat error, removal error) is recorded on the entry.
-/

namespace PipeUp

/-! ## Definitions -/

/-! ### Strings, integers, paths -/

/-- Go strings, as lists of characters. -/
abbrev Str := List Char

/-- Two's complement wrap-around of a signed 64-bit result. -/
def wrap64 (x : Int) : Int := (x + 2 ^ 63) % 2 ^ 64 - 2 ^ 63

/-- Loop of `filepath.Ext`: walks the path from its last character towards the
front; `acc` is the part already walked.  Stops at a separator (no
extension) or at the first dot met (the extension starts there). -/
def extLoop : List Char → List Char → Str
  | [], _ => []
  | c :: rest, acc =>
    if c = '/' then []
    else if c = '.' then '.' :: acc
    else extLoop rest (c :: acc)

/-- Go `filepath.Ext`: the suffix beginning at the final dot of the final path
element, empty when there is no dot. -/
def filepathExt (path : Str) : Str := extLoop path.reverse []

/-- Go `filepath.Join(dir, name)` for a clean directory path `dir` (the
configuration stores `filepath.Abs` of the cache directory) and a single path
element `name`. -/
def filepathJoin (dir name : Str) : Str := dir ++ '/' :: name

/-- Go strips the trailing separators of a path, given reversed. -/
def dropSeps : List Char → List Char
  | [] => []
  | c :: rest => if c = '/' then dropSeps rest else c :: rest

/-- Last element of a path given reversed: the characters up to the first
separator met, put back in order. -/
def baseLoop : List Char → List Char → Str
  | [], acc => acc
  | c :: rest, acc => if c = '/' then acc else baseLoop rest (c :: acc)

/-- Go `filepath.Base`: the last element of the path, after removal of trailing
separators; "." for the empty path and "/" for a path of separators only. -/
def filepathBase (path : Str) : Str :=
  if path = [] then ['.']
  else
    let last := baseLoop (dropSeps path.reverse) []
    if last = [] then ['/'] else last

/-- The suffix of the temporary file of a synthesis: `outPath + ".tmp"`. -/
def tmpSuffix : Str := ['.', 't', 'm', 'p']

/-- The extension of cached artifacts. -/
def wavExt : Str := ['.', 'w', 'a', 'v']

/-! ### The cache directory and `cache.Manager` -/

/-- What `os.Remove` on an entry answers. -/
inductive RemoveResult where
  /-- the file is removed, `nil` is returned -/
  | removed
  /-- the file is gone already, the error is `os.ErrNotExist` -/
  | notExist
  /-- another error, the file stays -/
  | failed
  deriving DecidableEq, Repr

/-- One entry of the cache directory, as `os.ReadDir` lists it. -/
structure Entry where
  /-- `e.Name()` -/
  name : Str
  /-- `e.IsDir()` -/
  isDir : Bool
  /-- `info.Size()`, a length in bytes -/
  size : Nat
  /-- `info.ModTime()` -/
  mod : Int
  /-- `e.Info()` returns an error -/
  infoErr : Bool
  /-- what `os.Remove` on this entry answers -/
  remove : RemoveResult
  deriving DecidableEq, Repr

/-- The cache directory and what the system calls on it answer. -/
structure Dir where
  /-- `os.ReadDir` on the directory returns an error -/
  readErr : Bool
  /-- `os.Stat` on a path of the directory fails with an error that is not
  `os.ErrNotExist` -/
  statErr : Bool
  /-- `os.Chtimes` on a path of the directory returns an error -/
  chtimesErr : Bool
  /-- the entries of the directory -/
  entries : List Entry
  deriving DecidableEq, Repr

/-- Records written to a `log.Logger`. -/
inductive LogRecord where
  /-- "ERROR: failed to remove cached file %s: %v" -/
  | removeFailed (path : Str)
  /-- "INFO: evicted %s (size=%d) to enforce cache limit" -/
  | evicted (base : Str) (size : Int)
  /-- "INFO: /tts cache_hit key=%s file=%s" -/
  | cacheHit (key file : Str)
  /-- "ERROR: stat cache file failed: %v" -/
  | statFailed
  /-- "ERROR: piper synth failed: %v" -/
  | synthFailed
  /-- "ERROR: enforce cache limit failed: %v" -/
  | enforceFailed
  /-- "INFO: /tts cache_miss key=%s file=%s" -/
  | cacheMiss (key file : Str)
  /-- "INFO: invoking piper exec=%s args=%v" -/
  | piperInvoke (execPath : Str) (args : List Str)
  /-- "ERROR: piper failed after %s: %v (output: %s)" -/
  | piperFailed
  /-- "INFO: piper completed in %s" -/
  | piperCompleted
  deriving DecidableEq, Repr

/-- Type `cache.Manager` (the logger is the log of the state). -/
structure Manager where
  /-- root of the cache -/
  dir : Str
  /-- size limit, an `int64` -/
  maxBytes : Int
  deriving DecidableEq, Repr

/-- The local `fileInfo` of `EnforceLimit`. -/
structure fileInfo where
  /-- `filepath.Join(m.dir, e.Name())` -/
  path : Str
  /-- `info.Size()` -/
  size : Int
  /-- `info.ModTime()` -/
  mod : Int
  deriving DecidableEq, Repr

/-- Go `sort.Slice` with the comparison `files[i].mod.Before(files[j].mod)`: the
library promises a permutation of the slice in which no element is before an
earlier one, and nothing about the order of elements with equal times. -/
structure SliceSorter where
  /-- the sorted slice -/
  sort : List fileInfo → List fileInfo
  /-- the result is a permutation of the argument -/
  perm : ∀ l, (sort l).Perm l
  /-- no element is before an earlier one -/
  sorted : ∀ l, (sort l).Pairwise (fun a b => ¬ b.mod < a.mod)

/-- Insertion sort by modification time (what `sort.Slice` runs on slices of
fewer than twelve elements). -/
def insertByMod (f : fileInfo) : List fileInfo → List fileInfo
  | [] => [f]
  | g :: gs => if f.mod < g.mod then f :: g :: gs else g :: insertByMod f gs

/-- Insertion sort by modification time. -/
def sortByMod : List fileInfo → List fileInfo
  | [] => []
  | f :: fs => insertByMod f (sortByMod fs)

/-- Insertion sort as an instance of `sort.Slice`. -/
def insertionSorter : SliceSorter where
  sort := sortByMod
  perm := by
    have hins : ∀ (f : fileInfo) (l : List fileInfo), (insertByMod f l).Perm (f :: l) := by
      intro f l
      induction l with
      | nil => exact List.Perm.refl _
      | cons g gs ih =>
        unfold insertByMod
        by_cases h : f.mod < g.mod
        · simp [h]
        · simp only [h, if_false]
          exact (List.Perm.cons g ih).trans (List.Perm.swap f g gs)
    intro l
    induction l with
    | nil => exact List.Perm.refl _
    | cons f fs ih => exact (hins f _).trans (List.Perm.cons f ih)
  sorted := by
    have hins : ∀ (f : fileInfo) (l : List fileInfo), (insertByMod f l).Perm (f :: l) := by
      intro f l
      induction l with
      | nil => exact List.Perm.refl _
      | cons g gs ih =>
        unfold insertByMod
        by_cases h : f.mod < g.mod
        · simp [h]
        · simp only [h, if_false]
          exact (List.Perm.cons g ih).trans (List.Perm.swap f g gs)
    have hsorted : ∀ (f : fileInfo) (l : List fileInfo),
        l.Pairwise (fun a b => ¬ b.mod < a.mod) →
        (insertByMod f l).Pairwise (fun a b => ¬ b.mod < a.mod) := by
      intro f l h
      induction l with
      | nil => simp [insertByMod]
      | cons g gs ih =>
        unfold insertByMod
        rw [List.pairwise_cons] at h
        by_cases hlt : f.mod < g.mod
        · simp only [hlt, if_true]
          refine List.Pairwise.cons ?_ (List.Pairwise.cons h.1 h.2)
          intro b hb
          rcases List.mem_cons.mp hb with rfl | hb
          · omega
          · have := h.1 b hb
            omega
        · simp only [hlt, if_false]
          refine List.Pairwise.cons ?_ (ih h.2)
          intro b hb
          rcases List.mem_cons.mp ((hins f gs).mem_iff.mp hb) with rfl | hb
          · omega
          · exact h.1 b hb
    intro l
    induction l with
    | nil => simp [sortByMod]
    | cons f fs ih => exact hsorted f _ ih

/-- Go `Manager.PathForKey`. -/
def PathForKey (m : Manager) (key : Str) : Str := filepathJoin m.dir (key ++ wavExt)

/-- An entry that the scan of `EnforceLimit` skips before calling `Info`. -/
def Entry.skipped (e : Entry) : Bool := e.isDir || filepathExt e.name != wavExt

/-- The scan loop of `EnforceLimit` (lines 62-80): the files found and their
total size. -/
def scanLoop (m : Manager) : List Entry → List fileInfo → Int → List fileInfo × Int
  | [], files, total => (files, total)
  | e :: es, files, total =>
    if e.isDir then scanLoop m es files total
    else if filepathExt e.name != wavExt then scanLoop m es files total
    else if e.infoErr then scanLoop m es files total
    else
      scanLoop m es
        (files ++ [{ path := filepathJoin m.dir e.name, size := e.size, mod := e.mod }])
        (wrap64 (total + e.size))

/-- Go `os.Remove(path)` in the cache directory: the answer and the entries left. -/
def osRemove (m : Manager) (es : List Entry) (path : Str) : RemoveResult × List Entry :=
  match es.find? (fun e => filepathJoin m.dir e.name = path) with
  | none => (.notExist, es)
  | some e =>
    match e.remove with
    | .failed => (.failed, es)
    | r => (r, es.filter (fun e => filepathJoin m.dir e.name ≠ path))

/-- The eviction loop of `EnforceLimit` (lines 88-98): the running total, the
entries left and the log. -/
def evictLoop (m : Manager) :
    List fileInfo → Int → List Entry → List LogRecord → Int × List Entry × List LogRecord
  | [], total, es, log => (total, es, log)
  | f :: fs, total, es, log =>
    if total ≤ m.maxBytes then (total, es, log)
    else
      match osRemove m es f.path with
      | (.failed, es') => evictLoop m fs total es' (log ++ [.removeFailed f.path])
      | (_, es') =>
        evictLoop m fs (wrap64 (total - f.size)) es'
          (log ++ [.evicted (filepathBase f.path) f.size])

/-- What a run of `EnforceLimit` leaves. -/
structure EnforceResult where
  /-- the returned error is not `nil` -/
  err : Bool
  /-- the entries of the directory afterwards -/
  entries : List Entry
  /-- the records logged -/
  log : List LogRecord
  deriving DecidableEq, Repr

/-- Go `Manager.EnforceLimit`. -/
def EnforceLimit (S : SliceSorter) (m : Manager) (d : Dir) : EnforceResult :=
  if d.readErr then { err := true, entries := d.entries, log := [] }
  else
    let scan := scanLoop m d.entries [] 0
    if scan.2 ≤ m.maxBytes then { err := false, entries := d.entries, log := [] }
    else
      let out := evictLoop m (S.sort scan.1) scan.2 d.entries []
      { err := false, entries := out.2.1, log := out.2.2 }

/-! ### Normalization and cache keys -/

/-- Go `unicode.IsSpace`: the characters with the Unicode property White_Space. -/
def isSpace (c : Char) : Bool :=
  let n := c.toNat
  (9 ≤ n && n ≤ 13) || n == 0x20 || n == 0x85 || n == 0xA0 || n == 0x1680 ||
  (0x2000 ≤ n && n ≤ 0x200A) || n == 0x2028 || n == 0x2029 || n == 0x202F ||
  n == 0x205F || n == 0x3000

/-- Loop of `strings.Fields`: `cur` is the field being read, empty between
fields.  A white space character closes the field being read, if any. -/
def fieldsLoop : List Char → Str → List Str
  | [], cur => if cur = [] then [] else [cur]
  | c :: cs, cur =>
    if isSpace c then
      if cur = [] then fieldsLoop cs [] else cur :: fieldsLoop cs []
    else fieldsLoop cs (cur ++ [c])

/-- Go `strings.Fields`: the maximal runs of characters that are not white space. -/
def stringsFields (s : Str) : List Str := fieldsLoop s []

/-- Go `strings.Join`. -/
def stringsJoin : List Str → Str → Str
  | [], _ => []
  | [a], _ => a
  | a :: b :: rest, sep => a ++ sep ++ stringsJoin (b :: rest) sep

/-- The normalization of `handleTTS`: `strings.Join(strings.Fields(text), " ")`. -/
def normalizeText (text : Str) : Str := stringsJoin (stringsFields text) [' ']

/-- Digit `n` of `hex.EncodeToString`. -/
def hexDigit (n : Nat) : Char := "0123456789abcdef".toList.getD n '0'

/-- Go `hex.EncodeToString`: two digits per byte. -/
def hexEncode : List (Fin 256) → Str
  | [] => []
  | b :: bs => hexDigit (b.val / 16) :: hexDigit (b.val % 16) :: hexEncode bs

/-- The string that `BuildKey` hashes: `voiceID + "::" + text`. -/
def keyInput (voiceID text : Str) : Str := voiceID ++ [':', ':'] ++ text

/-- Go `cache.BuildKey`, for a digest function `Sum256` (`sha256.Sum256` on the
bytes of the string). -/
def BuildKey (Sum256 : Str → List (Fin 256)) (voiceID text : Str) : Str :=
  hexEncode (Sum256 (keyInput voiceID text))

/-- The voice identifier `long` is `short` followed by ":" or by a string that
starts with "::". -/
def delimExtends (short long : Str) : Bool :=
  long == short ++ [':'] || (short ++ [':', ':']).isPrefixOf long

/-- A stand-in digest for evaluating concrete requests: the low byte of every
character. -/
def lowBytes (s : Str) : List (Fin 256) := s.map (fun c => Fin.ofNat c.toNat)

/-- A run of white space, possibly empty. -/
def IsBlank (s : Str) : Prop := ∀ c ∈ s, isSpace c = true

/-- A word: not empty, without white space. -/
def IsWord (w : Str) : Prop := w ≠ [] ∧ ∀ c ∈ w, isSpace c = false

/-- Relation `SpellsTail ws t`: the text `t` is the words `ws`, in order, each followed by
a run of white space, which is not empty between two words. -/
inductive SpellsTail : List Str → Str → Prop where
  | none (s : Str) : IsBlank s → SpellsTail [] s
  | last (w s : Str) : IsWord w → IsBlank s → SpellsTail [w] (w ++ s)
  | more (w s : Str) (v : Str) (ws : List Str) (t : Str) :
      IsWord w → IsBlank s → s ≠ [] → SpellsTail (v :: ws) t →
      SpellsTail (w :: v :: ws) (w ++ s ++ t)

/-- Relation `Spells ws t`: the text `t` is a run of white space followed by the words
`ws` separated by non-empty runs of white space and followed by a run of white
space.  Two texts that spell the same words differ only in white space runs. -/
def Spells (ws : List Str) (t : Str) : Prop :=
  ∃ lead rest, IsBlank lead ∧ SpellsTail ws rest ∧ t = lead ++ rest

/-! ### The request handler -/

/-- What `os.Stat` answers. -/
inductive StatResult where
  /-- the file is there, the error is `nil` -/
  | ok
  /-- the error is `os.ErrNotExist` -/
  | notExist
  /-- another error -/
  | failed
  deriving DecidableEq, Repr

/-- Go `os.Stat(path)` on a path of the cache directory. -/
def osStat (m : Manager) (d : Dir) (path : Str) : StatResult :=
  if d.statErr then .failed
  else if d.entries.any (fun e => filepathJoin m.dir e.name = path) then .ok
  else .notExist

/-- Go `Manager.Touch`: `os.Chtimes(path, now, now)`, whose error is discarded. -/
def Touch (m : Manager) (d : Dir) (now : Int) (path : Str) : Dir :=
  if d.chtimesErr then d
  else
    { d with entries := d.entries.map (fun e =>
        if filepathJoin m.dir e.name = path then { e with mod := now } else e) }

/-- The interface `Piper`: `Synthesize(ctx, text, outPath)` answers whether it
returns an error (this includes an exceeded deadline) and the entries of the
cache directory that it leaves. -/
abbrev Piper := Str → Str → List Entry → Bool × List Entry

/-- Type `server.Server`: the configured voice, the cache manager, the synthesizer;
with the library functions that the handler relies on. -/
structure Server where
  /-- `cfg.VoiceID` -/
  voiceID : Str
  /-- the cache manager -/
  cache : Manager
  /-- the synthesizer -/
  piper : Piper
  /-- `sha256.Sum256` -/
  Sum256 : Str → List (Fin 256)
  /-- `sort.Slice` -/
  sorter : SliceSorter

/-- An HTTP request as `handleTTS` reads it. -/
structure Request where
  /-- `r.Method` -/
  method : Str
  /-- `req.Text` after `json.NewDecoder(r.Body).Decode(&req)`, `none` when the
  decoder returns an error -/
  body : Option Str
  deriving DecidableEq, Repr

/-- What `handleTTS` writes to the `http.ResponseWriter`. -/
inductive Response where
  /-- `http.Error(w, msg, code)` -/
  | error (code : Nat) (msg : Str)
  /-- `writeJSON(w, code, ttsResponse{Status: status, File: file})` -/
  | json (code : Nat) (status file : Str)
  deriving DecidableEq, Repr

/-- The state around the handler. -/
structure World where
  /-- the cache directory -/
  dir : Dir
  /-- `time.Now()` -/
  now : Int
  /-- the calls of `Synthesize` so far: text and output path -/
  synthCalls : List (Str × Str)
  /-- the paths for which playback was dispatched (`go s.player.PlayWav(path)`) -/
  played : List Str
  /-- the number of runs of `EnforceLimit` so far -/
  enforceRuns : Nat
  /-- the records logged -/
  log : List LogRecord
  deriving DecidableEq, Repr

/-- The miss path of `handleTTS` (lines 102-117). -/
def handleMiss (sv : Server) (w : World) (normalized key : Str) : Response × World :=
  let filename := key ++ wavExt
  let wavPath := PathForKey sv.cache key
  let out := sv.piper normalized wavPath w.dir.entries
  let w1 : World :=
    { w with dir := { w.dir with entries := out.2 },
             synthCalls := w.synthCalls ++ [(normalized, wavPath)] }
  if out.1 then
    (.error 500 "internal error".toList, { w1 with log := w1.log ++ [.synthFailed] })
  else
    let r := EnforceLimit sv.sorter sv.cache w1.dir
    let w2 : World :=
      { w1 with dir := { w1.dir with entries := r.entries },
                enforceRuns := w1.enforceRuns + 1,
                log := w1.log ++ r.log ++ (if r.err then [.enforceFailed] else []) }
    (.json 200 "cache_miss".toList filename,
      { w2 with played := w2.played ++ [wavPath],
                log := w2.log ++ [.cacheMiss key (filepathBase wavPath)] })

/-- Go `Server.handleTTS`. -/
def handleTTS (sv : Server) (w : World) (r : Request) : Response × World :=
  if r.method ≠ "POST".toList then (.error 405 "method not allowed".toList, w)
  else
    match r.body with
    | none => (.error 400 "invalid json".toList, w)
    | some text =>
      let normalized := normalizeText text
      if normalized = [] then (.error 400 "text is required".toList, w)
      else
        let key := BuildKey sv.Sum256 sv.voiceID normalized
        let filename := key ++ wavExt
        let wavPath := PathForKey sv.cache key
        match osStat sv.cache w.dir wavPath with
        | .ok =>
          (.json 200 "cache_hit".toList filename,
            { w with dir := Touch sv.cache w.dir w.now wavPath,
                     played := w.played ++ [wavPath],
                     log := w.log ++ [.cacheHit key filename] })
        | .failed =>
          (.error 500 "internal error".toList, { w with log := w.log ++ [.statFailed] })
        | .notExist => handleMiss sv w normalized key

/-- The cache key of a request text: `BuildKey(s.cfg.VoiceID, normalized)`. -/
def Server.keyOf (sv : Server) (text : Str) : Str :=
  BuildKey sv.Sum256 sv.voiceID (normalizeText text)

/-- The artifact path of a request text: `s.cache.PathForKey(key)`. -/
def Server.pathOf (sv : Server) (text : Str) : Str := PathForKey sv.cache (sv.keyOf text)

/-- What the call of `Synthesize` for a request text answers. -/
def Server.synth (sv : Server) (w : World) (text : Str) : Bool × List Entry :=
  sv.piper (normalizeText text) (sv.pathOf text) w.dir.entries

/-- The cache directory after the call of `Synthesize` for a request text. -/
def Server.afterSynth (sv : Server) (w : World) (text : Str) : Dir :=
  { w.dir with entries := (sv.synth w text).2 }

/-- The state in which the next request arrives: the same directory entries and
records, with `os.Stat` failing or not as given. -/
def World.nextRequest (w : World) (statErr : Bool) : World :=
  { w with dir := { w.dir with statErr := statErr } }

/-- A well-formed POST request with the text `text`. -/
def postRequest (text : Str) : Request := { method := "POST".toList, body := some text }

/-- The `fakePiper` of the server tests: `os.WriteFile(outPath, []byte("wav"), 0o644)`
in the cache directory `dir`, at the time `t`; never fails. -/
def fakePiper (dir : Str) (t : Int) : Piper := fun _ outPath es =>
  if es.any (fun e => filepathJoin dir e.name = outPath) then
    (false, es.map (fun e =>
      if filepathJoin dir e.name = outPath then { e with size := 3, mod := t } else e))
  else
    (false, es ++ [{ name := filepathBase outPath, isDir := false, size := 3, mod := t,
                     infoErr := false, remove := .removed }])

/-- A synthesizer that always fails and writes nothing. -/
def failingPiper : Piper := fun _ _ es => (true, es)

/-- The server of the tests: voice "default", cache directory "/cache". -/
def testServer (maxBytes : Int) (piper : Piper) : Server :=
  { voiceID := "default".toList, cache := { dir := "/cache".toList, maxBytes := maxBytes },
    piper := piper, Sum256 := lowBytes, sorter := insertionSorter }

/-- A world with the directory `d`, where nothing has happened yet. -/
def freshWorld (d : Dir) : World :=
  { dir := d, now := 100, synthCalls := [], played := [], enforceRuns := 0, log := [] }

/-! ### The synthesis runner -/

/-- The files of a file system: the content at each path, `none` where there is
no file. -/
abbrev FS := Str → Option Str

/-- The file system with the content at one path replaced. -/
def FS.set (fs : FS) (path : Str) (v : Option Str) : FS :=
  fun q => if q = path then v else fs q

/-- Type `piperexec.Runner`, with the external engine: `engine args text tmp` is
what running the executable with the arguments `args` does, given the text on
its standard input and what is at the path of its `-f` argument: whether
`cmd.CombinedOutput` returns an error (the process could not run, exited with
a non-zero status or was killed at the deadline of the context) and what is at
that path afterwards.  The engine writes nowhere else. -/
structure Runner where
  /-- the executable -/
  execPath : Str
  /-- the voice model, the `-m` argument -/
  model : Str
  /-- further arguments -/
  flags : List Str
  /-- the external engine -/
  engine : List Str → Str → Option Str → Bool × Option Str

/-- What the system calls of one run of `Synthesize` answer. -/
structure SysCalls where
  /-- the `os.Remove` before the run fails and leaves the file -/
  firstRemoveFails : Bool
  /-- the `os.Remove` after a failure fails and leaves the file -/
  cleanupFails : Bool
  /-- `os.Rename` fails although the temporary file is there -/
  renameFails : Bool
  deriving DecidableEq, Repr

/-- The errors that `Synthesize` returns. -/
inductive SynthError where
  /-- "piper exec failed: %w" -/
  | execFailed
  /-- "rename piper output failed: %w" -/
  | renameFailed
  deriving DecidableEq, Repr

/-- Go `os.Remove(path)` with its error discarded (`_ = os.Remove(path)`). -/
def removeQuiet (fails : Bool) (fs : FS) (path : Str) : FS :=
  if fails then fs else fs.set path none

/-- Go `os.Rename(src, dst)`: whether it returns an error, and the files afterwards.
It fails when there is nothing at `src`; when it succeeds, `dst` holds what was
at `src`, in one step. -/
def osRename (fails : Bool) (fs : FS) (src dst : Str) : Bool × FS :=
  match fs src with
  | none => (true, fs)
  | some c => if fails then (true, fs) else (false, (fs.set src none).set dst (some c))

/-- What a run of `Synthesize` leaves. -/
structure SynthResult where
  /-- the error returned, `none` for `nil` -/
  err : Option SynthError
  /-- the files afterwards -/
  fs : FS
  /-- the records logged -/
  log : List LogRecord

/-- The arguments that `Synthesize` passes to the engine. -/
def Runner.args (r : Runner) (tmpPath : Str) : List Str :=
  ["-m".toList, r.model, "-f".toList, tmpPath] ++ r.flags

/-- The engine run of a run of `Synthesize`: `cmd.CombinedOutput()` after the
first removal of the temporary file. -/
def engineRun (r : Runner) (sys : SysCalls) (fs : FS) (text outPath : Str) :
    Bool × Option Str :=
  r.engine (r.args (outPath ++ tmpSuffix)) text
    (removeQuiet sys.firstRemoveFails fs (outPath ++ tmpSuffix) (outPath ++ tmpSuffix))

/-- Go `Runner.Synthesize`. -/
def Synthesize (r : Runner) (sys : SysCalls) (fs : FS) (text outPath : Str) : SynthResult :=
  let tmpPath := outPath ++ tmpSuffix
  let fs1 := removeQuiet sys.firstRemoveFails fs tmpPath
  let log1 := [LogRecord.piperInvoke r.execPath (r.args tmpPath)]
  let run := r.engine (r.args tmpPath) text (fs1 tmpPath)
  let fs2 := fs1.set tmpPath run.2
  if run.1 then
    { err := some .execFailed, fs := removeQuiet sys.cleanupFails fs2 tmpPath,
      log := log1 ++ [.piperFailed] }
  else
    match osRename sys.renameFails fs2 tmpPath outPath with
    | (true, fs3) =>
      { err := some .renameFailed, fs := removeQuiet sys.cleanupFails fs3 tmpPath,
        log := log1 ++ [.piperCompleted] }
    | (false, fs3) => { err := none, fs := fs3, log := log1 ++ [.piperCompleted] }

/-- What the engine leaves at the temporary path in a run of `Synthesize`. -/
def engineOutput (r : Runner) (sys : SysCalls) (fs : FS) (text outPath : Str) : Option Str :=
  (engineRun r sys fs text outPath).2

/-- Whether the engine run of a run of `Synthesize` fails. -/
def engineFails (r : Runner) (sys : SysCalls) (fs : FS) (text outPath : Str) : Bool :=
  (engineRun r sys fs text outPath).1

/-- Whether the rename of a run of `Synthesize` fails, given that the engine
run succeeded: the engine left nothing to rename, or the system call fails. -/
def renameFailsIn (r : Runner) (sys : SysCalls) (fs : FS) (text outPath : Str) : Bool :=
  (engineOutput r sys fs text outPath).isNone || sys.renameFails

/-- An engine that writes the text it reads as its output and succeeds. -/
def echoEngine : Runner :=
  { execPath := "/usr/local/bin/piper".toList, model := "voice.onnx".toList, flags := [],
    engine := fun _ text _ => (false, some text) }

/-- An engine that writes a part of its output and then fails. -/
def crashingEngine : Runner :=
  { execPath := "/usr/local/bin/piper".toList, model := "voice.onnx".toList, flags := [],
    engine := fun _ text _ => (true, some (text.take 1)) }

/-- A file system with one file. -/
def oneFile (path content : Str) : FS := fun q => if q = path then some content else none

/-- System calls that all succeed. -/
def allFine : SysCalls := { firstRemoveFails := false, cleanupFails := false, renameFails := false }

/-- System calls where the removal after a failure fails. -/
def cleanupBroken : SysCalls :=
  { firstRemoveFails := false, cleanupFails := true, renameFails := false }

/-! ### The command line input -/

/-- Go `strings.TrimSpace`: the text without its leading and trailing white
space. -/
def stringsTrimSpace (s : Str) : Str :=
  (((s.dropWhile isSpace).reverse).dropWhile isSpace).reverse

/-- The errors that `ResolveText` returns. -/
inductive ResolveError where
  /-- "stdin unavailable" -/
  | stdinUnavailable
  /-- the error of `io.ReadAll` or `os.ReadFile` -/
  | readFailed
  /-- "no input provided" -/
  | noInput
  /-- "input is empty" -/
  | inputEmpty
  deriving DecidableEq, Repr

instance : DecidableEq (Except ResolveError Str) := fun a b =>
  match a, b with
  | .ok x, .ok y =>
    if h : x = y then isTrue (by rw [h]) else isFalse (fun hc => h (Except.ok.inj hc))
  | .error x, .error y =>
    if h : x = y then isTrue (by rw [h]) else isFalse (fun hc => h (Except.error.inj hc))
  | .ok _, .error _ => isFalse (fun hc => Except.noConfusion hc)
  | .error _, .ok _ => isFalse (fun hc => Except.noConfusion hc)

/-- Go `cli.normalize`: the trimmed text, an error when it is empty. -/
def normalize (s : Str) : Except ResolveError Str :=
  let trimmed := stringsTrimSpace s
  if trimmed = [] then .error .inputEmpty else .ok trimmed

/-- Go `cli.ResolveText`.  The reader `stdin` is `none` for `nil`, else what
`io.ReadAll` reads from it (`none` when it returns an error); `readFile` is
`os.ReadFile` (`none` when it returns an error). -/
def ResolveText (readFile : Str → Option Str) (filePath : Str) (args : List Str)
    (stdin : Option (Option Str)) : Except ResolveError Str :=
  let filePath := stringsTrimSpace filePath
  if filePath = ['-'] then
    match stdin with
    | none => .error .stdinUnavailable
    | some none => .error .readFailed
    | some (some b) => normalize b
  else if filePath ≠ [] then
    match readFile filePath with
    | none => .error .readFailed
    | some b => normalize b
  else if args.length > 0 then normalize (stringsJoin args [' '])
  else .error .noInput

/-- The content of the source that the precedence on the trimmed path picks,
when there is one and it can be read: all of stdin for "-", the file for
another non-empty path, the arguments joined by single spaces for an empty
path with arguments. -/
def chosenSource (readFile : Str → Option Str) (filePath : Str) (args : List Str)
    (stdin : Option (Option Str)) : Option Str :=
  if stringsTrimSpace filePath = ['-'] then stdin.bind id
  else if stringsTrimSpace filePath ≠ [] then readFile (stringsTrimSpace filePath)
  else if args = [] then none
  else some (stringsJoin args [' '])

/-- A file system for `os.ReadFile` with the file of `TestResolveTextFromFile`. -/
def testReadFile : Str → Option Str :=
  fun path => if path = "/tmp/input.txt".toList then some "from file\n".toList else none

/-! ### Notions used in the statements -/

/-- The `fileInfo` that the scan builds for an entry. -/
def toFile (m : Manager) (e : Entry) : fileInfo :=
  { path := filepathJoin m.dir e.name, size := e.size, mod := e.mod }

/-- An artifact: a non-directory entry whose extension is ".wav". -/
def Entry.artifact (e : Entry) : Bool := !e.skipped

/-- An entry that the scan records: an artifact whose `Info` call succeeds. -/
def Entry.scanned (e : Entry) : Bool := e.artifact && !e.infoErr

/-- Sum of the sizes of the artifacts among the entries. -/
def artifactBytes (es : List Entry) : Int :=
  ((es.filter Entry.artifact).map (fun e => (e.size : Int))).sum

/-- Sum of the sizes of a list of files. -/
def sizeSum (fs : List fileInfo) : Int := (fs.map fileInfo.size).sum

/-- The names of a directory listing are pairwise distinct. -/
def NamesDistinct (es : List Entry) : Prop := (es.map Entry.name).Nodup

instance (es : List Entry) : Decidable (NamesDistinct es) :=
  inferInstanceAs (Decidable (es.map Entry.name).Nodup)

/-- The files that the eviction loop removes from a list in eviction order when
every removal succeeds: the shortest prefix after which the remaining sizes
sum to at most `max`. -/
def evictedPrefix (max : Int) : List fileInfo → List fileInfo
  | [] => []
  | f :: fs => if sizeSum (f :: fs) ≤ max then [] else f :: evictedPrefix max fs

/-- The files that stay behind `evictedPrefix`. -/
def keptSuffix (max : Int) : List fileInfo → List fileInfo
  | [] => []
  | f :: fs => if sizeSum (f :: fs) ≤ max then f :: fs else keptSuffix max fs

/-- The files that the scan finds when every `Info` call succeeds. -/
def artifactFiles (m : Manager) (es : List Entry) : List fileInfo :=
  (es.filter Entry.artifact).map (toFile m)

/-- The modification times of the artifacts are pairwise distinct. -/
def ModsDistinct (es : List Entry) : Prop := ((es.filter Entry.artifact).map Entry.mod).Nodup

instance (es : List Entry) : Decidable (ModsDistinct es) :=
  inferInstanceAs (Decidable ((es.filter Entry.artifact).map Entry.mod).Nodup)

/-- Ceiling of `a / b` on natural numbers. -/
def ceilDiv (a b : Nat) : Nat := (a + b - 1) / b

/-- The directory without its non-artifact entries. -/
def Dir.artifactsOnly (d : Dir) : Dir := { d with entries := d.entries.filter Entry.artifact }

/-- The files found by the scan of `EnforceLimit`. -/
def scannedFiles (m : Manager) (d : Dir) : List fileInfo := (scanLoop m d.entries [] 0).1

/-- The running total of `EnforceLimit` at its return, for a directory that is
read: the total of the scan when it is within the limit (line 82), else the
total at the end of the eviction loop. -/
def finalTotal (S : SliceSorter) (m : Manager) (d : Dir) : Int :=
  let scan := scanLoop m d.entries [] 0
  if scan.2 ≤ m.maxBytes then scan.2
  else (evictLoop m (S.sort scan.1) scan.2 d.entries []).1

/-- The file names on which the log shows an attempted removal: every attempt
of the eviction loop writes one record, with the path when it fails and with
the base name when it does not. -/
def attemptedBases : List LogRecord → List Str
  | [] => []
  | .removeFailed path :: rest => filepathBase path :: attemptedBases rest
  | .evicted base _ :: rest => base :: attemptedBases rest
  | _ :: rest => attemptedBases rest

/-- Sum of the sizes of the entries that the scan records. -/
def scannedBytes (es : List Entry) : Int :=
  ((es.filter Entry.scanned).map (fun e => (e.size : Int))).sum

/-- Sum of the sizes of the entries that the scan records and whose modification
time is not before the time `t`. -/
def bytesNotOlder (t : Int) (es : List Entry) : Int :=
  (((es.filter Entry.scanned).filter (fun e => decide (t ≤ e.mod))).map
    (fun e => (e.size : Int))).sum

/-- The number of "evicted" records in a log: the removals that did not fail. -/
def evictedCount : List LogRecord → Nat
  | [] => 0
  | .evicted _ _ :: rest => evictedCount rest + 1
  | _ :: rest => evictedCount rest

/-! ### Concrete states -/

/-- A regular file entry on which every system call succeeds. -/
def plainFile (name : String) (size : Nat) (mod : Int) : Entry :=
  { name := name.toList, isDir := false, size := size, mod := mod, infoErr := false,
    remove := .removed }

/-- A directory state without system-call failures. -/
def plainDir (es : List Entry) : Dir :=
  { readErr := false, statErr := false, chtimesErr := false, entries := es }

/-- The manager of `TestEnforceLimitEvictsOldest`: limit of 10 bytes. -/
def testManager : Manager := { dir := "/cache".toList, maxBytes := 10 }

/-- The directory of `TestEnforceLimitEvictsOldest`: three artifacts of 5 bytes
with ascending modification times and a temporary file. -/
def testDir : Dir :=
  plainDir [plainFile "a.wav" 5 1, plainFile "b.wav" 5 2, plainFile "c.wav" 5 3,
    plainFile "ignore.wav.tmp" 3 4]

/-- A manager with the default limit of the configuration, 512 MiB. -/
def defaultManager : Manager := { dir := "/cache".toList, maxBytes := 536870912 }

/-- A manager with a limit of zero bytes. -/
def zeroManager : Manager := { dir := "/cache".toList, maxBytes := 0 }

/-- Two sparse artifacts of 2^62 bytes each: their sizes add up to 2^63. -/
def hugeDir : Dir :=
  plainDir [plainFile "a.wav" (2 ^ 62) 1, plainFile "b.wav" (2 ^ 62) 2]

/-- The directory of the test when `os.ReadDir` fails on it. -/
def unreadableTestDir : Dir := { testDir with readErr := true }

/-- The directory of the test when `Info` fails on the oldest artifact. -/
def statFailingDir : Dir :=
  plainDir [{ plainFile "a.wav" 5 1 with infoErr := true }, plainFile "b.wav" 5 2,
    plainFile "c.wav" 5 3]

/-- The directory of the test when the removal of the oldest artifact fails. -/
def stuckDir : Dir :=
  plainDir [{ plainFile "a.wav" 5 1 with remove := .failed }, plainFile "b.wav" 5 2,
    plainFile "c.wav" 5 3, plainFile "ignore.wav.tmp" 3 4]

/-- A manager with a negative limit. -/
def negativeManager : Manager := { dir := "/cache".toList, maxBytes := -1 }

/-- The directory of `TestHandleTTSCacheHit`: the artifact of "hello world". -/
def hitDir : Dir :=
  plainDir [{ name := BuildKey lowBytes "default".toList "hello world".toList ++ wavExt,
              isDir := false, size := 4, mod := 10, infoErr := false, remove := .removed }]

/-- The directory of `TestHandleTTSCacheHit` when `os.Chtimes` fails on it. -/
def untouchableDir : Dir := { hitDir with chtimesErr := true }

/-- A cache directory with one artifact of 3 bytes whose modification time, 60,
is later than the time at which the synthesizer of the tests writes, 50. -/
def newerDir : Dir := plainDir [plainFile "other.wav" 3 60]

/-- A cache directory with one old artifact of 3 bytes whose removal fails. -/
def stuckOlderDir : Dir := plainDir [{ plainFile "other.wav" 3 10 with remove := .failed }]

/-- The server of the tests with the synthesizer of the tests, which writes 3
bytes at the time 50, under the limit `maxBytes`. -/
def fakeServer (maxBytes : Int) : Server := testServer maxBytes (fakePiper "/cache".toList 50)

/-- A cache directory with one old artifact of 3 bytes. -/
def olderDir : Dir := plainDir [plainFile "other.wav" 3 10]

/-- The text of the request of `TestHandleTTSSynthAndCache`. -/
def helloText : Str := "  hello   world ".toList

/-- The request of `TestHandleTTSSynthAndCache`. -/
def helloRequest : Request := postRequest helloText

/-- The state after the request of `TestHandleTTSSynthAndCache` has been answered,
from a state where nothing has happened yet. -/
def afterHello (maxBytes : Int) (d : Dir) : World :=
  (handleTTS (fakeServer maxBytes) (freshWorld d) helloRequest).2

/-- The request of `TestHandleTTSCacheHit`: the same words, other white space. -/
def helloAgain : Request := postRequest "hello   world".toList

/-- An empty cache directory that cannot be read: `os.ReadDir` fails. -/
def unreadableDir : Dir := { readErr := true, statErr := false, chtimesErr := false, entries := [] }

/-! ## Lemmas and theorems -/

theorem wrap64_eq_self (x : Int) (h1 : -(2 ^ 63) ≤ x) (h2 : x < 2 ^ 63) : wrap64 x = x := by
  unfold wrap64
  rw [Int.emod_eq_of_lt (by omega) (by omega)]
  omega

theorem filepathJoin_inj (dir a b : Str) (h : filepathJoin dir a = filepathJoin dir b) :
    a = b := by
  unfold filepathJoin at h
  have h2 := List.append_cancel_left h
  exact List.tail_eq_of_cons_eq h2

theorem scanLoop_files (m : Manager) (es : List Entry) (files : List fileInfo) (total : Int) :
    (scanLoop m es files total).1 = files ++ (es.filter Entry.scanned).map (toFile m) := by
  induction es generalizing files total with
  | nil => simp [scanLoop]
  | cons e es ih =>
    unfold scanLoop
    by_cases hd : e.isDir = true
    · simp [hd, ih, Entry.scanned, Entry.artifact, Entry.skipped]
    · by_cases hx : (filepathExt e.name != wavExt) = true
      · simp [hd, hx, ih, Entry.scanned, Entry.artifact, Entry.skipped]
      · by_cases hi : e.infoErr = true
        · simp [hd, hx, hi, ih, Entry.scanned, Entry.artifact, Entry.skipped]
        · simp [hd, hx, hi, ih, Entry.scanned, Entry.artifact, Entry.skipped, toFile]

theorem sizeSum_toFile_nonneg (m : Manager) (l : List Entry) :
    0 ≤ sizeSum (l.map (toFile m)) := by
  induction l with
  | nil => simp [sizeSum]
  | cons a l ih => simp [sizeSum, toFile] at ih ⊢; omega

theorem scanLoop_total (m : Manager) (es : List Entry) (files : List fileInfo) (total : Int)
    (h0 : 0 ≤ total)
    (hfit : total + sizeSum ((es.filter Entry.scanned).map (toFile m)) < 2 ^ 63) :
    (scanLoop m es files total).2 =
      total + sizeSum ((es.filter Entry.scanned).map (toFile m)) := by
  induction es generalizing files total with
  | nil => simp [scanLoop, sizeSum]
  | cons e es ih =>
    by_cases hk : e.scanned = true
    · have hf : (e :: es).filter Entry.scanned = e :: es.filter Entry.scanned := by
        rw [List.filter_cons]; simp [hk]
      rw [hf, List.map_cons] at hfit ⊢
      have hrest := sizeSum_toFile_nonneg m (es.filter Entry.scanned)
      have hsz : sizeSum (toFile m e :: (es.filter Entry.scanned).map (toFile m))
          = (e.size : Int) + sizeSum ((es.filter Entry.scanned).map (toFile m)) := by
        simp [sizeSum, toFile]
      rw [hsz] at hfit ⊢
      have hw : wrap64 (total + e.size) = total + e.size :=
        wrap64_eq_self _ (by omega) (by omega)
      simp [Entry.scanned, Entry.artifact, Entry.skipped] at hk
      unfold scanLoop
      simp only [hk.1.1, hk.2, hw]
      simp only [bne_iff_ne, ne_eq, hk.1.2, not_true_eq_false, Bool.false_eq_true, if_false]
      rw [ih _ _ (by omega) (by omega)]
      omega
    · have hf : (e :: es).filter Entry.scanned = es.filter Entry.scanned := by
        rw [List.filter_cons]; simp [hk]
      rw [hf] at hfit ⊢
      have := ih files total h0 hfit
      simp [Entry.scanned, Entry.artifact, Entry.skipped] at hk
      unfold scanLoop
      by_cases hd : e.isDir = true
      · simp [hd, this]
      · by_cases hx : (filepathExt e.name != wavExt) = true
        · simp [hd, hx, this]
        · have hi : e.infoErr = true := by
            apply hk
            · simpa using hd
            · simpa using hx
          simp [hd, hx, hi, this]

theorem osRemove_filter (m : Manager) (es : List Entry) (path : Str)
    (h : (osRemove m es path).1 ≠ .failed) :
    (osRemove m es path).2 = es.filter (fun e => filepathJoin m.dir e.name ≠ path) := by
  unfold osRemove at h ⊢
  cases hf : es.find? (fun e => filepathJoin m.dir e.name = path) with
  | none =>
    have hall := List.find?_eq_none.mp hf
    symm
    apply List.filter_eq_self.mpr
    intro a ha
    simpa using hall a ha
  | some e =>
    rw [hf] at h
    cases hr : e.remove with
    | failed => simp [hr] at h
    | removed => simp [hr]
    | notExist => simp [hr]

theorem evictLoop_cons (m : Manager) (f : fileInfo) (fs : List fileInfo) (total : Int)
    (es : List Entry) (log : List LogRecord) :
    evictLoop m (f :: fs) total es log =
      if total ≤ m.maxBytes then (total, es, log)
      else
        match osRemove m es f.path with
        | (.failed, es2) => evictLoop m fs total es2 (log ++ [.removeFailed f.path])
        | (_, es2) =>
          evictLoop m fs (wrap64 (total - f.size)) es2
            (log ++ [.evicted (filepathBase f.path) f.size]) := by
  rfl

theorem evictLoop_log (m : Manager) (fs : List fileInfo) (total : Int) (es : List Entry)
    (log : List LogRecord) (r : LogRecord) (hr : r ∈ log) :
    r ∈ (evictLoop m fs total es log).2.2 := by
  induction fs generalizing total es log with
  | nil => simpa [evictLoop] using hr
  | cons f fs ih =>
    unfold evictLoop
    by_cases hle : total ≤ m.maxBytes
    · simpa [hle] using hr
    · simp only [hle, if_false]
      rcases hx : osRemove m es f.path with ⟨x, es2⟩
      cases x with
      | failed => exact ih _ _ _ (List.mem_append_left _ hr)
      | removed => exact ih _ _ _ (List.mem_append_left _ hr)
      | notExist => exact ih _ _ _ (List.mem_append_left _ hr)

theorem sizeSum_cons (f : fileInfo) (fs : List fileInfo) :
    sizeSum (f :: fs) = f.size + sizeSum fs := by
  simp [sizeSum]

theorem sizeSum_nonneg (fs : List fileInfo) (hnn : ∀ f ∈ fs, 0 ≤ f.size) : 0 ≤ sizeSum fs := by
  induction fs with
  | nil => simp [sizeSum]
  | cons f fs ih =>
    rw [sizeSum_cons]
    have h1 := hnn f (List.mem_cons_self _ _)
    have h2 := ih (fun g hg => hnn g (List.mem_cons_of_mem _ hg))
    omega

theorem evictLoop_ok (m : Manager) (fs : List fileInfo) (es : List Entry) (log : List LogRecord)
    (hlog : ∀ p, LogRecord.removeFailed p ∉ (evictLoop m fs (sizeSum fs) es log).2.2)
    (hnn : ∀ f ∈ fs, 0 ≤ f.size) (hfit : sizeSum fs < 2 ^ 63) :
    (evictLoop m fs (sizeSum fs) es log).1 = sizeSum (keptSuffix m.maxBytes fs) ∧
    (evictLoop m fs (sizeSum fs) es log).2.1 =
      es.filter (fun e => filepathJoin m.dir e.name ∉ (evictedPrefix m.maxBytes fs).map fileInfo.path) := by
  induction fs generalizing es log with
  | nil => simp [evictLoop, keptSuffix, evictedPrefix]
  | cons f fs ih =>
    by_cases hle : sizeSum (f :: fs) ≤ m.maxBytes
    · unfold evictLoop
      simp [hle, keptSuffix, evictedPrefix]
    · have hf0 := hnn f (List.mem_cons_self _ _)
      have hnn2 : ∀ g ∈ fs, 0 ≤ g.size := fun g hg => hnn g (List.mem_cons_of_mem _ hg)
      have hs0 := sizeSum_nonneg fs hnn2
      have hsz := sizeSum_cons f fs
      have hw : wrap64 (sizeSum (f :: fs) - f.size) = sizeSum fs := by
        rw [wrap64_eq_self _ (by omega) (by omega)]; omega
      have hstep : evictLoop m (f :: fs) (sizeSum (f :: fs)) es log =
          evictLoop m fs (sizeSum fs) (es.filter (fun e => filepathJoin m.dir e.name ≠ f.path))
            (log ++ [.evicted (filepathBase f.path) f.size]) := by
        have hfl := osRemove_filter m es f.path
        have hlog2 := hlog f.path
        rw [evictLoop_cons] at hlog2 ⊢
        simp only [hle, if_false] at hlog2 ⊢
        rcases hx : osRemove m es f.path with ⟨x, es2⟩
        rw [hx] at hlog2 hfl
        cases x with
        | failed =>
          exfalso
          apply hlog2
          exact evictLoop_log _ _ _ _ _ _ (by simp)
        | removed => simp only [hw]; rw [← hfl (by simp)]
        | notExist => simp only [hw]; rw [← hfl (by simp)]
      rw [hstep] at hlog ⊢
      have ih2 := ih _ _ hlog hnn2 (by omega)
      rw [ih2.1, ih2.2]
      simp [keptSuffix, evictedPrefix, hle, List.filter_filter]
      apply List.filter_congr
      intro e _
      by_cases hp : filepathJoin m.dir e.name = f.path <;> simp [hp]

theorem evicted_append_kept (max : Int) (l : List fileInfo) :
    evictedPrefix max l ++ keptSuffix max l = l := by
  induction l with
  | nil => rfl
  | cons f fs ih =>
    by_cases h : sizeSum (f :: fs) ≤ max
    · simp [evictedPrefix, keptSuffix, h]
    · simp [evictedPrefix, keptSuffix, h, ih]

theorem evictedPrefix_of_le (max : Int) (l : List fileInfo) (h : sizeSum l ≤ max) :
    evictedPrefix max l = [] := by
  cases l with
  | nil => rfl
  | cons f fs => simp [evictedPrefix, h]

theorem sizeSum_kept_le (max : Int) (l : List fileInfo) (h0 : 0 ≤ max) :
    sizeSum (keptSuffix max l) ≤ max := by
  induction l with
  | nil => simpa [keptSuffix, sizeSum] using h0
  | cons f fs ih =>
    by_cases h : sizeSum (f :: fs) ≤ max
    · simp [keptSuffix, h]
    · simpa [keptSuffix, h] using ih

theorem sizeSum_perm {l1 l2 : List fileInfo} (h : l1.Perm l2) : sizeSum l1 = sizeSum l2 := by
  unfold sizeSum
  exact (h.map fileInfo.size).sum_eq

theorem filter_notin_evicted (max : Int) (l : List fileInfo) (hnd : (l.map fileInfo.path).Nodup) :
    l.filter (fun f => f.path ∉ (evictedPrefix max l).map fileInfo.path) = keptSuffix max l := by
  have happ := evicted_append_kept max l
  rw [← happ, List.map_append, List.nodup_append] at hnd
  obtain ⟨_, _, hdis⟩ := hnd
  have hgen : ∀ q : fileInfo → Bool,
      l.filter q = (evictedPrefix max l).filter q ++ (keptSuffix max l).filter q := by
    intro q; rw [← List.filter_append, happ]
  have h1 : (evictedPrefix max l).filter
      (fun f => f.path ∉ (evictedPrefix max l).map fileInfo.path) = [] := by
    apply List.filter_eq_nil_iff.mpr
    intro a ha
    simpa using ⟨a, ha, rfl⟩
  have h2 : (keptSuffix max l).filter
      (fun f => f.path ∉ (evictedPrefix max l).map fileInfo.path) = keptSuffix max l := by
    apply List.filter_eq_self.mpr
    intro a ha
    have hin : a.path ∈ (keptSuffix max l).map fileInfo.path := List.mem_map_of_mem _ ha
    have : a.path ∉ (evictedPrefix max l).map fileInfo.path := fun hc => hdis hc hin
    simpa using this
  rw [hgen, h1, h2, List.nil_append]

theorem filter_scanned_eq (es : List Entry) (hinfo : ∀ e ∈ es, e.infoErr = false) :
    es.filter Entry.scanned = es.filter Entry.artifact := by
  apply List.filter_congr
  intro e he
  simp [Entry.scanned, hinfo e he]

theorem sizeSum_artifactFiles (m : Manager) (es : List Entry) :
    sizeSum (artifactFiles m es) = artifactBytes es := by
  simp [sizeSum, artifactFiles, artifactBytes, List.map_map, Function.comp_def, toFile]

theorem artifactFiles_nonneg (m : Manager) (es : List Entry) :
    ∀ f ∈ artifactFiles m es, 0 ≤ f.size := by
  intro f hf
  simp [artifactFiles, toFile] at hf
  obtain ⟨e, _, rfl⟩ := hf
  simp

theorem artifactFiles_nodup (m : Manager) (es : List Entry) (hnd : NamesDistinct es) :
    ((artifactFiles m es).map fileInfo.path).Nodup := by
  unfold artifactFiles NamesDistinct at *
  rw [List.map_map]
  have hsub : ((es.filter Entry.artifact).map Entry.name).Nodup :=
    (hnd.sublist ((List.filter_sublist es).map Entry.name))
  have : (fileInfo.path ∘ toFile m) = (fun n => filepathJoin m.dir n) ∘ Entry.name := by
    funext e; rfl
  rw [this, ← List.map_map]
  exact hsub.map (fun a b h => filepathJoin_inj _ _ _ h)

/-- The entries left by `EnforceLimit` when the directory is read, every `Info`
call succeeds, no removal fails and the sizes add up without overflow: the
entries whose path is not among the evicted prefix of the sorted files. -/
theorem enforce_entries (S : SliceSorter) (m : Manager) (d : Dir)
    (hread : d.readErr = false)
    (hinfo : ∀ e ∈ d.entries, e.infoErr = false)
    (hlog : ∀ p, LogRecord.removeFailed p ∉ (EnforceLimit S m d).log)
    (hfit : artifactBytes d.entries < 2 ^ 63) :
    (EnforceLimit S m d).err = false ∧
    (EnforceLimit S m d).entries =
      d.entries.filter (fun e => filepathJoin m.dir e.name ∉
        (evictedPrefix m.maxBytes (S.sort (artifactFiles m d.entries))).map fileInfo.path) := by
  have hfiles : (scanLoop m d.entries [] 0).1 = artifactFiles m d.entries := by
    rw [scanLoop_files, filter_scanned_eq _ hinfo]; rfl
  have hsum := sizeSum_artifactFiles m d.entries
  have htot : (scanLoop m d.entries [] 0).2 = sizeSum (artifactFiles m d.entries) := by
    rw [scanLoop_total m d.entries [] 0 (le_refl 0)]
    · rw [filter_scanned_eq _ hinfo]; simp [artifactFiles]
    · rw [filter_scanned_eq _ hinfo]
      change 0 + sizeSum (artifactFiles m d.entries) < 2 ^ 63
      omega
  have hperm := sizeSum_perm (S.perm (artifactFiles m d.entries))
  unfold EnforceLimit at hlog ⊢
  simp only [hread, Bool.false_eq_true, if_false, hfiles, htot] at hlog ⊢
  by_cases hle : sizeSum (artifactFiles m d.entries) ≤ m.maxBytes
  · simp only [hle, if_true]
    refine ⟨trivial, ?_⟩
    rw [evictedPrefix_of_le _ _ (by omega)]
    simp
  · simp only [hle, if_false] at hlog ⊢
    refine ⟨trivial, ?_⟩
    rw [← hperm] at hlog ⊢
    refine (evictLoop_ok m _ d.entries [] hlog ?_ (by omega)).2
    intro f hf
    exact artifactFiles_nonneg m d.entries f ((S.perm _).mem_iff.mp hf)

theorem artifactFiles_filter (m : Manager) (es : List Entry) (P : List Str) :
    artifactFiles m (es.filter (fun e => filepathJoin m.dir e.name ∉ P)) =
      (artifactFiles m es).filter (fun f => f.path ∉ P) := by
  unfold artifactFiles
  rw [List.filter_map, List.filter_filter, List.filter_filter]
  congr 1
  apply List.filter_congr
  intro e _
  simp [toFile, Bool.and_comm]

/-- The artifacts left by `EnforceLimit`, as files, are a permutation of the
kept suffix of the sorted files. -/
theorem enforce_artifacts_perm (S : SliceSorter) (m : Manager) (d : Dir)
    (hread : d.readErr = false)
    (hinfo : ∀ e ∈ d.entries, e.infoErr = false)
    (hlog : ∀ p, LogRecord.removeFailed p ∉ (EnforceLimit S m d).log)
    (hnames : NamesDistinct d.entries)
    (hfit : artifactBytes d.entries < 2 ^ 63) :
    (artifactFiles m (EnforceLimit S m d).entries).Perm
      (keptSuffix m.maxBytes (S.sort (artifactFiles m d.entries))) := by
  rw [(enforce_entries S m d hread hinfo hlog hfit).2, artifactFiles_filter]
  have hp := S.perm (artifactFiles m d.entries)
  have hnd : ((S.sort (artifactFiles m d.entries)).map fileInfo.path).Nodup :=
    ((hp.map fileInfo.path).nodup_iff).mpr (artifactFiles_nodup m d.entries hnames)
  rw [← filter_notin_evicted m.maxBytes _ hnd]
  exact (hp.filter _).symm

theorem names_inj {es : List Entry} (hnames : NamesDistinct es) {e e2 : Entry}
    (he : e ∈ es) (he2 : e2 ∈ es) (h : e.name = e2.name) : e = e2 :=
  List.inj_on_of_nodup_map hnames he he2 h

theorem mem_artifactFiles (m : Manager) (es : List Entry) (g : fileInfo) :
    g ∈ artifactFiles m es ↔ ∃ e ∈ es, e.artifact = true ∧ toFile m e = g := by
  simp [artifactFiles, and_assoc]

theorem toFile_mem_artifactFiles (m : Manager) (es : List Entry) (e : Entry)
    (he : e ∈ es) (ha : e.artifact = true) : toFile m e ∈ artifactFiles m es :=
  (mem_artifactFiles m es _).mpr ⟨e, he, ha, rfl⟩

/-- With distinct names, the path of an entry is the path of one of the files
`ev` found by the scan only if the entry is the artifact behind that file. -/
theorem path_mem_iff (m : Manager) (es : List Entry) (hnames : NamesDistinct es)
    (ev : List fileInfo) (hev : ∀ g ∈ ev, g ∈ artifactFiles m es) (e : Entry) (he : e ∈ es) :
    filepathJoin m.dir e.name ∈ ev.map fileInfo.path ↔
      (e.artifact = true ∧ toFile m e ∈ ev) := by
  constructor
  · intro h
    obtain ⟨g, hg, hgp⟩ := List.mem_map.mp h
    obtain ⟨e0, he0, ha0, rfl⟩ := (mem_artifactFiles m es g).mp (hev g hg)
    have hname : e0.name = e.name := filepathJoin_inj _ _ _ hgp
    have := names_inj hnames he0 he hname
    subst this
    exact ⟨ha0, hg⟩
  · rintro ⟨_, h⟩
    exact List.mem_map.mpr ⟨toFile m e, h, rfl⟩

/-- The entries that `EnforceLimit` removes are the artifacts behind the evicted
prefix of the sorted files. -/
theorem enforce_deleted_iff (S : SliceSorter) (m : Manager) (d : Dir)
    (hread : d.readErr = false)
    (hinfo : ∀ e ∈ d.entries, e.infoErr = false)
    (hlog : ∀ p, LogRecord.removeFailed p ∉ (EnforceLimit S m d).log)
    (hnames : NamesDistinct d.entries)
    (hfit : artifactBytes d.entries < 2 ^ 63) (e : Entry) (he : e ∈ d.entries) :
    e ∉ (EnforceLimit S m d).entries ↔
      (e.artifact = true ∧
        toFile m e ∈ evictedPrefix m.maxBytes (S.sort (artifactFiles m d.entries))) := by
  rw [(enforce_entries S m d hread hinfo hlog hfit).2]
  have hev : ∀ g ∈ evictedPrefix m.maxBytes (S.sort (artifactFiles m d.entries)),
      g ∈ artifactFiles m d.entries := by
    intro g hg
    apply (S.perm _).mem_iff.mp
    rw [← evicted_append_kept m.maxBytes (S.sort (artifactFiles m d.entries))]
    exact List.mem_append_left _ hg
  rw [← path_mem_iff m d.entries hnames _ hev e he]
  simp [List.mem_filter, he]

/-- The artifacts that `EnforceLimit` leaves are those behind the kept suffix of
the sorted files. -/
theorem enforce_kept_iff (S : SliceSorter) (m : Manager) (d : Dir)
    (hread : d.readErr = false)
    (hinfo : ∀ e ∈ d.entries, e.infoErr = false)
    (hlog : ∀ p, LogRecord.removeFailed p ∉ (EnforceLimit S m d).log)
    (hnames : NamesDistinct d.entries)
    (hfit : artifactBytes d.entries < 2 ^ 63) (e : Entry) (he : e ∈ d.entries)
    (ha : e.artifact = true) :
    e ∈ (EnforceLimit S m d).entries ↔
      toFile m e ∈ keptSuffix m.maxBytes (S.sort (artifactFiles m d.entries)) := by
  have hdel := enforce_deleted_iff S m d hread hinfo hlog hnames hfit e he
  have happ := evicted_append_kept m.maxBytes (S.sort (artifactFiles m d.entries))
  have hp := S.perm (artifactFiles m d.entries)
  have hnd : (S.sort (artifactFiles m d.entries)).Nodup :=
    List.Nodup.of_map _ (((hp.map fileInfo.path).nodup_iff).mpr
      (artifactFiles_nodup m d.entries hnames))
  have hmem : toFile m e ∈ S.sort (artifactFiles m d.entries) :=
    hp.mem_iff.mpr (toFile_mem_artifactFiles m d.entries e he ha)
  rw [← happ] at hnd hmem
  have hdis := (List.nodup_append.mp hnd).2.2
  constructor
  · intro hin
    rcases List.mem_append.mp hmem with h | h
    · exact absurd hin (hdel.mpr ⟨ha, h⟩)
    · exact h
  · intro hk
    by_contra hn
    exact hdis (hdel.mp hn).2 hk

/-- Every evicted file heads a suffix of the list whose sizes exceed the limit:
the running total just before its removal. -/
theorem evicted_suffix (max : Int) (l : List fileInfo) (f : fileInfo)
    (hf : f ∈ evictedPrefix max l) :
    ∃ pre post, l = pre ++ f :: post ∧ max < sizeSum (f :: post) := by
  induction l with
  | nil => simp [evictedPrefix] at hf
  | cons g gs ih =>
    by_cases h : sizeSum (g :: gs) ≤ max
    · simp [evictedPrefix, h] at hf
    · simp only [evictedPrefix, h, if_false, List.mem_cons] at hf
      rcases hf with rfl | hf
      · exact ⟨[], gs, rfl, by omega⟩
      · obtain ⟨pre, post, hl, hgt⟩ := ih hf
        exact ⟨g :: pre, post, by rw [hl]; rfl, hgt⟩

/-- In a list sorted by strictly increasing time, the files not older than `f`
are `f` and what follows it. -/
theorem filter_ge_of_sorted (pre post : List fileInfo) (f : fileInfo)
    (hs : (pre ++ f :: post).Pairwise (fun a b => a.mod < b.mod)) :
    (pre ++ f :: post).filter (fun g => f.mod ≤ g.mod) = f :: post := by
  rw [List.pairwise_append] at hs
  obtain ⟨_, hpost, hcross⟩ := hs
  rw [List.pairwise_cons] at hpost
  rw [List.filter_append]
  have h1 : pre.filter (fun g => decide (f.mod ≤ g.mod)) = [] := by
    apply List.filter_eq_nil_iff.mpr
    intro a ha
    have := hcross a ha f (List.mem_cons_self _ _)
    simp only [decide_eq_true_eq]
    omega
  have h2 : (f :: post).filter (fun g => decide (f.mod ≤ g.mod)) = f :: post := by
    apply List.filter_eq_self.mpr
    intro a ha
    simp only [decide_eq_true_eq]
    rcases List.mem_cons.mp ha with rfl | ha
    · exact le_refl _
    · exact le_of_lt (hpost.1 a ha)
  rw [h1, h2, List.nil_append]

theorem sorted_strict (S : SliceSorter) (m : Manager) (es : List Entry)
    (hmods : ModsDistinct es) :
    (S.sort (artifactFiles m es)).Pairwise (fun a b => a.mod < b.mod) := by
  have hp := S.perm (artifactFiles m es)
  have hnd : ((S.sort (artifactFiles m es)).map fileInfo.mod).Nodup := by
    apply ((hp.map fileInfo.mod).nodup_iff).mpr
    unfold artifactFiles
    rw [List.map_map]
    exact hmods
  have hne : (S.sort (artifactFiles m es)).Pairwise (fun a b => a.mod ≠ b.mod) := by
    rw [List.Nodup, List.pairwise_map] at hnd
    exact hnd
  refine ((S.sorted (artifactFiles m es)).and hne).imp ?_
  intro a b hab
  have h1 := hab.1
  have h2 := hab.2
  omega

theorem artifactFiles_filter_mod (m : Manager) (es : List Entry) (t : Int) :
    artifactFiles m (es.filter (fun e => t ≤ e.mod)) =
      (artifactFiles m es).filter (fun f => t ≤ f.mod) := by
  unfold artifactFiles
  rw [List.filter_map, List.filter_filter, List.filter_filter]
  congr 1
  apply List.filter_congr
  intro e _
  simp [toFile, Bool.and_comm]

theorem enforce_sublist (S : SliceSorter) (m : Manager) (d : Dir)
    (hread : d.readErr = false)
    (hinfo : ∀ e ∈ d.entries, e.infoErr = false)
    (hlog : ∀ p, LogRecord.removeFailed p ∉ (EnforceLimit S m d).log)
    (hfit : artifactBytes d.entries < 2 ^ 63) :
    (EnforceLimit S m d).entries.Sublist d.entries := by
  rw [(enforce_entries S m d hread hinfo hlog hfit).2]
  exact List.filter_sublist _

/-- Every removed artifact is older than every artifact left. -/
theorem enforce_older (S : SliceSorter) (m : Manager) (d : Dir)
    (hread : d.readErr = false)
    (hinfo : ∀ e ∈ d.entries, e.infoErr = false)
    (hlog : ∀ p, LogRecord.removeFailed p ∉ (EnforceLimit S m d).log)
    (hnames : NamesDistinct d.entries) (hmods : ModsDistinct d.entries)
    (hfit : artifactBytes d.entries < 2 ^ 63)
    (e : Entry) (he : e ∈ d.entries) (hdel : e ∉ (EnforceLimit S m d).entries)
    (e2 : Entry) (he2 : e2 ∈ (EnforceLimit S m d).entries) (ha2 : e2.artifact = true) :
    e.mod < e2.mod := by
  have h1 := (enforce_deleted_iff S m d hread hinfo hlog hnames hfit e he).mp hdel
  have he2d : e2 ∈ d.entries := (enforce_sublist S m d hread hinfo hlog hfit).subset he2
  have h2 := (enforce_kept_iff S m d hread hinfo hlog hnames hfit e2 he2d ha2).mp he2
  have hs := sorted_strict S m d.entries hmods
  rw [← evicted_append_kept m.maxBytes (S.sort (artifactFiles m d.entries)),
    List.pairwise_append] at hs
  exact hs.2.2 _ h1.2 _ h2

/-- Just before an artifact is removed, the running total - the sizes of the
artifacts that are not older than it - exceeds the limit. -/
theorem enforce_total_before (S : SliceSorter) (m : Manager) (d : Dir)
    (hread : d.readErr = false)
    (hinfo : ∀ e ∈ d.entries, e.infoErr = false)
    (hlog : ∀ p, LogRecord.removeFailed p ∉ (EnforceLimit S m d).log)
    (hnames : NamesDistinct d.entries) (hmods : ModsDistinct d.entries)
    (hfit : artifactBytes d.entries < 2 ^ 63)
    (e : Entry) (he : e ∈ d.entries) (hdel : e ∉ (EnforceLimit S m d).entries) :
    m.maxBytes < artifactBytes (d.entries.filter (fun e2 => e.mod ≤ e2.mod)) := by
  have h1 := (enforce_deleted_iff S m d hread hinfo hlog hnames hfit e he).mp hdel
  obtain ⟨pre, post, hl, hgt⟩ := evicted_suffix _ _ _ h1.2
  have hs := sorted_strict S m d.entries hmods
  rw [hl] at hs
  have hflt := filter_ge_of_sorted pre post (toFile m e) hs
  rw [← hl] at hflt
  have hp := (S.perm (artifactFiles m d.entries)).filter (fun g => (toFile m e).mod ≤ g.mod)
  rw [hflt] at hp
  rw [← sizeSum_artifactFiles m, artifactFiles_filter_mod]
  have hsz := sizeSum_perm hp
  change sizeSum (toFile m e :: post) =
    sizeSum ((artifactFiles m d.entries).filter (fun f => decide (e.mod ≤ f.mod))) at hsz
  rw [← hsz]
  exact hgt

/-- Entries that are not artifacts are never removed. -/
theorem enforce_keeps_others (S : SliceSorter) (m : Manager) (d : Dir)
    (hread : d.readErr = false)
    (hinfo : ∀ e ∈ d.entries, e.infoErr = false)
    (hlog : ∀ p, LogRecord.removeFailed p ∉ (EnforceLimit S m d).log)
    (hnames : NamesDistinct d.entries)
    (hfit : artifactBytes d.entries < 2 ^ 63)
    (e : Entry) (he : e ∈ d.entries) (ha : e.artifact = false) :
    e ∈ (EnforceLimit S m d).entries := by
  by_contra hn
  have := (enforce_deleted_iff S m d hread hinfo hlog hnames hfit e he).mp hn
  rw [ha] at this
  exact absurd this.1 (by simp)

theorem kept_le_or_nil (max : Int) (l : List fileInfo) :
    sizeSum (keptSuffix max l) ≤ max ∨ keptSuffix max l = [] := by
  induction l with
  | nil => right; rfl
  | cons f fs ih =>
    by_cases h : sizeSum (f :: fs) ≤ max
    · left; simp [keptSuffix, h]
    · simpa [keptSuffix, h] using ih

theorem ceilDiv_spec (a b : Nat) (hb : 0 < b) :
    a ≤ b * ceilDiv a b ∧ (0 < a → b * (ceilDiv a b - 1) < a) := by
  unfold ceilDiv
  have h1 := Nat.div_add_mod (a + b - 1) b
  have h2 := Nat.mod_lt (a + b - 1) hb
  constructor
  · omega
  · intro ha
    have h3 : 1 ≤ (a + b - 1) / b := by
      apply (Nat.one_le_div_iff hb).mpr
      omega
    have h4 : b * ((a + b - 1) / b - 1) = b * ((a + b - 1) / b) - b := by
      rw [Nat.mul_sub, Nat.mul_one]
    rw [h4]
    omega

theorem sizeSum_uniform (s : Nat) (l : List fileInfo) (hall : ∀ f ∈ l, f.size = (s : Int)) :
    sizeSum l = ((l.length * s : Nat) : Int) := by
  induction l with
  | nil => simp [sizeSum]
  | cons f fs ih =>
    rw [sizeSum_cons, ih (fun g hg => hall g (List.mem_cons_of_mem _ hg)),
      hall f (List.mem_cons_self _ _)]
    simp only [List.length_cons]
    push_cast
    ring

/-- With files of one size `s`, the eviction loop removes the ceiling of
`(n * s - B) / s` files. -/
theorem evictedPrefix_length_uniform (B : Int) (hB : 0 ≤ B) (s : Nat) (hs : 0 < s)
    (l : List fileInfo) (hall : ∀ f ∈ l, f.size = (s : Int)) :
    (evictedPrefix B l).length = ceilDiv (l.length * s - B.toNat) s := by
  induction l with
  | nil =>
    simp only [evictedPrefix, List.length_nil, Nat.zero_mul, Nat.zero_sub, ceilDiv, Nat.zero_add]
    exact (Nat.div_eq_of_lt (by omega)).symm
  | cons f fs ih =>
    have hall2 : ∀ g ∈ fs, g.size = (s : Int) := fun g hg => hall g (List.mem_cons_of_mem _ hg)
    have hsum := sizeSum_uniform s (f :: fs) hall
    have ih2 := ih hall2
    simp only [List.length_cons] at hsum ⊢
    have hmul : (fs.length + 1) * s = fs.length * s + s := Nat.succ_mul _ _
    rw [hmul] at hsum ⊢
    generalize fs.length * s = p at hsum ih2 ⊢
    have hb : ((B.toNat : Nat) : Int) = B := Int.toNat_of_nonneg hB
    generalize B.toNat = b at hb ih2 ⊢
    unfold ceilDiv at ih2 ⊢
    by_cases h : sizeSum (f :: fs) ≤ B
    · simp only [evictedPrefix, h, if_true, List.length_nil]
      have : p + s ≤ b := by omega
      exact (Nat.div_eq_of_lt (by omega)).symm
    · simp only [evictedPrefix, h, if_false, List.length_cons, ih2]
      have hlt : b < p + s := by omega
      by_cases hp : b ≤ p
      · have : p + s - b + s - 1 = (p - b + s - 1) + s := by omega
        rw [this, Nat.add_div_right _ hs]
      · have h0 : (p - b + s - 1) / s = 0 := Nat.div_eq_of_lt (by omega)
        rw [h0]
        symm
        apply Nat.div_eq_of_lt_le <;> omega

theorem scanLoop_filter (m : Manager) (es : List Entry) (files : List fileInfo) (total : Int) :
    scanLoop m (es.filter Entry.artifact) files total = scanLoop m es files total := by
  induction es generalizing files total with
  | nil => rfl
  | cons e es ih =>
    by_cases ha : e.artifact = true
    · rw [List.filter_cons_of_pos ha]
      unfold scanLoop
      simp only [ih]
    · rw [List.filter_cons_of_neg ha, ih]
      simp [Entry.artifact, Entry.skipped] at ha
      conv_rhs => unfold scanLoop
      by_cases hd : e.isDir = true
      · simp [hd]
      · have hx := ha (by simpa using hd)
        simp [hd, hx]

theorem find_filter_eq {α : Type} (p q : α → Bool) (l : List α)
    (h : ∀ a ∈ l, p a = true → q a = true) : (l.filter q).find? p = l.find? p := by
  induction l with
  | nil => rfl
  | cons a l ih =>
    have ih2 := ih (fun b hb => h b (List.mem_cons_of_mem _ hb))
    by_cases hq : q a = true
    · rw [List.filter_cons_of_pos hq, List.find?_cons, List.find?_cons, ih2]
    · rw [List.filter_cons_of_neg hq, ih2, List.find?_cons]
      have hp : p a = false := by
        by_contra hc
        exact hq (h a (List.mem_cons_self _ _) (by simpa using hc))
      simp [hp]

/-- Removing a path that only artifacts bear: the non-artifacts stay, and the
answer and the artifacts left are those of the directory without non-artifacts. -/
theorem osRemove_frame (m : Manager) (es : List Entry) (path : Str)
    (h : ∀ e ∈ es, filepathJoin m.dir e.name = path → e.artifact = true) :
    osRemove m (es.filter Entry.artifact) path =
      ((osRemove m es path).1, (osRemove m es path).2.filter Entry.artifact) ∧
    (osRemove m es path).2.filter (fun e => !e.artifact) = es.filter (fun e => !e.artifact) ∧
    (∀ e ∈ (osRemove m es path).2, e ∈ es) := by
  have hfind := find_filter_eq (fun e => decide (filepathJoin m.dir e.name = path))
    Entry.artifact es (fun e he hp => h e he (by simpa using hp))
  unfold osRemove
  rw [hfind]
  have hcomm : (es.filter Entry.artifact).filter (fun e => filepathJoin m.dir e.name ≠ path) =
      (es.filter (fun e => filepathJoin m.dir e.name ≠ path)).filter Entry.artifact := by
    rw [List.filter_filter, List.filter_filter]
    apply List.filter_congr
    intro e _
    exact Bool.and_comm _ _
  have hothers : (es.filter (fun e => filepathJoin m.dir e.name ≠ path)).filter
      (fun e => !e.artifact) = es.filter (fun e => !e.artifact) := by
    rw [List.filter_filter]
    apply List.filter_congr
    intro e he
    by_cases ha : e.artifact = true
    · simp [ha]
    · have : filepathJoin m.dir e.name ≠ path := fun hc => ha (h e he hc)
      simp [this]
  cases hf : es.find? (fun e => decide (filepathJoin m.dir e.name = path)) with
  | none => simp
  | some e0 =>
    cases hr : e0.remove with
    | failed => simp only [hr]; exact ⟨trivial, trivial, fun e he => he⟩
    | removed =>
      simp only [hr]
      exact ⟨by rw [hcomm], hothers, fun e he => List.mem_of_mem_filter he⟩
    | notExist =>
      simp only [hr]
      exact ⟨by rw [hcomm], hothers, fun e he => List.mem_of_mem_filter he⟩

/-- The eviction loop on candidates whose paths only artifacts bear: the
non-artifacts stay, and the run is the run on the directory without them. -/
theorem evictLoop_frame (m : Manager) (fs : List fileInfo) (total : Int) (es : List Entry)
    (log : List LogRecord)
    (h : ∀ f ∈ fs, ∀ e ∈ es, filepathJoin m.dir e.name = f.path → e.artifact = true) :
    evictLoop m fs total (es.filter Entry.artifact) log =
      ((evictLoop m fs total es log).1, (evictLoop m fs total es log).2.1.filter Entry.artifact,
        (evictLoop m fs total es log).2.2) ∧
    (evictLoop m fs total es log).2.1.filter (fun e => !e.artifact)
      = es.filter (fun e => !e.artifact) := by
  induction fs generalizing total es log with
  | nil => simp [evictLoop]
  | cons f fs ih =>
    rw [evictLoop_cons, evictLoop_cons]
    by_cases hle : total ≤ m.maxBytes
    · simp [hle]
    · simp only [hle, if_false]
      obtain ⟨h1, h2, h3⟩ := osRemove_frame m es f.path
        (fun e he hp => h f (List.mem_cons_self _ _) e he hp)
      have hrest : ∀ g ∈ fs, ∀ e ∈ (osRemove m es f.path).2,
          filepathJoin m.dir e.name = g.path → e.artifact = true :=
        fun g hg e he hp => h g (List.mem_cons_of_mem _ hg) e (h3 e he) hp
      rw [h1]
      rcases hx : osRemove m es f.path with ⟨x, es2⟩
      rw [hx] at h2 hrest
      cases x with
      | failed =>
        have := ih total es2 (log ++ [.removeFailed f.path]) hrest
        exact ⟨this.1, this.2.trans h2⟩
      | removed =>
        have := ih (wrap64 (total - f.size)) es2 (log ++ [.evicted (filepathBase f.path) f.size])
          hrest
        exact ⟨this.1, this.2.trans h2⟩
      | notExist =>
        have := ih (wrap64 (total - f.size)) es2 (log ++ [.evicted (filepathBase f.path) f.size])
          hrest
        exact ⟨this.1, this.2.trans h2⟩

theorem scan_paths_artifacts (S : SliceSorter) (m : Manager) (es : List Entry)
    (hnames : NamesDistinct es) :
    ∀ f ∈ S.sort (scanLoop m es [] 0).1, ∀ e ∈ es,
      filepathJoin m.dir e.name = f.path → e.artifact = true := by
  intro f hf e he hp
  have hf2 := (S.perm _).mem_iff.mp hf
  rw [scanLoop_files] at hf2
  simp only [List.nil_append, List.mem_map, List.mem_filter] at hf2
  obtain ⟨e0, ⟨he0, hs0⟩, rfl⟩ := hf2
  have hname : e.name = e0.name := filepathJoin_inj _ _ _ hp
  have := names_inj hnames he he0 hname
  subst this
  simp [Entry.scanned] at hs0
  exact hs0.1

/-- Running `EnforceLimit` on a directory with distinct names: the non-artifacts stay,
and the run is the run on the directory without them. -/
theorem enforce_frame (S : SliceSorter) (m : Manager) (d : Dir)
    (hnames : NamesDistinct d.entries) :
    EnforceLimit S m d.artifactsOnly =
      { err := (EnforceLimit S m d).err,
        entries := (EnforceLimit S m d).entries.filter Entry.artifact,
        log := (EnforceLimit S m d).log } ∧
    (EnforceLimit S m d).entries.filter (fun e => !e.artifact)
      = d.entries.filter (fun e => !e.artifact) := by
  unfold EnforceLimit Dir.artifactsOnly
  by_cases hread : d.readErr = true
  · simp [hread]
  · simp only [hread, Bool.false_eq_true, if_false, scanLoop_filter]
    by_cases hle : (scanLoop m d.entries [] 0).2 ≤ m.maxBytes
    · simp [hle]
    · simp only [hle, if_false]
      have := evictLoop_frame m (S.sort (scanLoop m d.entries [] 0).1)
        (scanLoop m d.entries [] 0).2 d.entries [] (scan_paths_artifacts S m d.entries hnames)
      rw [this.1]
      exact ⟨rfl, this.2⟩

theorem filepathExt_tmp (n : Str) : filepathExt (n ++ tmpSuffix) = tmpSuffix := by
  simp [filepathExt, tmpSuffix, extLoop]

theorem fieldsLoop_blank (s t : Str) (hs : IsBlank s) :
    fieldsLoop (s ++ t) [] = fieldsLoop t [] := by
  induction s with
  | nil => rfl
  | cons c cs ih =>
    have hc : isSpace c = true := hs c (List.mem_cons_self _ _)
    have := ih (fun x hx => hs x (List.mem_cons_of_mem _ hx))
    simp [fieldsLoop, hc, this]

theorem fieldsLoop_word (w t cur : Str) (hw : ∀ c ∈ w, isSpace c = false) :
    fieldsLoop (w ++ t) cur = fieldsLoop t (cur ++ w) := by
  induction w generalizing cur with
  | nil => simp
  | cons c cs ih =>
    have hc : isSpace c = false := hw c (List.mem_cons_self _ _)
    have := ih (cur ++ [c]) (fun x hx => hw x (List.mem_cons_of_mem _ hx))
    simp [fieldsLoop, hc, this]

theorem fieldsLoop_close (s t cur : Str) (hs : IsBlank s) (hne : s ≠ []) (hcur : cur ≠ []) :
    fieldsLoop (s ++ t) cur = cur :: fieldsLoop t [] := by
  cases s with
  | nil => exact absurd rfl hne
  | cons c cs =>
    have hc : isSpace c = true := hs c (List.mem_cons_self _ _)
    have := fieldsLoop_blank cs t (fun x hx => hs x (List.mem_cons_of_mem _ hx))
    simp [fieldsLoop, hc, hcur, this]

theorem fieldsLoop_end (s cur : Str) (hs : IsBlank s) (hcur : cur ≠ []) :
    fieldsLoop s cur = [cur] := by
  cases s with
  | nil => simp [fieldsLoop, hcur]
  | cons c cs =>
    have := fieldsLoop_close (c :: cs) [] cur hs (by simp) hcur
    rw [List.append_nil] at this
    rw [this]
    simp [fieldsLoop]

theorem fields_of_spellsTail (ws : List Str) (t : Str) (h : SpellsTail ws t) :
    fieldsLoop t [] = ws := by
  induction h with
  | none s hs =>
    have := fieldsLoop_blank s [] hs
    rw [List.append_nil] at this
    rw [this]
    rfl
  | last w s hw hs =>
    rw [fieldsLoop_word w s [] hw.2, List.nil_append]
    exact fieldsLoop_end s w hs hw.1
  | more w s v ws t hw hs hne _ ih =>
    rw [List.append_assoc, fieldsLoop_word w (s ++ t) [] hw.2, List.nil_append,
      fieldsLoop_close s t w hs hne hw.1, ih]

/-- Go `strings.Fields` of a text that spells the words `ws` is `ws`. -/
theorem fields_of_spells (ws : List Str) (t : Str) (h : Spells ws t) : stringsFields t = ws := by
  obtain ⟨lead, rest, hl, hr, rfl⟩ := h
  unfold stringsFields
  rw [fieldsLoop_blank lead rest hl]
  exact fields_of_spellsTail ws rest hr

theorem spellsTail_words (ws : List Str) (t : Str) (h : SpellsTail ws t) :
    ∀ w ∈ ws, IsWord w := by
  induction h with
  | none s _ => simp
  | last w s hw _ => simpa using hw
  | more w s v ws t hw _ _ _ ih =>
    intro x hx
    rcases List.mem_cons.mp hx with rfl | hx
    · exact hw
    · exact ih x hx

/-- The words joined by single spaces spell the words. -/
theorem spellsTail_join (ws : List Str) (hws : ∀ w ∈ ws, IsWord w) :
    SpellsTail ws (stringsJoin ws [' ']) := by
  induction ws with
  | nil => exact SpellsTail.none [] (by simp [IsBlank])
  | cons w ws ih =>
    have hw := hws w (List.mem_cons_self _ _)
    have ih2 := ih (fun x hx => hws x (List.mem_cons_of_mem _ hx))
    cases ws with
    | nil =>
      have := SpellsTail.last w [] hw (by simp [IsBlank])
      simpa [stringsJoin] using this
    | cons v vs =>
      have hb : IsBlank [' '] := by
        intro c hc
        simp at hc
        subst hc
        decide
      exact SpellsTail.more w [' '] v vs _ hw hb (by simp) ih2

theorem spellsTail_blank (t : Str) (h : SpellsTail [] t) : IsBlank t := by
  cases h with
  | none s hs => exact hs

/-- The loop of `strings.Fields` read backwards: the text read spells the
fields found. -/
theorem spells_fieldsLoop (cs cur : Str) (hcur : ∀ c ∈ cur, isSpace c = false) :
    (cur ≠ [] → SpellsTail (fieldsLoop cs cur) (cur ++ cs)) ∧
    (cur = [] → Spells (fieldsLoop cs cur) cs) := by
  induction cs generalizing cur with
  | nil =>
    constructor
    · intro hne
      have := SpellsTail.last cur [] ⟨hne, hcur⟩ (by simp [IsBlank])
      simpa [fieldsLoop, hne] using this
    · intro he
      subst he
      exact ⟨[], [], by simp [IsBlank], SpellsTail.none [] (by simp [IsBlank]), rfl⟩
  | cons c cs ih =>
    by_cases hc : isSpace c = true
    · obtain ⟨lead, rest, hl, hr, hcs⟩ := (ih [] (by simp)).2 rfl
      have hlead : IsBlank (c :: lead) := by
        intro x hx
        rcases List.mem_cons.mp hx with rfl | hx
        · exact hc
        · exact hl x hx
      constructor
      · intro hne
        have hstep : fieldsLoop (c :: cs) cur = cur :: fieldsLoop cs [] := by
          simp [fieldsLoop, hc, hne]
        rw [hstep]
        cases hF : fieldsLoop cs [] with
        | nil =>
          rw [hF] at hr
          have hb : IsBlank (c :: cs) := by
            rw [hcs]
            intro x hx
            rcases List.mem_cons.mp hx with rfl | hx
            · exact hc
            · rcases List.mem_append.mp hx with h | h
              · exact hl x h
              · exact spellsTail_blank rest hr x h
          exact SpellsTail.last cur (c :: cs) ⟨hne, hcur⟩ hb
        | cons v vs =>
          rw [hF] at hr
          have := SpellsTail.more cur (c :: lead) v vs rest ⟨hne, hcur⟩ hlead (by simp) hr
          rw [hcs]
          simpa using this
      · intro he
        subst he
        have hstep : fieldsLoop (c :: cs) [] = fieldsLoop cs [] := by
          simp [fieldsLoop, hc]
        rw [hstep]
        exact ⟨c :: lead, rest, hlead, hr, by rw [hcs]; rfl⟩
    · have hc2 : isSpace c = false := by simpa using hc
      have hcur2 : ∀ x ∈ cur ++ [c], isSpace x = false := by
        intro x hx
        rcases List.mem_append.mp hx with h | h
        · exact hcur x h
        · simp at h; subst h; exact hc2
      have hstep : fieldsLoop (c :: cs) cur = fieldsLoop cs (cur ++ [c]) := by
        simp [fieldsLoop, hc2]
      have := (ih (cur ++ [c]) hcur2).1 (by simp)
      rw [hstep]
      constructor
      · intro _
        simpa using this
      · intro he
        subst he
        exact ⟨[], c :: cs, by simp [IsBlank], by simpa using this, rfl⟩

/-- Every text spells its fields. -/
theorem spells_fields (t : Str) : Spells (stringsFields t) t :=
  (spells_fieldsLoop t [] (by simp)).2 rfl

theorem normalizeText_idem (t : Str) : normalizeText (normalizeText t) = normalizeText t := by
  obtain ⟨lead, rest, _, hr, _⟩ := spells_fields t
  have hwords := spellsTail_words _ _ hr
  have hsp : Spells (stringsFields t) (normalizeText t) :=
    ⟨[], _, by simp [IsBlank], spellsTail_join _ hwords, rfl⟩
  unfold normalizeText at hsp ⊢
  rw [fields_of_spells _ _ hsp]

theorem stringsJoin_ne_nil (w : Str) (ws : List Str) (sep : Str) (hw : w ≠ []) :
    stringsJoin (w :: ws) sep ≠ [] := by
  cases ws with
  | nil => simpa [stringsJoin] using hw
  | cons v vs => simp [stringsJoin, hw]

theorem stringsJoin_head (ws : List Str) (sep : Str) (hws : ∀ w ∈ ws, IsWord w) (c : Char)
    (h : (stringsJoin ws sep).head? = some c) : isSpace c = false := by
  cases ws with
  | nil => simp [stringsJoin] at h
  | cons w rest =>
    have hw := hws w (List.mem_cons_self _ _)
    have hcw : w.head? = some c := by
      cases rest with
      | nil => simpa [stringsJoin] using h
      | cons v vs =>
        cases w with
        | nil => exact absurd rfl hw.1
        | cons x xs => simpa [stringsJoin] using h
    exact hw.2 c (List.mem_of_mem_head? hcw)

theorem stringsJoin_last (ws : List Str) (sep : Str) (hws : ∀ w ∈ ws, IsWord w) (c : Char)
    (h : (stringsJoin ws sep).getLast? = some c) : isSpace c = false := by
  induction ws with
  | nil => simp [stringsJoin] at h
  | cons w rest ih =>
    have hw := hws w (List.mem_cons_self _ _)
    cases rest with
    | nil =>
      simp only [stringsJoin] at h
      exact hw.2 c (List.mem_of_getLast?_eq_some h)
    | cons v vs =>
      have hv := hws v (List.mem_cons_of_mem _ (List.mem_cons_self _ _))
      have hne := stringsJoin_ne_nil v vs sep hv.1
      simp only [stringsJoin] at h hne
      rw [List.getLast?_append_of_ne_nil _ hne] at h
      exact ih (fun x hx => hws x (List.mem_cons_of_mem _ hx)) h

theorem hexDigit_inj (a b : Nat) (ha : a < 16) (hb : b < 16) (h : hexDigit a = hexDigit b) :
    a = b := by
  have key : ∀ x : Fin 16, ∀ y : Fin 16, hexDigit x.val = hexDigit y.val → x = y := by decide
  have := key ⟨a, ha⟩ ⟨b, hb⟩ h
  exact congrArg Fin.val this

theorem hexEncode_inj (xs ys : List (Fin 256)) (h : hexEncode xs = hexEncode ys) : xs = ys := by
  induction xs generalizing ys with
  | nil =>
    cases ys with
    | nil => rfl
    | cons y ys => simp [hexEncode] at h
  | cons x xs ih =>
    cases ys with
    | nil => simp [hexEncode] at h
    | cons y ys =>
      simp only [hexEncode, List.cons.injEq] at h
      obtain ⟨h1, h2, h3⟩ := h
      have hx := x.isLt
      have hy := y.isLt
      have e1 := hexDigit_inj _ _ (by omega) (by omega) h1
      have e2 := hexDigit_inj _ _ (Nat.mod_lt _ (by decide)) (Nat.mod_lt _ (by decide)) h2
      have hxy : x = y := by
        apply Fin.ext
        omega
      rw [hxy, ih ys h3]

/-- Two voice identifiers and two texts with the same hashed string: the pairs
are equal, or one voice identifier extends the other across the delimiter. -/
theorem keyInput_eq (v1 t1 v2 t2 : Str) (h : keyInput v1 t1 = keyInput v2 t2) :
    (v1 = v2 ∧ t1 = t2) ∨ delimExtends v1 v2 = true ∨ delimExtends v2 v1 = true := by
  have aux : ∀ (a b ta tb r : Str), b = a ++ r → [':', ':'] ++ ta = r ++ ([':', ':'] ++ tb) →
      (a = b ∧ ta = tb) ∨ delimExtends a b = true := by
    intro a b ta tb r hb hr
    cases r with
    | nil =>
      left
      simp at hb hr
      exact ⟨hb.symm, hr⟩
    | cons x r =>
      right
      simp only [List.cons_append, List.nil_append, List.cons.injEq] at hr
      obtain ⟨hx, hr⟩ := hr
      subst hx
      cases r with
      | nil => simp [delimExtends, hb]
      | cons y r =>
        simp only [List.cons_append, List.cons.injEq] at hr
        obtain ⟨hy, _⟩ := hr
        subst hy
        have hpre : (a ++ [':', ':']) <+: b := ⟨r, by rw [hb]; simp⟩
        simp [delimExtends, hpre]
  unfold keyInput at h
  rw [List.append_assoc, List.append_assoc] at h
  rcases List.append_eq_append_iff.mp h with ⟨r, hb, hr⟩ | ⟨r, hb, hr⟩
  · rcases aux v1 v2 t1 t2 r hb hr with h1 | h1
    · exact Or.inl h1
    · exact Or.inr (Or.inl h1)
  · rcases aux v2 v1 t2 t1 r hb hr with h1 | h1
    · exact Or.inl ⟨h1.1.symm, h1.2.symm⟩
    · exact Or.inr (Or.inr h1)

/-- C1, at the failing input: a cache directory with two artifacts of 2^62 bytes
each, under the default limit of 512 MiB and under a limit of 0.  The directory
is read, every stat succeeds and no removal is attempted, let alone fails; the
`int64` total of the scan wraps around to -2^63, which passes
`total <= m.maxBytes`; `EnforceLimit` returns nil, removes nothing and leaves
2^63 bytes of artifacts, far above the limit. -/
theorem C1_overflow_failing_input :
    (0 ≤ defaultManager.maxBytes ∧ hugeDir.readErr = false ∧
      (∀ e ∈ hugeDir.entries, e.infoErr = false ∧ e.remove = .removed) ∧
      (scanLoop defaultManager hugeDir.entries [] 0).2 = -(2 ^ 63) ∧
      (EnforceLimit insertionSorter defaultManager hugeDir).log = [] ∧
      (EnforceLimit insertionSorter defaultManager hugeDir).err = false ∧
      (EnforceLimit insertionSorter defaultManager hugeDir).entries = hugeDir.entries ∧
      artifactBytes (EnforceLimit insertionSorter defaultManager hugeDir).entries = 2 ^ 63 ∧
      ¬ artifactBytes (EnforceLimit insertionSorter defaultManager hugeDir).entries
          ≤ defaultManager.maxBytes) ∧
    (0 ≤ zeroManager.maxBytes ∧
      (EnforceLimit insertionSorter zeroManager hugeDir).log = [] ∧
      (EnforceLimit insertionSorter zeroManager hugeDir).err = false ∧
      (EnforceLimit insertionSorter zeroManager hugeDir).entries = hugeDir.entries ∧
      ¬ artifactBytes (EnforceLimit insertionSorter zeroManager hugeDir).entries
          ≤ zeroManager.maxBytes) := by
  decide

/-- Below the overflow the limit is enforced: for every directory state with
pairwise distinct names whose artifact sizes add up to less than 2^63, and
every maxBytes >= 0, if the directory is read, every per-entry stat succeeds
and no removal that `EnforceLimit` attempts fails (no removal failure is
logged), then `EnforceLimit` returns nil and the sizes of the artifacts left add
up to at most maxBytes (to 0 when no artifact is left). -/
theorem enforceLimit_within_budget (S : SliceSorter) (m : Manager) (d : Dir)
    (hmax : 0 ≤ m.maxBytes) (hread : d.readErr = false)
    (hinfo : ∀ e ∈ d.entries, e.infoErr = false)
    (hlog : ∀ p, LogRecord.removeFailed p ∉ (EnforceLimit S m d).log)
    (hnames : NamesDistinct d.entries)
    (hfit : artifactBytes d.entries < 2 ^ 63) :
    (EnforceLimit S m d).err = false ∧
    artifactBytes (EnforceLimit S m d).entries ≤ m.maxBytes ∧
    ((EnforceLimit S m d).entries.filter Entry.artifact = [] →
      artifactBytes (EnforceLimit S m d).entries = 0) := by
  refine ⟨(enforce_entries S m d hread hinfo hlog hfit).1, ?_, ?_⟩
  · rw [← sizeSum_artifactFiles m,
      sizeSum_perm (enforce_artifacts_perm S m d hread hinfo hlog hnames hfit)]
    exact sizeSum_kept_le _ _ hmax
  · intro h
    simp [artifactBytes, h]

/-- The limit is enforced on the directory of the test, limit 10. -/
theorem enforceLimit_within_budget_test :
    (EnforceLimit insertionSorter testManager testDir).err = false ∧
    artifactBytes (EnforceLimit insertionSorter testManager testDir).entries
      ≤ testManager.maxBytes ∧
    ((EnforceLimit insertionSorter testManager testDir).entries.filter Entry.artifact = [] →
      artifactBytes (EnforceLimit insertionSorter testManager testDir).entries = 0) :=
  enforceLimit_within_budget insertionSorter testManager testDir (by decide) (by decide)
    (by decide)
    (by
      intro p h
      rw [show (EnforceLimit insertionSorter testManager testDir).log
        = [.evicted "a.wav".toList 5] from by decide] at h
      simp at h)
    (by decide) (by decide)

/-- Test `TestEnforceLimitEvictsOldest`: with a limit of 10 bytes only the oldest of
the three artifacts of 5 bytes is removed, the temporary file stays. -/
theorem test_EnforceLimitEvictsOldest :
    (EnforceLimit insertionSorter testManager testDir).err = false ∧
    (EnforceLimit insertionSorter testManager testDir).entries =
      [plainFile "b.wav" 5 2, plainFile "c.wav" 5 3, plainFile "ignore.wav.tmp" 3 4] := by
  decide

/-- C2, as stated, fails.  With N = 2 artifacts of S = 2^62 bytes, distinct times
and B = 0 < N * S the claim has ceil((N * S - B) / S) = 2 artifacts removed; the
code removes none, because the `int64` total wraps around to -2^63.  With the
N = 3 artifacts of S = 5 bytes of the test and B = 10 the claim has one artifact
removed; the code removes none when `os.ReadDir` fails (it returns the error),
and none when `Info` fails on the oldest artifact (the two others make 10
bytes). -/
theorem C2_counterexample :
    ((hugeDir.entries.filter Entry.artifact).length = 2 ∧
      (∀ e ∈ hugeDir.entries, e.artifact = true → e.size = 2 ^ 62) ∧
      ModsDistinct hugeDir.entries ∧
      0 ≤ zeroManager.maxBytes ∧ zeroManager.maxBytes < 2 * 2 ^ 62 ∧
      (EnforceLimit insertionSorter zeroManager hugeDir).log = [] ∧
      ceilDiv (2 * 2 ^ 62 - zeroManager.maxBytes.toNat) (2 ^ 62) = 2 ∧
      (EnforceLimit insertionSorter zeroManager hugeDir).entries = hugeDir.entries) ∧
    ((unreadableTestDir.entries.filter Entry.artifact).length = 3 ∧
      (∀ e ∈ unreadableTestDir.entries, e.artifact = true → e.size = 5) ∧
      ModsDistinct unreadableTestDir.entries ∧
      (EnforceLimit insertionSorter testManager unreadableTestDir).log = [] ∧
      ceilDiv (3 * 5 - testManager.maxBytes.toNat) 5 = 1 ∧
      (EnforceLimit insertionSorter testManager unreadableTestDir).entries
        = unreadableTestDir.entries) ∧
    ((statFailingDir.entries.filter Entry.artifact).length = 3 ∧
      (∀ e ∈ statFailingDir.entries, e.artifact = true → e.size = 5) ∧
      ModsDistinct statFailingDir.entries ∧
      (EnforceLimit insertionSorter testManager statFailingDir).log = [] ∧
      (EnforceLimit insertionSorter testManager statFailingDir).entries
        = statFailingDir.entries) := by
  decide

/-- C2 (amended): for every N >= 1, size S > 0 with N * S < 2^63 and budget B with
0 <= B < N * S: if the directory (names pairwise distinct, read and stats
succeeding) holds exactly N artifacts, each of size S, with pairwise distinct
modification times, and no removal fails, then `EnforceLimit` removes exactly
k = ceil((N * S - B) / S) artifacts, every removed entry is older than every
artifact left, and nothing else changes: the entries left are a sublist of the
directory with every non-artifact in it. -/
theorem C2_enforceLimit_uniform (S : SliceSorter) (m : Manager) (d : Dir) (N s : Nat)
    (_hN : 1 ≤ N) (hs : 0 < s) (hB0 : 0 ≤ m.maxBytes) (hB : m.maxBytes < ((N * s : Nat) : Int))
    (hfit : N * s < 2 ^ 63)
    (hread : d.readErr = false)
    (hinfo : ∀ e ∈ d.entries, e.infoErr = false)
    (hlog : ∀ p, LogRecord.removeFailed p ∉ (EnforceLimit S m d).log)
    (hnames : NamesDistinct d.entries) (hmods : ModsDistinct d.entries)
    (hcount : (d.entries.filter Entry.artifact).length = N)
    (hsize : ∀ e ∈ d.entries, e.artifact = true → e.size = s) :
    (EnforceLimit S m d).err = false ∧
    (EnforceLimit S m d).entries.Sublist d.entries ∧
    (∀ e ∈ d.entries, e.artifact = false → e ∈ (EnforceLimit S m d).entries) ∧
    ((EnforceLimit S m d).entries.filter Entry.artifact).length
      + ceilDiv (N * s - m.maxBytes.toNat) s = N ∧
    (N * s - m.maxBytes.toNat ≤ s * ceilDiv (N * s - m.maxBytes.toNat) s ∧
      s * (ceilDiv (N * s - m.maxBytes.toNat) s - 1) < N * s - m.maxBytes.toNat) ∧
    (∀ e ∈ d.entries, e ∉ (EnforceLimit S m d).entries →
      ∀ e2 ∈ (EnforceLimit S m d).entries, e2.artifact = true → e.mod < e2.mod) := by
  have hsizes : ∀ f ∈ artifactFiles m d.entries, f.size = (s : Int) := by
    intro f hf
    obtain ⟨e, he, ha, rfl⟩ := (mem_artifactFiles m d.entries f).mp hf
    simp [toFile, hsize e he ha]
  have hlen : (artifactFiles m d.entries).length = N := by
    simp [artifactFiles, hcount]
  have hbytes : artifactBytes d.entries = ((N * s : Nat) : Int) := by
    rw [← sizeSum_artifactFiles m, sizeSum_uniform s _ hsizes, hlen]
  have hfit2 : artifactBytes d.entries < 2 ^ 63 := by
    rw [hbytes]; exact_mod_cast hfit
  have hp := S.perm (artifactFiles m d.entries)
  have hev := evictedPrefix_length_uniform m.maxBytes hB0 s hs (S.sort (artifactFiles m d.entries))
    (fun f hf => hsizes f (hp.mem_iff.mp hf))
  rw [hp.length_eq, hlen] at hev
  have hkept := (enforce_artifacts_perm S m d hread hinfo hlog hnames hfit2).length_eq
  have happ := congrArg List.length
    (evicted_append_kept m.maxBytes (S.sort (artifactFiles m d.entries)))
  rw [List.length_append, hp.length_eq, hlen] at happ
  have hb : ((m.maxBytes.toNat : Nat) : Int) = m.maxBytes := Int.toNat_of_nonneg hB0
  have hpos : 0 < N * s - m.maxBytes.toNat := by omega
  refine ⟨(enforce_entries S m d hread hinfo hlog hfit2).1,
    enforce_sublist S m d hread hinfo hlog hfit2,
    fun e he ha => enforce_keeps_others S m d hread hinfo hlog hnames hfit2 e he ha,
    ?_, ⟨(ceilDiv_spec _ s hs).1, (ceilDiv_spec _ s hs).2 hpos⟩,
    fun e he hdel e2 he2 ha2 =>
      enforce_older S m d hread hinfo hlog hnames hmods hfit2 e he hdel e2 he2 ha2⟩
  have : ((EnforceLimit S m d).entries.filter Entry.artifact).length =
      (artifactFiles m (EnforceLimit S m d).entries).length := by
    simp [artifactFiles]
  rw [this, hkept, ← hev]
  omega

/-- C2, witness: the test, N = 3, S = 5, B = 10, one artifact removed. -/
theorem C2_witness :
    (EnforceLimit insertionSorter testManager testDir).err = false ∧
    (EnforceLimit insertionSorter testManager testDir).entries.Sublist testDir.entries ∧
    (∀ e ∈ testDir.entries, e.artifact = false →
      e ∈ (EnforceLimit insertionSorter testManager testDir).entries) ∧
    ((EnforceLimit insertionSorter testManager testDir).entries.filter Entry.artifact).length
      + ceilDiv (3 * 5 - testManager.maxBytes.toNat) 5 = 3 ∧
    (3 * 5 - testManager.maxBytes.toNat ≤ 5 * ceilDiv (3 * 5 - testManager.maxBytes.toNat) 5 ∧
      5 * (ceilDiv (3 * 5 - testManager.maxBytes.toNat) 5 - 1)
        < 3 * 5 - testManager.maxBytes.toNat) ∧
    (∀ e ∈ testDir.entries, e ∉ (EnforceLimit insertionSorter testManager testDir).entries →
      ∀ e2 ∈ (EnforceLimit insertionSorter testManager testDir).entries,
        e2.artifact = true → e.mod < e2.mod) :=
  C2_enforceLimit_uniform insertionSorter testManager testDir 3 5 (by decide) (by decide)
    (by decide) (by decide) (by decide) (by decide) (by decide)
    (by
      intro p h
      rw [show (EnforceLimit insertionSorter testManager testDir).log
        = [.evicted "a.wav".toList 5] from by decide] at h
      simp at h)
    (by decide) (by decide) (by decide) (by decide)

/-- C4, as stated, fails.  With two artifacts of 2^62 bytes and a limit of 0
nothing is removed although the artifacts take 2^63 bytes: the empty set is
not a prefix whose removal brings the total within the limit (the `int64` total
wrapped around).  With a limit of -1, which `NewManager` accepts although
`config.Load` and `main` let only positive limits through, every artifact of
the test directory is removed and the total, 0, is still above the limit: no
prefix brings the total within it.  With the limit of 10 and the 15 bytes of the test directory nothing
is removed when `os.ReadDir` fails, and nothing when `Info` fails on the oldest
artifact. -/
theorem C4_counterexample :
    (ModsDistinct hugeDir.entries ∧
      (EnforceLimit insertionSorter zeroManager hugeDir).log = [] ∧
      (EnforceLimit insertionSorter zeroManager hugeDir).entries = hugeDir.entries ∧
      ¬ artifactBytes (EnforceLimit insertionSorter zeroManager hugeDir).entries
          ≤ zeroManager.maxBytes) ∧
    (ModsDistinct testDir.entries ∧
      (EnforceLimit insertionSorter negativeManager testDir).entries
        = [plainFile "ignore.wav.tmp" 3 4] ∧
      ¬ artifactBytes (EnforceLimit insertionSorter negativeManager testDir).entries
          ≤ negativeManager.maxBytes) ∧
    (ModsDistinct unreadableTestDir.entries ∧
      (EnforceLimit insertionSorter testManager unreadableTestDir).entries
        = unreadableTestDir.entries ∧
      ¬ artifactBytes (EnforceLimit insertionSorter testManager unreadableTestDir).entries
          ≤ testManager.maxBytes) ∧
    (ModsDistinct statFailingDir.entries ∧
      (EnforceLimit insertionSorter testManager statFailingDir).log = [] ∧
      (EnforceLimit insertionSorter testManager statFailingDir).entries
        = statFailingDir.entries ∧
      ¬ artifactBytes (EnforceLimit insertionSorter testManager statFailingDir).entries
          ≤ testManager.maxBytes) := by
  decide

theorem wrap64_le_self (x : Int) (h : -(2 ^ 63) ≤ x) : wrap64 x ≤ x := by
  unfold wrap64
  omega

theorem wrap64_lower (x : Int) : -(2 ^ 63) ≤ wrap64 x := by
  unfold wrap64
  omega

/-- The total of the scan never exceeds the sum of the sizes scanned, with or
without wrap-around. -/
theorem scanLoop_total_le (m : Manager) (es : List Entry) (files : List fileInfo) (total : Int)
    (h0 : -(2 ^ 63) ≤ total) :
    (scanLoop m es files total).2 ≤
      total + sizeSum ((es.filter Entry.scanned).map (toFile m)) := by
  induction es generalizing files total with
  | nil => simp [scanLoop, sizeSum]
  | cons e es ih =>
    by_cases hk : e.scanned = true
    · have hf : (e :: es).filter Entry.scanned = e :: es.filter Entry.scanned := by
        rw [List.filter_cons]; simp [hk]
      rw [hf, List.map_cons, sizeSum_cons]
      have hw := wrap64_le_self (total + e.size) (by omega)
      have hl := wrap64_lower (total + e.size)
      simp [Entry.scanned, Entry.artifact, Entry.skipped] at hk
      unfold scanLoop
      simp only [hk.1.1, hk.2]
      simp only [bne_iff_ne, ne_eq, hk.1.2, not_true_eq_false, Bool.false_eq_true, if_false]
      have := ih (files ++ [{ path := filepathJoin m.dir e.name, size := e.size, mod := e.mod }])
        (wrap64 (total + e.size)) hl
      simp only [toFile] at this ⊢
      omega
    · have hf : (e :: es).filter Entry.scanned = es.filter Entry.scanned := by
        rw [List.filter_cons]; simp [hk]
      rw [hf]
      have := ih files total h0
      simp [Entry.scanned, Entry.artifact, Entry.skipped] at hk
      unfold scanLoop
      by_cases hd : e.isDir = true
      · simp [hd, this]
      · by_cases hx : (filepathExt e.name != wavExt) = true
        · simp [hd, hx, this]
        · have hi : e.infoErr = true := by
            apply hk
            · simpa using hd
            · simpa using hx
          simp [hd, hx, hi, this]

theorem sizeSum_scanned_le (m : Manager) (es : List Entry) :
    sizeSum ((es.filter Entry.scanned).map (toFile m)) ≤ artifactBytes es := by
  induction es with
  | nil => simp [sizeSum, artifactBytes]
  | cons e es ih =>
    have hrec : artifactBytes (e :: es) =
        (if e.artifact = true then (e.size : Int) else 0) + artifactBytes es := by
      unfold artifactBytes
      by_cases ha : e.artifact = true <;> simp [List.filter_cons, ha]
    rw [hrec]
    by_cases hk : e.scanned = true
    · have ha : e.artifact = true := by
        simp [Entry.scanned] at hk
        exact hk.1
      have hf : (e :: es).filter Entry.scanned = e :: es.filter Entry.scanned := by
        rw [List.filter_cons]; simp [hk]
      rw [hf, List.map_cons, sizeSum_cons]
      simp only [ha, if_true, toFile]
      omega
    · have hf : (e :: es).filter Entry.scanned = es.filter Entry.scanned := by
        rw [List.filter_cons]; simp [hk]
      rw [hf]
      by_cases ha : e.artifact = true
      · simp only [ha, if_true]
        omega
      · simp only [ha]
        simp only [Bool.false_eq_true, if_false]
        omega

/-- When the sizes of the artifacts are within the limit, `EnforceLimit` removes
nothing and logs nothing, whatever the system calls answer. -/
theorem enforce_unchanged_of_within (S : SliceSorter) (m : Manager) (d : Dir)
    (h : artifactBytes d.entries ≤ m.maxBytes) :
    (EnforceLimit S m d).entries = d.entries ∧ (EnforceLimit S m d).log = [] := by
  have h1 := scanLoop_total_le m d.entries [] 0 (by norm_num)
  have h2 := sizeSum_scanned_le m d.entries
  have hle : (scanLoop m d.entries [] 0).2 ≤ m.maxBytes := by omega
  unfold EnforceLimit
  by_cases hread : d.readErr = true
  · simp [hread]
  · simp [hread, hle]

/-- C4 (amended): when the total artifact size is already <= maxBytes,
`EnforceLimit` deletes nothing and leaves the directory unchanged, for every
directory and whatever the system calls answer.  For every directory (names
pairwise distinct) that is read, with every per-entry stat succeeding and no
removal failing, whose artifacts have pairwise distinct modification times and
sizes that add up to less than 2^63, the artifacts that `EnforceLimit` removes
are the shortest prefix, in ascending order of modification time, whose removal
brings the total artifact size to <= maxBytes - or all the artifacts when no
prefix does, which takes a negative limit: every removed entry is older than
every artifact left, the total just before each removal (the sizes of the
artifacts not older than the removed one) was > maxBytes, afterwards the total
is <= maxBytes or no artifact is left, and it is <= maxBytes for every limit
>= 0.  Non-artifacts stay. -/
theorem C4_enforceLimit_shortest_prefix (S : SliceSorter) (m : Manager) (d : Dir) :
    (artifactBytes d.entries ≤ m.maxBytes →
      (EnforceLimit S m d).entries = d.entries ∧ (EnforceLimit S m d).log = []) ∧
    (d.readErr = false → (∀ e ∈ d.entries, e.infoErr = false) →
      (∀ p, LogRecord.removeFailed p ∉ (EnforceLimit S m d).log) →
      NamesDistinct d.entries → ModsDistinct d.entries →
      artifactBytes d.entries < 2 ^ 63 →
      (EnforceLimit S m d).entries.Sublist d.entries ∧
      (∀ e ∈ d.entries, e.artifact = false → e ∈ (EnforceLimit S m d).entries) ∧
      (∀ e ∈ d.entries, e ∉ (EnforceLimit S m d).entries →
        ∀ e2 ∈ (EnforceLimit S m d).entries, e2.artifact = true → e.mod < e2.mod) ∧
      (∀ e ∈ d.entries, e ∉ (EnforceLimit S m d).entries →
        m.maxBytes < artifactBytes (d.entries.filter (fun e2 => e.mod ≤ e2.mod))) ∧
      (artifactBytes (EnforceLimit S m d).entries ≤ m.maxBytes ∨
        (EnforceLimit S m d).entries.filter Entry.artifact = []) ∧
      (0 ≤ m.maxBytes → artifactBytes (EnforceLimit S m d).entries ≤ m.maxBytes)) := by
  refine ⟨enforce_unchanged_of_within S m d, ?_⟩
  intro hread hinfo hlog hnames hmods hfit
  have hperm := enforce_artifacts_perm S m d hread hinfo hlog hnames hfit
  refine ⟨enforce_sublist S m d hread hinfo hlog hfit,
    fun e he ha => enforce_keeps_others S m d hread hinfo hlog hnames hfit e he ha,
    fun e he hdel e2 he2 ha2 =>
      enforce_older S m d hread hinfo hlog hnames hmods hfit e he hdel e2 he2 ha2,
    fun e he hdel => enforce_total_before S m d hread hinfo hlog hnames hmods hfit e he hdel,
    ?_, ?_⟩
  · rcases kept_le_or_nil m.maxBytes (S.sort (artifactFiles m d.entries)) with h | h
    · left
      rw [← sizeSum_artifactFiles m, sizeSum_perm hperm]
      exact h
    · right
      rw [h] at hperm
      have := hperm.eq_nil
      simpa [artifactFiles] using this
  · intro hmax
    rw [← sizeSum_artifactFiles m, sizeSum_perm hperm]
    exact sizeSum_kept_le _ _ hmax

/-- C4, witness: the directory of the test.  With the limit of 10 the oldest
artifact is removed; with the default limit nothing is. -/
theorem C4_witness :
    ((EnforceLimit insertionSorter defaultManager testDir).entries = testDir.entries ∧
      (EnforceLimit insertionSorter defaultManager testDir).log = []) ∧
    ((EnforceLimit insertionSorter testManager testDir).entries.Sublist testDir.entries ∧
      (∀ e ∈ testDir.entries, e.artifact = false →
        e ∈ (EnforceLimit insertionSorter testManager testDir).entries) ∧
      (∀ e ∈ testDir.entries, e ∉ (EnforceLimit insertionSorter testManager testDir).entries →
        ∀ e2 ∈ (EnforceLimit insertionSorter testManager testDir).entries,
          e2.artifact = true → e.mod < e2.mod) ∧
      (∀ e ∈ testDir.entries, e ∉ (EnforceLimit insertionSorter testManager testDir).entries →
        testManager.maxBytes
          < artifactBytes (testDir.entries.filter (fun e2 => e.mod ≤ e2.mod))) ∧
      (artifactBytes (EnforceLimit insertionSorter testManager testDir).entries
          ≤ testManager.maxBytes ∨
        (EnforceLimit insertionSorter testManager testDir).entries.filter Entry.artifact = []) ∧
      (0 ≤ testManager.maxBytes →
        artifactBytes (EnforceLimit insertionSorter testManager testDir).entries
          ≤ testManager.maxBytes)) :=
  ⟨( C4_enforceLimit_shortest_prefix insertionSorter defaultManager testDir).1 (by decide),
    ( C4_enforceLimit_shortest_prefix insertionSorter testManager testDir).2 (by decide)
      (by decide)
      (by
        intro p h
        rw [show (EnforceLimit insertionSorter testManager testDir).log
          = [.evicted "a.wav".toList 5] from by decide] at h
        simp at h)
      (by decide) (by decide) (by decide)⟩

/-- C3: for every directory state (names pairwise distinct) and every maxBytes,
whatever the system calls answer, every entry that is a directory or whose
extension is not ".wav" is still present after `EnforceLimit`; a name ending in
".tmp", such as that of the temporary file `PathForKey(key) + ".tmp"`, has the
extension ".tmp" and is such an entry; and the run - the error, the log, the
artifacts left, hence the artifacts removed - is the run on the directory
without those entries. -/
theorem C3_enforceLimit_ignores_others (S : SliceSorter) (m : Manager) (d : Dir)
    (hnames : NamesDistinct d.entries) :
    (∀ e ∈ d.entries, (e.isDir = true ∨ filepathExt e.name ≠ wavExt) →
      e ∈ (EnforceLimit S m d).entries) ∧
    (∀ key : Str, filepathExt (PathForKey m key ++ tmpSuffix) ≠ wavExt ∧
      filepathExt (key ++ wavExt ++ tmpSuffix) ≠ wavExt) ∧
    EnforceLimit S m d.artifactsOnly =
      { err := (EnforceLimit S m d).err,
        entries := (EnforceLimit S m d).entries.filter Entry.artifact,
        log := (EnforceLimit S m d).log } := by
  obtain ⟨h1, h2⟩ := enforce_frame S m d hnames
  refine ⟨?_, ?_, h1⟩
  · intro e he hna
    have hnot : (!e.artifact) = true := by
      rcases hna with h | h
      · simp [Entry.artifact, Entry.skipped, h]
      · simp [Entry.artifact, Entry.skipped, h]
    have hin : e ∈ d.entries.filter (fun e => !e.artifact) :=
      List.mem_filter.mpr ⟨he, hnot⟩
    rw [← h2] at hin
    exact List.mem_of_mem_filter hin
  · intro key
    rw [filepathExt_tmp, filepathExt_tmp]
    exact ⟨by decide, by decide⟩

/-- C3, witness: the directory of the test, where "ignore.wav.tmp" stays. -/
theorem C3_witness :
    (∀ e ∈ testDir.entries, (e.isDir = true ∨ filepathExt e.name ≠ wavExt) →
      e ∈ (EnforceLimit insertionSorter testManager testDir).entries) ∧
    (∀ key : Str, filepathExt (PathForKey testManager key ++ tmpSuffix) ≠ wavExt ∧
      filepathExt (key ++ wavExt ++ tmpSuffix) ≠ wavExt) ∧
    EnforceLimit insertionSorter testManager testDir.artifactsOnly =
      { err := (EnforceLimit insertionSorter testManager testDir).err,
        entries := (EnforceLimit insertionSorter testManager testDir).entries.filter
          Entry.artifact,
        log := (EnforceLimit insertionSorter testManager testDir).log } :=
  C3_enforceLimit_ignores_others insertionSorter testManager testDir (by decide)

/-- The request texts of `TestHandleTTSSynthAndCache` and `TestHandleTTSCacheHit`
normalize to "hello world". -/
theorem test_normalizeText :
    normalizeText "  hello   world ".toList = "hello world".toList ∧
    normalizeText "hello   world".toList = "hello world".toList ∧
    normalizeText "hello world".toList = "hello world".toList := by
  decide

/-- C5: two request texts that differ only in white space runs - both spell the
words `ws`, with whatever white space between them and at either end - split
into the same fields `ws` and normalize to the same string: the words joined by
single spaces, which spells `ws` again and neither starts nor ends with white
space; hence `BuildKey` gives the same key for any voiceID; and normalizing a
normalized text returns it unchanged. -/
theorem C5_normalize_whitespace (Sum256 : Str → List (Fin 256)) (voiceID : Str)
    (ws : List Str) (t1 t2 : Str) (h1 : Spells ws t1) (h2 : Spells ws t2) :
    stringsFields t1 = ws ∧ stringsFields t2 = ws ∧
    normalizeText t1 = normalizeText t2 ∧
    normalizeText t1 = stringsJoin ws [' '] ∧
    Spells ws (normalizeText t1) ∧
    (∀ c, (normalizeText t1).head? = some c → isSpace c = false) ∧
    (∀ c, (normalizeText t1).getLast? = some c → isSpace c = false) ∧
    BuildKey Sum256 voiceID (normalizeText t1) = BuildKey Sum256 voiceID (normalizeText t2) ∧
    normalizeText (normalizeText t1) = normalizeText t1 := by
  have hf1 := fields_of_spells ws t1 h1
  have hf2 := fields_of_spells ws t2 h2
  have hn1 : normalizeText t1 = stringsJoin ws [' '] := by unfold normalizeText; rw [hf1]
  have hn2 : normalizeText t2 = stringsJoin ws [' '] := by unfold normalizeText; rw [hf2]
  obtain ⟨_, rest, _, hr, _⟩ := h1
  have hwords := spellsTail_words _ _ hr
  refine ⟨hf1, hf2, by rw [hn1, hn2], hn1, ?_, ?_, ?_, by rw [hn1, hn2], normalizeText_idem t1⟩
  · rw [hn1]
    exact ⟨[], _, by simp [IsBlank], spellsTail_join _ hwords, rfl⟩
  · rw [hn1]
    exact stringsJoin_head ws _ hwords
  · rw [hn1]
    exact stringsJoin_last ws _ hwords

/-- C5, witness: "  hello   world " and "hello world" spell "hello", "world". -/
theorem C5_witness :
    stringsFields "  hello   world ".toList = ["hello".toList, "world".toList] ∧
    stringsFields "hello world".toList = ["hello".toList, "world".toList] ∧
    normalizeText "  hello   world ".toList = normalizeText "hello world".toList ∧
    normalizeText "  hello   world ".toList
      = stringsJoin ["hello".toList, "world".toList] [' '] ∧
    Spells ["hello".toList, "world".toList] (normalizeText "  hello   world ".toList) ∧
    (∀ c, (normalizeText "  hello   world ".toList).head? = some c → isSpace c = false) ∧
    (∀ c, (normalizeText "  hello   world ".toList).getLast? = some c → isSpace c = false) ∧
    BuildKey lowBytes "default".toList (normalizeText "  hello   world ".toList)
      = BuildKey lowBytes "default".toList (normalizeText "hello world".toList) ∧
    normalizeText (normalizeText "  hello   world ".toList)
      = normalizeText "  hello   world ".toList :=
  C5_normalize_whitespace lowBytes "default".toList ["hello".toList, "world".toList]
    "  hello   world ".toList "hello world".toList
    (by
      have := spells_fields "  hello   world ".toList
      rwa [show stringsFields "  hello   world ".toList = ["hello".toList, "world".toList]
        from by decide] at this)
    (by
      have := spells_fields "hello world".toList
      rwa [show stringsFields "hello world".toList = ["hello".toList, "world".toList]
        from by decide] at this)

/-- C6, as stated, fails: the distinct pairs ("a::b", "c") and ("a", "b::c")
hash the same string "a::b::c", and so receive the same key from any digest. -/
theorem C6_counterexample :
    ("a::b".toList, "c".toList) ≠ ("a".toList, "b::c".toList) ∧
    keyInput "a::b".toList "c".toList = keyInput "a".toList "b::c".toList ∧
    ∀ Sum256 : Str → List (Fin 256),
      BuildKey Sum256 "a::b".toList "c".toList = BuildKey Sum256 "a".toList "b::c".toList := by
  refine ⟨by decide, by decide, ?_⟩
  intro Sum256
  unfold BuildKey
  rw [show keyInput "a::b".toList "c".toList = keyInput "a".toList "b::c".toList from by decide]

/-- C6 (amended): `BuildKey` is a function of the pair, and for every two distinct
(voiceID, text) pairs in which neither voice identifier is the other followed by
":" or by a string starting with "::", the strings that `BuildKey` hashes are
different, so that the two pairs receive the same key only if the digest of
two different strings is the same. -/
theorem C6_keyInput_distinct (Sum256 : Str → List (Fin 256)) (v1 t1 v2 t2 : Str)
    (hpair : (v1, t1) ≠ (v2, t2))
    (h12 : delimExtends v1 v2 = false) (h21 : delimExtends v2 v1 = false) :
    keyInput v1 t1 ≠ keyInput v2 t2 ∧
    (BuildKey Sum256 v1 t1 = BuildKey Sum256 v2 t2 →
      Sum256 (keyInput v1 t1) = Sum256 (keyInput v2 t2)) := by
  constructor
  · intro h
    rcases keyInput_eq v1 t1 v2 t2 h with ⟨hv, ht⟩ | h1 | h1
    · exact hpair (by rw [hv, ht])
    · rw [h12] at h1; exact absurd h1 (by decide)
    · rw [h21] at h1; exact absurd h1 (by decide)
  · intro h
    exact hexEncode_inj _ _ h

/-- C6, witness: the pairs ("a:b", "c") and ("a", "b:c") of the specification hash
"a:b::c" and "a::b:c". -/
theorem C6_witness :
    keyInput "a:b".toList "c".toList ≠ keyInput "a".toList "b:c".toList ∧
    (BuildKey lowBytes "a:b".toList "c".toList = BuildKey lowBytes "a".toList "b:c".toList →
      lowBytes (keyInput "a:b".toList "c".toList) = lowBytes (keyInput "a".toList "b:c".toList)) :=
  C6_keyInput_distinct lowBytes "a:b".toList "c".toList "a".toList "b:c".toList
    (by decide) (by decide) (by decide)

theorem handleTTS_empty (sv : Server) (w : World) (text : Str) (h : normalizeText text = []) :
    handleTTS sv w (postRequest text) = (.error 400 "text is required".toList, w) := by
  simp [handleTTS, postRequest, h]

theorem handleTTS_failed (sv : Server) (w : World) (text : Str) (h : normalizeText text ≠ [])
    (hs : osStat sv.cache w.dir (sv.pathOf text) = .failed) :
    handleTTS sv w (postRequest text) =
      (.error 500 "internal error".toList, { w with log := w.log ++ [.statFailed] }) := by
  unfold Server.pathOf Server.keyOf at hs
  simp [handleTTS, postRequest, h, hs]

theorem handleTTS_hit (sv : Server) (w : World) (text : Str) (h : normalizeText text ≠ [])
    (hs : osStat sv.cache w.dir (sv.pathOf text) = .ok) :
    handleTTS sv w (postRequest text) =
      (.json 200 "cache_hit".toList (sv.keyOf text ++ wavExt),
        { w with dir := Touch sv.cache w.dir w.now (sv.pathOf text),
                 played := w.played ++ [sv.pathOf text],
                 log := w.log ++ [.cacheHit (sv.keyOf text) (sv.keyOf text ++ wavExt)] }) := by
  unfold Server.pathOf Server.keyOf at *
  simp [handleTTS, postRequest, h, hs]

theorem handleTTS_miss (sv : Server) (w : World) (text : Str) (h : normalizeText text ≠ [])
    (hs : osStat sv.cache w.dir (sv.pathOf text) = .notExist) :
    handleTTS sv w (postRequest text) = handleMiss sv w (normalizeText text) (sv.keyOf text) := by
  unfold Server.pathOf Server.keyOf at *
  simp [handleTTS, postRequest, h, hs]

theorem handleMiss_synthCalls (sv : Server) (w : World) (text : Str) :
    (handleMiss sv w (normalizeText text) (sv.keyOf text)).2.synthCalls =
      w.synthCalls ++ [(normalizeText text, sv.pathOf text)] := by
  unfold handleMiss Server.pathOf
  by_cases hf : (sv.piper (normalizeText text) (PathForKey sv.cache (sv.keyOf text))
      w.dir.entries).1 = true
  · simp [hf]
  · simp [hf]

theorem handleMiss_failed (sv : Server) (w : World) (text : Str)
    (hf : (sv.synth w text).1 = true) :
    (handleMiss sv w (normalizeText text) (sv.keyOf text)).1
      = .error 500 "internal error".toList ∧
    (handleMiss sv w (normalizeText text) (sv.keyOf text)).2.enforceRuns = w.enforceRuns ∧
    (handleMiss sv w (normalizeText text) (sv.keyOf text)).2.played = w.played := by
  unfold Server.synth Server.pathOf at hf
  simp [handleMiss, hf]

theorem handleMiss_ok (sv : Server) (w : World) (text : Str)
    (hf : (sv.synth w text).1 = false) :
    (handleMiss sv w (normalizeText text) (sv.keyOf text)).1
      = .json 200 "cache_miss".toList (sv.keyOf text ++ wavExt) ∧
    (handleMiss sv w (normalizeText text) (sv.keyOf text)).2.enforceRuns = w.enforceRuns + 1 ∧
    (handleMiss sv w (normalizeText text) (sv.keyOf text)).2.played
      = w.played ++ [sv.pathOf text] ∧
    (handleMiss sv w (normalizeText text) (sv.keyOf text)).2.dir =
      { w.dir with entries := (EnforceLimit sv.sorter sv.cache (sv.afterSynth w text)).entries } := by
  unfold Server.synth Server.pathOf at hf
  simp [handleMiss, hf, Server.afterSynth, Server.synth, Server.pathOf]

theorem osStat_notExist_statErr (m : Manager) (d : Dir) (path : Str)
    (h : osStat m d path = .notExist) : d.statErr = false := by
  unfold osStat at h
  by_cases hs : d.statErr = true
  · simp [hs] at h
  · simpa using hs

theorem osStat_ok_of_mem (m : Manager) (d : Dir) (path : Str) (hs : d.statErr = false)
    (h : ∃ e ∈ d.entries, filepathJoin m.dir e.name = path) : osStat m d path = .ok := by
  unfold osStat
  have : d.entries.any (fun e => decide (filepathJoin m.dir e.name = path)) = true := by
    simpa using h
  simp [hs, this]

theorem normalizeText_of_spells (ws : List Str) (t1 t2 : Str) (h1 : Spells ws t1)
    (h2 : Spells ws t2) : normalizeText t2 = normalizeText t1 := by
  unfold normalizeText
  rw [fields_of_spells ws t1 h1, fields_of_spells ws t2 h2]

theorem scannedFiles_eq (m : Manager) (d : Dir) :
    scannedFiles m d = (d.entries.filter Entry.scanned).map (toFile m) := by
  unfold scannedFiles
  rw [scanLoop_files]
  rfl

theorem sizeSum_scannedFiles (m : Manager) (d : Dir) :
    sizeSum (scannedFiles m d) = scannedBytes d.entries := by
  rw [scannedFiles_eq]
  simp [sizeSum, scannedBytes, List.map_map, Function.comp_def, toFile]

theorem scannedFiles_nodup (m : Manager) (d : Dir) (hnames : NamesDistinct d.entries) :
    ((scannedFiles m d).map fileInfo.path).Nodup := by
  rw [scannedFiles_eq, List.map_map]
  have hsub : ((d.entries.filter Entry.scanned).map Entry.name).Nodup :=
    (hnames.sublist ((List.filter_sublist d.entries).map Entry.name))
  have : (fileInfo.path ∘ toFile m) = (fun n => filepathJoin m.dir n) ∘ Entry.name := by
    funext e; rfl
  rw [this, ← List.map_map]
  exact hsub.map (fun a b h => filepathJoin_inj _ _ _ h)

theorem wrap64_idem (x : Int) : wrap64 (wrap64 x) = wrap64 x := by
  unfold wrap64
  omega

theorem wrap64_add_left (a b : Int) : wrap64 (wrap64 a + b) = wrap64 (a + b) := by
  unfold wrap64
  omega

theorem wrap64_sub_left (a b : Int) : wrap64 (wrap64 a - b) = wrap64 (a - b) := by
  unfold wrap64
  omega

/-- The total of the scan, overflow included: the sum of the sizes scanned,
wrapped to 64 bits. -/
theorem scanLoop_total_wrap (m : Manager) (es : List Entry) (files : List fileInfo) (total : Int)
    (hr : wrap64 total = total) :
    (scanLoop m es files total).2 =
      wrap64 (total + sizeSum ((es.filter Entry.scanned).map (toFile m))) := by
  induction es generalizing files total with
  | nil => simp [scanLoop, sizeSum, hr]
  | cons e es ih =>
    by_cases hk : e.scanned = true
    · have hf : (e :: es).filter Entry.scanned = e :: es.filter Entry.scanned := by
        rw [List.filter_cons]; simp [hk]
      rw [hf, List.map_cons]
      have hsz : sizeSum (toFile m e :: (es.filter Entry.scanned).map (toFile m))
          = (e.size : Int) + sizeSum ((es.filter Entry.scanned).map (toFile m)) := by
        simp [sizeSum, toFile]
      rw [hsz]
      simp [Entry.scanned, Entry.artifact, Entry.skipped] at hk
      unfold scanLoop
      simp only [hk.1.1, hk.2]
      simp only [bne_iff_ne, ne_eq, hk.1.2, not_true_eq_false, Bool.false_eq_true, if_false]
      rw [ih _ _ (wrap64_idem _), wrap64_add_left, add_assoc]
    · have hf : (e :: es).filter Entry.scanned = es.filter Entry.scanned := by
        rw [List.filter_cons]; simp [hk]
      rw [hf]
      have := ih files total hr
      simp [Entry.scanned, Entry.artifact, Entry.skipped] at hk
      unfold scanLoop
      by_cases hd : e.isDir = true
      · simp [hd, this]
      · by_cases hx : (filepathExt e.name != wavExt) = true
        · simp [hd, hx, this]
        · have hi : e.infoErr = true := by
            apply hk
            · simpa using hd
            · simpa using hx
          simp [hd, hx, hi, this]

/-- An entry stays through `os.Remove` of another path. -/
theorem osRemove_mem (m : Manager) (es : List Entry) (path : Str) (e : Entry)
    (he : e ∈ es) (hp : filepathJoin m.dir e.name ≠ path) : e ∈ (osRemove m es path).2 := by
  unfold osRemove
  cases hf : es.find? (fun e => decide (filepathJoin m.dir e.name = path)) with
  | none => simpa using he
  | some e0 =>
    cases hr : e0.remove with
    | failed => simp only [hr]; exact he
    | removed => simp only [hr]; exact List.mem_filter.mpr ⟨he, by simpa using hp⟩
    | notExist => simp only [hr]; exact List.mem_filter.mpr ⟨he, by simpa using hp⟩

theorem sizeSum_filter_scannedFiles (m : Manager) (d : Dir) (t : Int) :
    sizeSum ((scannedFiles m d).filter (fun g => decide (t ≤ g.mod)))
      = bytesNotOlder t d.entries := by
  rw [scannedFiles_eq, List.filter_map]
  simp [sizeSum, bytesNotOlder, List.map_map, Function.comp_def, toFile]

/-- The eviction loop on candidates sorted by time, when no removal fails: an
entry stays when the candidates not older than the time `t` are within the
limit together and every candidate with the path of the entry is among them.
The running total, wrapped or not, is at most their sum when the loop reaches
the first of them. -/
theorem evictLoop_keeps_recent (m : Manager) (e : Entry) (t : Int)
    (L : List fileInfo) (es : List Entry) (log : List LogRecord)
    (hsorted : L.Pairwise (fun a b => ¬ b.mod < a.mod))
    (hnn : ∀ g ∈ L, 0 ≤ g.size)
    (hpath : ∀ g ∈ L, filepathJoin m.dir e.name = g.path → t ≤ g.mod)
    (hfit : sizeSum (L.filter (fun g => decide (t ≤ g.mod))) ≤ m.maxBytes)
    (he : e ∈ es)
    (hlog : ∀ p, LogRecord.removeFailed p ∉ (evictLoop m L (wrap64 (sizeSum L)) es log).2.2) :
    e ∈ (evictLoop m L (wrap64 (sizeSum L)) es log).2.1 := by
  induction L generalizing es log with
  | nil => simpa [evictLoop] using he
  | cons g rest ih =>
    rw [evictLoop_cons] at hlog ⊢
    by_cases hle : wrap64 (sizeSum (g :: rest)) ≤ m.maxBytes
    · rw [if_pos hle]; exact he
    · rw [if_neg hle] at hlog ⊢
      have hs := List.pairwise_cons.mp hsorted
      by_cases hg : t ≤ g.mod
      · exfalso
        have hall : (g :: rest).filter (fun x => decide (t ≤ x.mod)) = g :: rest := by
          apply List.filter_eq_self.mpr
          intro x hx
          rcases List.mem_cons.mp hx with rfl | hx
          · simpa using hg
          · have := hs.1 x hx
            simp only [decide_eq_true_eq]
            omega
        rw [hall] at hfit
        have h0 := sizeSum_nonneg (g :: rest) hnn
        have := wrap64_le_self (sizeSum (g :: rest)) (by omega)
        omega
      · have hne : filepathJoin m.dir e.name ≠ g.path :=
          fun hc => hg (hpath g (List.mem_cons_self _ _) hc)
        have hfit2 : sizeSum (rest.filter (fun x => decide (t ≤ x.mod))) ≤ m.maxBytes := by
          rw [List.filter_cons_of_neg (by simpa using hg)] at hfit
          exact hfit
        have hw : wrap64 (wrap64 (sizeSum (g :: rest)) - g.size) = wrap64 (sizeSum rest) := by
          rw [wrap64_sub_left, sizeSum_cons]
          congr 1
          omega
        have hm := osRemove_mem m es g.path e he hne
        have hnn2 : ∀ x ∈ rest, 0 ≤ x.size := fun x hx => hnn x (List.mem_cons_of_mem _ hx)
        have hpath2 : ∀ x ∈ rest, filepathJoin m.dir e.name = x.path → t ≤ x.mod :=
          fun x hx => hpath x (List.mem_cons_of_mem _ hx)
        rcases hx : osRemove m es g.path with ⟨x, es2⟩
        rw [hx] at hm hlog
        cases x with
        | failed =>
          exfalso
          exact hlog g.path (evictLoop_log _ _ _ _ _ _ (by simp))
        | removed =>
          simp only [hw] at hlog ⊢
          exact ih es2 _ hs.2 hnn2 hpath2 hfit2 hm hlog
        | notExist =>
          simp only [hw] at hlog ⊢
          exact ih es2 _ hs.2 hnn2 hpath2 hfit2 hm hlog

/-- An entry stays through `EnforceLimit` when no removal fails and the scanned
artifacts that are not older than it are within the limit together, whatever
the sizes of the older ones. -/
theorem enforce_keeps_recent (S : SliceSorter) (m : Manager) (d : Dir)
    (hnames : NamesDistinct d.entries)
    (hlog : ∀ p, LogRecord.removeFailed p ∉ (EnforceLimit S m d).log)
    (e : Entry) (he : e ∈ d.entries)
    (hfit : bytesNotOlder e.mod d.entries ≤ m.maxBytes) :
    e ∈ (EnforceLimit S m d).entries := by
  by_cases hread : d.readErr = true
  · have hE : (EnforceLimit S m d).entries = d.entries := by
      unfold EnforceLimit; simp [hread]
    rw [hE]; exact he
  by_cases hle : (scanLoop m d.entries [] 0).2 ≤ m.maxBytes
  · have hE : (EnforceLimit S m d).entries = d.entries := by
      unfold EnforceLimit; simp [hread, hle]
    rw [hE]; exact he
  have hE : (EnforceLimit S m d).entries = (evictLoop m (S.sort (scannedFiles m d))
      (scanLoop m d.entries [] 0).2 d.entries []).2.1 := by
    unfold EnforceLimit scannedFiles; simp [hread, hle]
  have hL : (EnforceLimit S m d).log = (evictLoop m (S.sort (scannedFiles m d))
      (scanLoop m d.entries [] 0).2 d.entries []).2.2 := by
    unfold EnforceLimit scannedFiles; simp [hread, hle]
  have hp := S.perm (scannedFiles m d)
  have hentry : ∀ b ∈ S.sort (scannedFiles m d),
      ∃ x ∈ d.entries, x.scanned = true ∧ toFile m x = b := by
    intro b hb
    have hb2 := hp.mem_iff.mp hb
    rw [scannedFiles_eq] at hb2
    obtain ⟨x, hx, hxb⟩ := List.mem_map.mp hb2
    exact ⟨x, List.mem_of_mem_filter hx, (List.mem_filter.mp hx).2, hxb⟩
  have htot : (scanLoop m d.entries [] 0).2 = wrap64 (sizeSum (S.sort (scannedFiles m d))) := by
    rw [scanLoop_total_wrap m d.entries [] 0 (by decide), sizeSum_perm hp, scannedFiles_eq,
      zero_add]
  rw [hL, htot] at hlog
  rw [hE, htot]
  refine evictLoop_keeps_recent m e e.mod _ d.entries [] (S.sorted _) ?_ ?_ ?_ he hlog
  · intro g hg
    obtain ⟨x, _, _, hxg⟩ := hentry g hg
    rw [← hxg]
    simp [toFile]
  · intro g hg hgp
    obtain ⟨x, hx, _, hxg⟩ := hentry g hg
    have hxe : x = e := by
      apply names_inj hnames hx he
      apply filepathJoin_inj m.dir
      rw [hgp, ← hxg]
      rfl
    rw [← hxg, hxe]
    exact le_refl _
  · rw [sizeSum_perm (hp.filter _), sizeSum_filter_scannedFiles]
    exact hfit

theorem osStat_failed_of_statErr (m : Manager) (d : Dir) (path : Str)
    (h : d.statErr = true) : osStat m d path = .failed := by
  unfold osStat
  simp [h]

/-- C7, as stated, fails, in four ways.  Each time the cache directory has no
artifact for the text, the first request takes the miss path, and `Synthesize`
succeeds and writes 3 bytes at the path it was given, at the time 50.  With a
budget of 2 bytes and an empty cache, `EnforceLimit` evicts the artifact just
written.  With a budget of 5 bytes and another artifact of 3 bytes that is
newer, the new artifact is the oldest and is evicted.  With a budget of 5 bytes
and an older artifact of 3 bytes whose removal fails, the total stays at 6 and
the new artifact is evicted next.  In all three the artifact is absent when the
request has been answered, and the following request is a "cache_miss" with a
second call of `Synthesize`.  With a budget of 1 MiB the artifact stays, but
when the `os.Stat` of the following request fails its answer is 500, not
"cache_hit". -/
theorem C7_counterexample :
    (osStat (fakeServer 2).cache (plainDir []) ((fakeServer 2).pathOf helloText) = .notExist ∧
      ((fakeServer 2).synth (freshWorld (plainDir [])) helloText).1 = false ∧
      (∃ e ∈ ((fakeServer 2).synth (freshWorld (plainDir [])) helloText).2,
        filepathJoin (fakeServer 2).cache.dir e.name = (fakeServer 2).pathOf helloText) ∧
      (handleTTS (fakeServer 2) (freshWorld (plainDir [])) helloRequest).1
        = .json 200 "cache_miss".toList ((fakeServer 2).keyOf helloText ++ wavExt) ∧
      (afterHello 2 (plainDir [])).dir.entries = [] ∧
      osStat (fakeServer 2).cache (afterHello 2 (plainDir [])).dir
        ((fakeServer 2).pathOf helloText) = .notExist ∧
      (handleTTS (fakeServer 2) (afterHello 2 (plainDir [])) helloAgain).1
        = .json 200 "cache_miss".toList ((fakeServer 2).keyOf helloText ++ wavExt) ∧
      (handleTTS (fakeServer 2) (afterHello 2 (plainDir [])) helloAgain).2.synthCalls.length
        = 2) ∧
    (osStat (fakeServer 5).cache newerDir ((fakeServer 5).pathOf helloText) = .notExist ∧
      ((fakeServer 5).synth (freshWorld newerDir) helloText).1 = false ∧
      (∃ e ∈ ((fakeServer 5).synth (freshWorld newerDir) helloText).2,
        filepathJoin (fakeServer 5).cache.dir e.name = (fakeServer 5).pathOf helloText) ∧
      (handleTTS (fakeServer 5) (freshWorld newerDir) helloRequest).1
        = .json 200 "cache_miss".toList ((fakeServer 5).keyOf helloText ++ wavExt) ∧
      (afterHello 5 newerDir).dir.entries = newerDir.entries ∧
      osStat (fakeServer 5).cache (afterHello 5 newerDir).dir
        ((fakeServer 5).pathOf helloText) = .notExist ∧
      (handleTTS (fakeServer 5) (afterHello 5 newerDir) helloAgain).1
        = .json 200 "cache_miss".toList ((fakeServer 5).keyOf helloText ++ wavExt) ∧
      (handleTTS (fakeServer 5) (afterHello 5 newerDir) helloAgain).2.synthCalls.length = 2) ∧
    (osStat (fakeServer 5).cache stuckOlderDir ((fakeServer 5).pathOf helloText) = .notExist ∧
      ((fakeServer 5).synth (freshWorld stuckOlderDir) helloText).1 = false ∧
      (∃ e ∈ ((fakeServer 5).synth (freshWorld stuckOlderDir) helloText).2,
        filepathJoin (fakeServer 5).cache.dir e.name = (fakeServer 5).pathOf helloText) ∧
      (handleTTS (fakeServer 5) (freshWorld stuckOlderDir) helloRequest).1
        = .json 200 "cache_miss".toList ((fakeServer 5).keyOf helloText ++ wavExt) ∧
      (afterHello 5 stuckOlderDir).dir.entries = stuckOlderDir.entries ∧
      osStat (fakeServer 5).cache (afterHello 5 stuckOlderDir).dir
        ((fakeServer 5).pathOf helloText) = .notExist ∧
      (handleTTS (fakeServer 5) (afterHello 5 stuckOlderDir) helloAgain).1
        = .json 200 "cache_miss".toList ((fakeServer 5).keyOf helloText ++ wavExt) ∧
      (handleTTS (fakeServer 5) (afterHello 5 stuckOlderDir) helloAgain).2.synthCalls.length
        = 2) ∧
    (osStat (fakeServer (1024 * 1024)).cache (plainDir [])
        ((fakeServer (1024 * 1024)).pathOf helloText) = .notExist ∧
      ((fakeServer (1024 * 1024)).synth (freshWorld (plainDir [])) helloText).1 = false ∧
      (∃ e ∈ ((fakeServer (1024 * 1024)).synth (freshWorld (plainDir [])) helloText).2,
        filepathJoin (fakeServer (1024 * 1024)).cache.dir e.name
          = (fakeServer (1024 * 1024)).pathOf helloText) ∧
      (handleTTS (fakeServer (1024 * 1024)) (freshWorld (plainDir [])) helloRequest).1
        = .json 200 "cache_miss".toList ((fakeServer (1024 * 1024)).keyOf helloText ++ wavExt) ∧
      (afterHello (1024 * 1024) (plainDir [])).dir.entries.map Entry.name
        = [(fakeServer (1024 * 1024)).keyOf helloText ++ wavExt] ∧
      (handleTTS (fakeServer (1024 * 1024))
        ((afterHello (1024 * 1024) (plainDir [])).nextRequest true) helloAgain).1
        = .error 500 "internal error".toList) := by
  decide

/-- C7 (amended): for every cache directory state (names pairwise distinct),
every budget and every request text that is not empty after normalization: if
`handleTTS` takes the miss path and `Synthesize` succeeds, writing the artifact
at the path it was given, and if either the artifacts then in the directory are
within the budget together, or no removal of the enforcement fails and the
artifacts that the scan records and that are not older than the new one, the
new one included, are within the budget together (whatever the sizes of the
older ones), then the response is "cache_miss", the artifact exists at
`PathForKey(BuildKey(voiceID, normalized))` when the request has been answered,
and a following request with a text that differs only in white space makes no
further call of `Synthesize` and is answered 200 "cache_hit" with the same
file, unless its `os.Stat` fails, in which case it is answered 500. -/
theorem C7_miss_then_hit (sv : Server) (w : World) (ws : List Str) (text1 text2 : Str)
    (h1 : Spells ws text1) (h2 : Spells ws text2)
    (hne : normalizeText text1 ≠ [])
    (hmiss : osStat sv.cache w.dir (sv.pathOf text1) = .notExist)
    (hsynth : (sv.synth w text1).1 = false)
    (hwritten : ∃ e ∈ (sv.synth w text1).2, filepathJoin sv.cache.dir e.name = sv.pathOf text1)
    (hfits : artifactBytes (sv.synth w text1).2 ≤ sv.cache.maxBytes ∨
      (NamesDistinct (sv.synth w text1).2 ∧
        (∀ p, LogRecord.removeFailed p ∉
          (EnforceLimit sv.sorter sv.cache (sv.afterSynth w text1)).log) ∧
        ∀ e ∈ (sv.synth w text1).2, filepathJoin sv.cache.dir e.name = sv.pathOf text1 →
          bytesNotOlder e.mod (sv.synth w text1).2 ≤ sv.cache.maxBytes)) :
    (handleTTS sv w (postRequest text1)).1
      = .json 200 "cache_miss".toList (sv.keyOf text1 ++ wavExt) ∧
    (∃ e ∈ (handleTTS sv w (postRequest text1)).2.dir.entries,
      filepathJoin sv.cache.dir e.name = sv.pathOf text1) ∧
    (handleTTS sv w (postRequest text1)).2.synthCalls
      = w.synthCalls ++ [(normalizeText text1, sv.pathOf text1)] ∧
    ∀ statErr2 : Bool,
      (statErr2 = false →
        (handleTTS sv ((handleTTS sv w (postRequest text1)).2.nextRequest statErr2)
          (postRequest text2)).1
          = .json 200 "cache_hit".toList (sv.keyOf text1 ++ wavExt)) ∧
      (statErr2 = true →
        (handleTTS sv ((handleTTS sv w (postRequest text1)).2.nextRequest statErr2)
          (postRequest text2)).1 = .error 500 "internal error".toList) ∧
      (handleTTS sv ((handleTTS sv w (postRequest text1)).2.nextRequest statErr2)
        (postRequest text2)).2.synthCalls
        = (handleTTS sv w (postRequest text1)).2.synthCalls := by
  have hn := normalizeText_of_spells ws text1 text2 h1 h2
  have hkey : sv.keyOf text2 = sv.keyOf text1 := by unfold Server.keyOf; rw [hn]
  have hpath : sv.pathOf text2 = sv.pathOf text1 := by unfold Server.pathOf; rw [hkey]
  have hne2 : normalizeText text2 ≠ [] := by rw [hn]; exact hne
  have hm := handleTTS_miss sv w text1 hne hmiss
  obtain ⟨hr, _, _, hdir⟩ := handleMiss_ok sv w text1 hsynth
  obtain ⟨e, he, hep⟩ := hwritten
  have hkept : e ∈ (EnforceLimit sv.sorter sv.cache (sv.afterSynth w text1)).entries := by
    rcases hfits with hA | ⟨hnames, hlog, hnew⟩
    · rw [(enforce_unchanged_of_within sv.sorter sv.cache (sv.afterSynth w text1) hA).1]
      exact he
    · exact enforce_keeps_recent sv.sorter sv.cache (sv.afterSynth w text1) hnames hlog
        e he (hnew e he hep)
  have hex : ∃ x ∈ (handleTTS sv w (postRequest text1)).2.dir.entries,
      filepathJoin sv.cache.dir x.name = sv.pathOf text1 := by
    rw [hm, hdir]
    exact ⟨e, hkept, hep⟩
  refine ⟨by rw [hm]; exact hr, hex, by rw [hm]; exact handleMiss_synthCalls sv w text1, ?_⟩
  intro statErr2
  cases statErr2 with
  | false =>
    have hstat : osStat sv.cache ((handleTTS sv w (postRequest text1)).2.nextRequest false).dir
        (sv.pathOf text2) = .ok := by
      rw [hpath]
      exact osStat_ok_of_mem _ _ _ rfl hex
    have hhit := handleTTS_hit sv _ text2 hne2 hstat
    refine ⟨fun _ => by rw [hhit, hkey], fun h => absurd h (by decide), ?_⟩
    rw [hhit]
    rfl
  | true =>
    have hstat : osStat sv.cache ((handleTTS sv w (postRequest text1)).2.nextRequest true).dir
        (sv.pathOf text2) = .failed := osStat_failed_of_statErr _ _ _ rfl
    have hf := handleTTS_failed sv _ text2 hne2 hstat
    refine ⟨fun h => absurd h (by decide), fun _ => by rw [hf], ?_⟩
    rw [hf]
    rfl

/-- C7, witness: the scenario of `TestHandleTTSSynthAndCache`, voice "default",
budget 1 MiB, "  hello   world " and then "hello   world", on an empty cache;
and the same requests with a budget of 5 bytes on a cache that holds an older
artifact of 3 bytes, which the enforcement evicts to keep the new one. -/
theorem C7_witness :
    ((handleTTS (fakeServer (1024 * 1024)) (freshWorld (plainDir [])) helloRequest).1
        = .json 200 "cache_miss".toList ((fakeServer (1024 * 1024)).keyOf helloText ++ wavExt) ∧
      (∃ e ∈ (handleTTS (fakeServer (1024 * 1024)) (freshWorld (plainDir []))
          helloRequest).2.dir.entries,
        filepathJoin (fakeServer (1024 * 1024)).cache.dir e.name
          = (fakeServer (1024 * 1024)).pathOf helloText) ∧
      (handleTTS (fakeServer (1024 * 1024)) (freshWorld (plainDir []))
        helloRequest).2.synthCalls
        = (freshWorld (plainDir [])).synthCalls ++
            [(normalizeText helloText, (fakeServer (1024 * 1024)).pathOf helloText)] ∧
      (handleTTS (fakeServer (1024 * 1024))
        ((handleTTS (fakeServer (1024 * 1024)) (freshWorld (plainDir []))
          helloRequest).2.nextRequest false) helloAgain).1
        = .json 200 "cache_hit".toList ((fakeServer (1024 * 1024)).keyOf helloText ++ wavExt) ∧
      (handleTTS (fakeServer (1024 * 1024))
        ((handleTTS (fakeServer (1024 * 1024)) (freshWorld (plainDir []))
          helloRequest).2.nextRequest false) helloAgain).2.synthCalls
        = (handleTTS (fakeServer (1024 * 1024)) (freshWorld (plainDir []))
            helloRequest).2.synthCalls) ∧
    (¬ artifactBytes ((fakeServer 5).synth (freshWorld olderDir) helloText).2
        ≤ (fakeServer 5).cache.maxBytes ∧
      (EnforceLimit (fakeServer 5).sorter (fakeServer 5).cache
        ((fakeServer 5).afterSynth (freshWorld olderDir) helloText)).log
        = [.evicted "other.wav".toList 3] ∧
      (handleTTS (fakeServer 5) (freshWorld olderDir) helloRequest).1
        = .json 200 "cache_miss".toList ((fakeServer 5).keyOf helloText ++ wavExt) ∧
      (∃ e ∈ (handleTTS (fakeServer 5) (freshWorld olderDir) helloRequest).2.dir.entries,
        filepathJoin (fakeServer 5).cache.dir e.name = (fakeServer 5).pathOf helloText) ∧
      (handleTTS (fakeServer 5)
        ((handleTTS (fakeServer 5) (freshWorld olderDir) helloRequest).2.nextRequest false)
        helloAgain).1
        = .json 200 "cache_hit".toList ((fakeServer 5).keyOf helloText ++ wavExt) ∧
      (handleTTS (fakeServer 5)
        ((handleTTS (fakeServer 5) (freshWorld olderDir) helloRequest).2.nextRequest true)
        helloAgain).1 = .error 500 "internal error".toList ∧
      (handleTTS (fakeServer 5)
        ((handleTTS (fakeServer 5) (freshWorld olderDir) helloRequest).2.nextRequest false)
        helloAgain).2.synthCalls
        = (handleTTS (fakeServer 5) (freshWorld olderDir) helloRequest).2.synthCalls) :=
  have hs1 : Spells ["hello".toList, "world".toList] helloText := by
    have := spells_fields helloText
    rwa [show stringsFields helloText = ["hello".toList, "world".toList] from by decide]
      at this
  have hs2 : Spells ["hello".toList, "world".toList] "hello   world".toList := by
    have := spells_fields "hello   world".toList
    rwa [show stringsFields "hello   world".toList = ["hello".toList, "world".toList]
      from by decide] at this
  have hlogged : (EnforceLimit (fakeServer 5).sorter (fakeServer 5).cache
      ((fakeServer 5).afterSynth (freshWorld olderDir) helloText)).log
      = [.evicted "other.wav".toList 3] := by decide
  have h := C7_miss_then_hit (fakeServer (1024 * 1024)) (freshWorld (plainDir []))
    ["hello".toList, "world".toList] helloText "hello   world".toList hs1 hs2
    (by decide) (by decide) (by decide) (by decide) (Or.inl (by decide))
  have k := C7_miss_then_hit (fakeServer 5) (freshWorld olderDir)
    ["hello".toList, "world".toList] helloText "hello   world".toList hs1 hs2
    (by decide) (by decide) (by decide) (by decide)
    (Or.inr ⟨by decide,
      (by
        intro p hp
        rw [hlogged] at hp
        simp at hp),
      by decide⟩)
  ⟨⟨h.1, h.2.1, h.2.2.1, (h.2.2.2 false).1 rfl, (h.2.2.2 false).2.2⟩,
    ⟨by decide, hlogged, k.1, k.2.1, (k.2.2.2 false).1 rfl, (k.2.2.2 true).2.1 rfl,
      (k.2.2.2 false).2.2⟩⟩

/-- C8: for every well-formed POST request, `handleTTS` calls `Synthesize` if and
only if the normalized text is not empty and the stat of the artifact path
answers not-exist (the call is then made with the normalized text and that
path).  When the normalized text is empty the response is 400 "text is
required" and nothing else happens; when the stat fails with another error the
response is 500 and there is no call of `Synthesize`, no run of `EnforceLimit`,
no playback and no change of the directory; when the stat succeeds the response
is 200 "cache_hit" with file = key + ".wav", without a call of `Synthesize`. -/
theorem C8_handleTTS_lookup (sv : Server) (w : World) (text : Str) :
    ((handleTTS sv w (postRequest text)).2.synthCalls ≠ w.synthCalls ↔
      (normalizeText text ≠ [] ∧ osStat sv.cache w.dir (sv.pathOf text) = .notExist)) ∧
    (normalizeText text ≠ [] → osStat sv.cache w.dir (sv.pathOf text) = .notExist →
      (handleTTS sv w (postRequest text)).2.synthCalls
        = w.synthCalls ++ [(normalizeText text, sv.pathOf text)]) ∧
    (normalizeText text = [] →
      handleTTS sv w (postRequest text) = (.error 400 "text is required".toList, w)) ∧
    (normalizeText text ≠ [] → osStat sv.cache w.dir (sv.pathOf text) = .failed →
      (handleTTS sv w (postRequest text)).1 = .error 500 "internal error".toList ∧
      (handleTTS sv w (postRequest text)).2.synthCalls = w.synthCalls ∧
      (handleTTS sv w (postRequest text)).2.enforceRuns = w.enforceRuns ∧
      (handleTTS sv w (postRequest text)).2.played = w.played ∧
      (handleTTS sv w (postRequest text)).2.dir = w.dir) ∧
    (normalizeText text ≠ [] → osStat sv.cache w.dir (sv.pathOf text) = .ok →
      (handleTTS sv w (postRequest text)).1
        = .json 200 "cache_hit".toList (sv.keyOf text ++ wavExt) ∧
      (handleTTS sv w (postRequest text)).2.synthCalls = w.synthCalls ∧
      (handleTTS sv w (postRequest text)).2.enforceRuns = w.enforceRuns) := by
  have hmissCalls : normalizeText text ≠ [] →
      osStat sv.cache w.dir (sv.pathOf text) = .notExist →
      (handleTTS sv w (postRequest text)).2.synthCalls
        = w.synthCalls ++ [(normalizeText text, sv.pathOf text)] := by
    intro hne hs
    rw [handleTTS_miss sv w text hne hs]
    exact handleMiss_synthCalls sv w text
  refine ⟨?_, hmissCalls, handleTTS_empty sv w text, ?_, ?_⟩
  · constructor
    · intro hcalls
      by_cases hne : normalizeText text = []
      · rw [handleTTS_empty sv w text hne] at hcalls
        exact absurd rfl hcalls
      · refine ⟨hne, ?_⟩
        cases hs : osStat sv.cache w.dir (sv.pathOf text) with
        | notExist => rfl
        | ok =>
          rw [handleTTS_hit sv w text hne hs] at hcalls
          exact absurd rfl hcalls
        | failed =>
          rw [handleTTS_failed sv w text hne hs] at hcalls
          exact absurd rfl hcalls
    · rintro ⟨hne, hs⟩
      rw [hmissCalls hne hs]
      simp
  · intro hne hs
    rw [handleTTS_failed sv w text hne hs]
    exact ⟨rfl, rfl, rfl, rfl, rfl⟩
  · intro hne hs
    rw [handleTTS_hit sv w text hne hs]
    exact ⟨rfl, rfl, rfl⟩

/-- C8, on the request of `TestHandleTTSCacheHit`: "hello   world" with the
artifact in the cache is a cache hit without a call of the synthesizer. -/
theorem C8_witness :
    (handleTTS (testServer (1024 * 1024) failingPiper) (freshWorld hitDir)
      (postRequest "hello   world".toList)).1
      = .json 200 "cache_hit".toList
          (BuildKey lowBytes "default".toList "hello world".toList ++ wavExt) ∧
    (handleTTS (testServer (1024 * 1024) failingPiper) (freshWorld hitDir)
      (postRequest "hello   world".toList)).2.synthCalls = [] ∧
    (handleTTS (testServer (1024 * 1024) failingPiper) (freshWorld hitDir)
      (postRequest "hello   world".toList)).2.enforceRuns = 0 :=
  (C8_handleTTS_lookup (testServer (1024 * 1024) failingPiper) (freshWorld hitDir)
    "hello   world".toList).2.2.2.2 (by decide) (by decide)

/-- C10: on the miss path of `handleTTS` (normalized text not empty, stat
answering not-exist) the outcome is decided by the result of `Synthesize` alone.
If it returns an error, the response is 500, `EnforceLimit` is not run and no
playback is dispatched; if it returns nil, the response is 200 with status
"cache_miss" and file = key + ".wav", `EnforceLimit` is run once and playback
is dispatched exactly once, with the path `PathForKey(key)` - whatever
`EnforceLimit` returns. -/
theorem C10_miss_outcome (sv : Server) (w : World) (text : Str)
    (hne : normalizeText text ≠ [])
    (hmiss : osStat sv.cache w.dir (sv.pathOf text) = .notExist) :
    ((sv.synth w text).1 = true →
      (handleTTS sv w (postRequest text)).1 = .error 500 "internal error".toList ∧
      (handleTTS sv w (postRequest text)).2.enforceRuns = w.enforceRuns ∧
      (handleTTS sv w (postRequest text)).2.played = w.played) ∧
    ((sv.synth w text).1 = false →
      (handleTTS sv w (postRequest text)).1
        = .json 200 "cache_miss".toList (sv.keyOf text ++ wavExt) ∧
      (handleTTS sv w (postRequest text)).2.enforceRuns = w.enforceRuns + 1 ∧
      (handleTTS sv w (postRequest text)).2.played
        = w.played ++ [PathForKey sv.cache (sv.keyOf text)]) := by
  rw [handleTTS_miss sv w text hne hmiss]
  constructor
  · intro hf
    exact handleMiss_failed sv w text hf
  · intro hf
    obtain ⟨h1, h2, h3, _⟩ := handleMiss_ok sv w text hf
    exact ⟨h1, h2, h3⟩

/-- C10, witness: the synthesizer of the tests succeeds and `EnforceLimit` fails
on the unreadable directory: the response is still 200 "cache_miss", with one
playback. -/
theorem C10_witness :
    (EnforceLimit insertionSorter (testServer 10 (fakePiper "/cache".toList 50)).cache
      ((testServer 10 (fakePiper "/cache".toList 50)).afterSynth (freshWorld unreadableDir)
        "hello world".toList)).err = true ∧
    (((testServer 10 (fakePiper "/cache".toList 50)).synth (freshWorld unreadableDir)
        "hello world".toList).1 = true →
      (handleTTS (testServer 10 (fakePiper "/cache".toList 50)) (freshWorld unreadableDir)
        (postRequest "hello world".toList)).1 = .error 500 "internal error".toList ∧
      (handleTTS (testServer 10 (fakePiper "/cache".toList 50)) (freshWorld unreadableDir)
        (postRequest "hello world".toList)).2.enforceRuns
        = (freshWorld unreadableDir).enforceRuns ∧
      (handleTTS (testServer 10 (fakePiper "/cache".toList 50)) (freshWorld unreadableDir)
        (postRequest "hello world".toList)).2.played = (freshWorld unreadableDir).played) ∧
    (((testServer 10 (fakePiper "/cache".toList 50)).synth (freshWorld unreadableDir)
        "hello world".toList).1 = false →
      (handleTTS (testServer 10 (fakePiper "/cache".toList 50)) (freshWorld unreadableDir)
        (postRequest "hello world".toList)).1
        = .json 200 "cache_miss".toList
            ((testServer 10 (fakePiper "/cache".toList 50)).keyOf "hello world".toList
              ++ wavExt) ∧
      (handleTTS (testServer 10 (fakePiper "/cache".toList 50)) (freshWorld unreadableDir)
        (postRequest "hello world".toList)).2.enforceRuns
        = (freshWorld unreadableDir).enforceRuns + 1 ∧
      (handleTTS (testServer 10 (fakePiper "/cache".toList 50)) (freshWorld unreadableDir)
        (postRequest "hello world".toList)).2.played
        = (freshWorld unreadableDir).played ++
            [PathForKey (testServer 10 (fakePiper "/cache".toList 50)).cache
              ((testServer 10 (fakePiper "/cache".toList 50)).keyOf "hello world".toList)]) :=
  ⟨by decide,
    C10_miss_outcome (testServer 10 (fakePiper "/cache".toList 50)) (freshWorld unreadableDir)
      "hello world".toList (by decide) (by decide)⟩

/-- C9, as stated, fails: the engine writes a part of its output to the temporary
path and fails, and the removal of the temporary file fails too (its error is
discarded): `Synthesize` returns an error and the temporary file is still
there. -/
theorem C9_counterexample :
    engineFails crashingEngine cleanupBroken (oneFile "/cache/k.wav".toList "old".toList)
      "hello".toList "/cache/k.wav".toList = true ∧
    (Synthesize crashingEngine cleanupBroken (oneFile "/cache/k.wav".toList "old".toList)
      "hello".toList "/cache/k.wav".toList).err = some .execFailed ∧
    (Synthesize crashingEngine cleanupBroken (oneFile "/cache/k.wav".toList "old".toList)
      "hello".toList "/cache/k.wav".toList).fs "/cache/k.wav.tmp".toList = some "h".toList := by
  decide

/-- C9 (amended): for every file system, text and outPath, with the engine writing
only to the temporary path outPath + ".tmp": if the engine run fails or the
rename fails, `Synthesize` returns an error, what was (or was not) at outPath
before the call is unchanged, and the temporary path does not exist afterwards
provided that the removal of the temporary file after the failure succeeds; if
the run and the rename succeed, it returns nil, outPath holds exactly what the
engine wrote and the temporary path does not exist.  No other path changes. -/
theorem C9_synthesize_atomic (r : Runner) (sys : SysCalls) (fs : FS) (text outPath : Str) :
    ((engineFails r sys fs text outPath = true ∨ renameFailsIn r sys fs text outPath = true) →
      (Synthesize r sys fs text outPath).err ≠ none ∧
      (Synthesize r sys fs text outPath).fs outPath = fs outPath ∧
      (sys.cleanupFails = false →
        (Synthesize r sys fs text outPath).fs (outPath ++ tmpSuffix) = none)) ∧
    ((engineFails r sys fs text outPath = false ∧ renameFailsIn r sys fs text outPath = false) →
      (Synthesize r sys fs text outPath).err = none ∧
      (Synthesize r sys fs text outPath).fs outPath = engineOutput r sys fs text outPath ∧
      (engineOutput r sys fs text outPath).isSome = true ∧
      (Synthesize r sys fs text outPath).fs (outPath ++ tmpSuffix) = none) ∧
    (∀ q, q ≠ outPath → q ≠ outPath ++ tmpSuffix →
      (Synthesize r sys fs text outPath).fs q = fs q) := by
  have hne : outPath ≠ outPath ++ tmpSuffix := by
    intro h
    have := congrArg List.length h
    simp [tmpSuffix] at this
  have hne2 : outPath ++ tmpSuffix ≠ outPath := fun h => hne h.symm
  simp only [engineFails, renameFailsIn, engineOutput, engineRun, Synthesize]
  have hq1 : ∀ q, q ≠ outPath ++ tmpSuffix →
      removeQuiet sys.firstRemoveFails fs (outPath ++ tmpSuffix) q = fs q := by
    intro q hq
    unfold removeQuiet
    cases sys.firstRemoveFails <;> simp [FS.set, hq]
  generalize removeQuiet sys.firstRemoveFails fs (outPath ++ tmpSuffix) = fs1 at hq1 ⊢
  generalize r.engine (r.args (outPath ++ tmpSuffix)) text (fs1 (outPath ++ tmpSuffix)) = run
  obtain ⟨err, out⟩ := run
  have ho := hq1 outPath hne
  cases err <;> cases out <;> cases hc : sys.cleanupFails <;> cases hr : sys.renameFails <;>
    simp [osRename, removeQuiet, FS.set, hne, hne2, ho] <;>
    (intro q h1 h2; simp [h1, h2, hq1 q h2])

/-- C9, on a concrete run: the engine that copies its input succeeds, the file at
outPath is replaced by its output and no temporary file is left. -/
theorem C9_witness :
    (Synthesize echoEngine allFine (oneFile "/cache/k.wav".toList "old".toList)
      "hello".toList "/cache/k.wav".toList).err = none ∧
    (Synthesize echoEngine allFine (oneFile "/cache/k.wav".toList "old".toList)
      "hello".toList "/cache/k.wav".toList).fs "/cache/k.wav".toList
      = engineOutput echoEngine allFine (oneFile "/cache/k.wav".toList "old".toList)
          "hello".toList "/cache/k.wav".toList ∧
    (engineOutput echoEngine allFine (oneFile "/cache/k.wav".toList "old".toList)
      "hello".toList "/cache/k.wav".toList).isSome = true ∧
    (Synthesize echoEngine allFine (oneFile "/cache/k.wav".toList "old".toList)
      "hello".toList "/cache/k.wav".toList).fs ("/cache/k.wav".toList ++ tmpSuffix) = none :=
  (C9_synthesize_atomic echoEngine allFine (oneFile "/cache/k.wav".toList "old".toList)
    "hello".toList "/cache/k.wav".toList).2.1 ⟨by decide, by decide⟩

/-! ## C11 -/

theorem attemptedBases_append (l1 l2 : List LogRecord) :
    attemptedBases (l1 ++ l2) = attemptedBases l1 ++ attemptedBases l2 := by
  induction l1 with
  | nil => rfl
  | cons r rest ih => cases r <;> simp [attemptedBases, ih]

/-- At the end of the eviction loop the running total is within the limit, or
the log shows an attempted removal of every candidate. -/
theorem evictLoop_attempts (m : Manager) (fs : List fileInfo) (total : Int) (es : List Entry)
    (log : List LogRecord) :
    (evictLoop m fs total es log).1 ≤ m.maxBytes ∨
    attemptedBases (evictLoop m fs total es log).2.2 =
      attemptedBases log ++ fs.map (fun f => filepathBase f.path) := by
  induction fs generalizing total es log with
  | nil => right; simp [evictLoop]
  | cons f fs ih =>
    rw [evictLoop_cons]
    by_cases hle : total ≤ m.maxBytes
    · left; simp [hle]
    · simp only [hle, if_false]
      rcases hx : osRemove m es f.path with ⟨x, es2⟩
      cases x with
      | failed =>
        rcases ih total es2 (log ++ [.removeFailed f.path]) with h | h
        · exact Or.inl h
        · right
          simpa [attemptedBases_append, attemptedBases] using h
      | removed =>
        rcases ih (wrap64 (total - f.size)) es2
          (log ++ [.evicted (filepathBase f.path) f.size]) with h | h
        · exact Or.inl h
        · right
          simpa [attemptedBases_append, attemptedBases] using h
      | notExist =>
        rcases ih (wrap64 (total - f.size)) es2
          (log ++ [.evicted (filepathBase f.path) f.size]) with h | h
        · exact Or.inl h
        · right
          simpa [attemptedBases_append, attemptedBases] using h

theorem osRemove_failed (m : Manager) (es : List Entry) (path : Str)
    (h : (osRemove m es path).1 = .failed) : (osRemove m es path).2 = es := by
  unfold osRemove at h ⊢
  cases hf : es.find? (fun e => filepathJoin m.dir e.name = path) with
  | none => rfl
  | some e =>
    rw [hf] at h
    cases hr : e.remove with
    | failed => simp [hr]
    | removed => simp [hr] at h
    | notExist => simp [hr] at h

/-- An entry whose removal fails stays through a removal by path. -/
theorem osRemove_keeps_failed (m : Manager) (es : List Entry) (path : Str)
    (hnames : NamesDistinct es) (e : Entry) (he : e ∈ es) (hfail : e.remove = .failed) :
    e ∈ (osRemove m es path).2 ∧ NamesDistinct (osRemove m es path).2 := by
  unfold osRemove
  cases hf : es.find? (fun e => filepathJoin m.dir e.name = path) with
  | none => exact ⟨he, hnames⟩
  | some e0 =>
    have he0 : e0 ∈ es := List.mem_of_find?_eq_some hf
    have hp0 : filepathJoin m.dir e0.name = path := by
      have := List.find?_some hf
      simpa using this
    have hsub : NamesDistinct (es.filter (fun e => filepathJoin m.dir e.name ≠ path)) :=
      hnames.sublist ((List.filter_sublist es).map Entry.name)
    have hkeep : e0.remove ≠ .failed →
        e ∈ es.filter (fun e => filepathJoin m.dir e.name ≠ path) := by
      intro hne
      apply List.mem_filter.mpr
      refine ⟨he, ?_⟩
      have : filepathJoin m.dir e.name ≠ path := by
        intro hc
        have hname : e.name = e0.name := filepathJoin_inj _ _ _ (hc.trans hp0.symm)
        have := names_inj hnames he he0 hname
        subst this
        exact hne hfail
      simpa using this
    cases hr : e0.remove with
    | failed => simp only [hr]; exact ⟨he, hnames⟩
    | removed => simp only [hr]; exact ⟨hkeep (by simp [hr]), hsub⟩
    | notExist => simp only [hr]; exact ⟨hkeep (by simp [hr]), hsub⟩

theorem evictLoop_keeps_failed (m : Manager) (fs : List fileInfo) (total : Int)
    (es : List Entry) (log : List LogRecord) (hnames : NamesDistinct es)
    (e : Entry) (he : e ∈ es) (hfail : e.remove = .failed) :
    e ∈ (evictLoop m fs total es log).2.1 := by
  induction fs generalizing total es log with
  | nil => simpa [evictLoop] using he
  | cons f fs ih =>
    rw [evictLoop_cons]
    by_cases hle : total ≤ m.maxBytes
    · simpa [hle] using he
    · simp only [hle, if_false]
      obtain ⟨h1, h2⟩ := osRemove_keeps_failed m es f.path hnames e he hfail
      rcases hx : osRemove m es f.path with ⟨x, es2⟩
      rw [hx] at h1 h2
      cases x with
      | failed => exact ih _ _ _ h2 h1
      | removed => exact ih _ _ _ h2 h1
      | notExist => exact ih _ _ _ h2 h1

theorem evictedCount_append (l1 l2 : List LogRecord) :
    evictedCount (l1 ++ l2) = evictedCount l1 + evictedCount l2 := by
  induction l1 with
  | nil => simp [evictedCount]
  | cons r rest ih => cases r <;> simp [evictedCount, ih]; omega

theorem scannedBytes_cons (e : Entry) (es : List Entry) :
    scannedBytes (e :: es) = (if e.scanned = true then (e.size : Int) else 0) + scannedBytes es := by
  unfold scannedBytes
  by_cases h : e.scanned = true <;> simp [List.filter_cons, h]

theorem filter_remove_one_aux (q : Entry → Bool) (es : List Entry) (hnames : NamesDistinct es)
    (e : Entry) (he : e ∈ es) (hq : ∀ x, q x = true ↔ x.name ≠ e.name) :
    (es.filter q).length + 1 = es.length ∧
    scannedBytes (es.filter q) + (if e.scanned = true then (e.size : Int) else 0)
      = scannedBytes es := by
  induction es with
  | nil => simp at he
  | cons a rest ih =>
    have hnd : a.name ∉ rest.map Entry.name ∧ NamesDistinct rest := by
      unfold NamesDistinct at hnames ⊢
      simpa using hnames
    by_cases hae : a = e
    · subst hae
      have hqa : ¬ q a = true := by
        intro hc
        exact (hq a).mp hc rfl
      have hrest : rest.filter q = rest := by
        apply List.filter_eq_self.mpr
        intro x hx
        apply (hq x).mpr
        intro hc
        exact hnd.1 (List.mem_map.mpr ⟨x, hx, hc⟩)
      rw [List.filter_cons_of_neg hqa, hrest, scannedBytes_cons]
      exact ⟨rfl, by omega⟩
    · have he2 : e ∈ rest := by
        rcases List.mem_cons.mp he with h | h
        · exact absurd h.symm hae
        · exact h
      have hqa : q a = true := by
        apply (hq a).mpr
        intro hc
        exact hnd.1 (List.mem_map.mpr ⟨e, he2, hc.symm⟩)
      obtain ⟨i1, i2⟩ := ih hnd.2 he2
      rw [List.filter_cons_of_pos hqa, scannedBytes_cons, scannedBytes_cons]
      refine ⟨by simp only [List.length_cons]; omega, by omega⟩

/-- Removing by path the entry `e` of a listing with distinct names removes `e`
and nothing else. -/
theorem filter_remove_one (m : Manager) (es : List Entry) (hnames : NamesDistinct es)
    (e : Entry) (he : e ∈ es) :
    (es.filter (fun x => filepathJoin m.dir x.name ≠ filepathJoin m.dir e.name)).length + 1
      = es.length ∧
    scannedBytes (es.filter (fun x => filepathJoin m.dir x.name ≠ filepathJoin m.dir e.name))
      + (if e.scanned = true then (e.size : Int) else 0) = scannedBytes es ∧
    (∀ x ∈ es, x ≠ e →
      x ∈ es.filter (fun x => filepathJoin m.dir x.name ≠ filepathJoin m.dir e.name)) ∧
    e ∉ es.filter (fun x => filepathJoin m.dir x.name ≠ filepathJoin m.dir e.name) := by
  have hq : ∀ x : Entry,
      (fun x : Entry => decide (filepathJoin m.dir x.name ≠ filepathJoin m.dir e.name)) x = true
        ↔ x.name ≠ e.name := by
    intro x
    simp only [decide_eq_true_eq]
    constructor
    · intro h hc
      exact h (by rw [hc])
    · intro h hc
      exact h (filepathJoin_inj _ _ _ hc)
  obtain ⟨a1, a2⟩ := filter_remove_one_aux _ es hnames e he hq
  refine ⟨a1, a2, ?_, ?_⟩
  · intro x hx hne
    apply List.mem_filter.mpr
    refine ⟨hx, (hq x).mpr ?_⟩
    intro hc
    exact hne (names_inj hnames hx he hc)
  · intro hc
    have := (hq e).mp (List.mem_filter.mp hc).2
    exact this rfl

/-- One turn of the eviction loop on a candidate whose entry `e` is listed, in
a listing with distinct names: the answer of the removal is that of `e`. -/
theorem evictLoop_step (m : Manager) (f : fileInfo) (fs : List fileInfo) (total : Int)
    (es : List Entry) (log : List LogRecord) (hnames : NamesDistinct es)
    (e : Entry) (he : e ∈ es) (hf : toFile m e = f) (hgt : ¬ total ≤ m.maxBytes) :
    (e.remove = .failed →
      evictLoop m (f :: fs) total es log =
        evictLoop m fs total es (log ++ [.removeFailed f.path])) ∧
    (e.remove ≠ .failed →
      evictLoop m (f :: fs) total es log =
        evictLoop m fs (wrap64 (total - f.size))
          (es.filter (fun x => filepathJoin m.dir x.name ≠ filepathJoin m.dir e.name))
          (log ++ [.evicted (filepathBase f.path) f.size])) := by
  have hpath : f.path = filepathJoin m.dir e.name := by rw [← hf]; rfl
  have hfind : es.find? (fun x => decide (filepathJoin m.dir x.name = f.path)) = some e := by
    cases hfd : es.find? (fun x => decide (filepathJoin m.dir x.name = f.path)) with
    | none =>
      have := List.find?_eq_none.mp hfd e he
      simp [hpath] at this
    | some e0 =>
      have he0 : e0 ∈ es := List.mem_of_find?_eq_some hfd
      have hp0 : filepathJoin m.dir e0.name = f.path := by
        have := List.find?_some hfd
        simpa using this
      have : e0 = e := names_inj hnames he0 he (filepathJoin_inj _ _ _ (hp0.trans hpath))
      rw [this]
  rw [evictLoop_cons]
  simp only [hgt, if_false]
  unfold osRemove
  rw [hfind, hpath]
  constructor
  · intro hfail
    simp [hfail]
  · intro hok
    cases hr : e.remove with
    | failed => exact absurd hr hok
    | removed => simp
    | notExist => simp

/-- The eviction loop on candidates that are the files of distinct scanned
entries of a listing with distinct names.  Only entries behind candidates
whose removal does not fail disappear; at the end the total is within the
limit or every candidate still listed is one whose removal fails; every
"evicted" record stands for one entry gone; and, without overflow, the total
goes down by the sizes of the entries gone. -/
theorem evictLoop_general (m : Manager) (fs : List fileInfo) (total : Int) (es : List Entry)
    (log : List LogRecord) (hnames : NamesDistinct es)
    (hnd : (fs.map fileInfo.path).Nodup)
    (hcand : ∀ f ∈ fs, ∃ e ∈ es, e.scanned = true ∧ toFile m e = f) :
    (evictLoop m fs total es log).2.1.Sublist es ∧
    (∀ e ∈ es, e ∉ (evictLoop m fs total es log).2.1 →
      e.scanned = true ∧ e.remove ≠ .failed ∧ toFile m e ∈ fs) ∧
    ((evictLoop m fs total es log).1 ≤ m.maxBytes ∨
      ∀ e ∈ (evictLoop m fs total es log).2.1, toFile m e ∈ fs → e.remove = .failed) ∧
    (evictLoop m fs total es log).2.1.length + evictedCount (evictLoop m fs total es log).2.2
      = es.length + evictedCount log ∧
    ((∀ f ∈ fs, 0 ≤ f.size) → sizeSum fs ≤ total → total < 2 ^ 63 →
      (evictLoop m fs total es log).1 - scannedBytes (evictLoop m fs total es log).2.1
        = total - scannedBytes es) := by
  induction fs generalizing total es log with
  | nil => simp [evictLoop]
  | cons f fs ih =>
    by_cases hle : total ≤ m.maxBytes
    · rw [evictLoop_cons, if_pos hle]
      exact ⟨List.Sublist.refl _, fun e he hn => absurd he hn, Or.inl hle, rfl,
        fun _ _ _ => rfl⟩
    · obtain ⟨e, he, hes, hef⟩ := hcand f (List.mem_cons_self _ _)
      have hnd2 : (fs.map fileInfo.path).Nodup := by
        rw [List.map_cons, List.nodup_cons] at hnd
        exact hnd.2
      have hfnot : f.path ∉ fs.map fileInfo.path := by
        rw [List.map_cons, List.nodup_cons] at hnd
        exact hnd.1
      have hpath : f.path = filepathJoin m.dir e.name := by rw [← hef]; rfl
      have hsame : ∀ x ∈ es, toFile m x = f → x = e := by
        intro x hx hxf
        have : filepathJoin m.dir x.name = filepathJoin m.dir e.name := by
          have := congrArg fileInfo.path hxf
          rw [hpath] at this
          exact this
        exact names_inj hnames hx he (filepathJoin_inj _ _ _ this)
      obtain ⟨hstepF, hstepR⟩ := evictLoop_step m f fs total es log hnames e he hef hle
      by_cases hfail : e.remove = .failed
      · rw [hstepF hfail]
        have hcand2 : ∀ g ∈ fs, ∃ x ∈ es, x.scanned = true ∧ toFile m x = g :=
          fun g hg => hcand g (List.mem_cons_of_mem _ hg)
        obtain ⟨i1, i2, i3, i4, i5⟩ := ih total es (log ++ [.removeFailed f.path]) hnames hnd2 hcand2
        refine ⟨i1, ?_, ?_, ?_, ?_⟩
        · intro x hx hxn
          obtain ⟨a, b, c⟩ := i2 x hx hxn
          exact ⟨a, b, List.mem_cons_of_mem _ c⟩
        · rcases i3 with h | h
          · exact Or.inl h
          · right
            intro x hx hxf
            rcases List.mem_cons.mp hxf with hxe | hxe
            · have := hsame x (i1.subset hx) hxe
              rw [this]
              exact hfail
            · exact h x hx hxe
        · rw [i4, evictedCount_append]
          simp [evictedCount]
        · intro hnn hsum hfit
          have hf0 := hnn f (List.mem_cons_self _ _)
          rw [sizeSum_cons] at hsum
          exact i5 (fun g hg => hnn g (List.mem_cons_of_mem _ hg)) (by omega) hfit
      · rw [hstepR hfail]
        obtain ⟨r1, r2, r3, r4⟩ := filter_remove_one m es hnames e he
        have hsub : (es.filter
            (fun x => filepathJoin m.dir x.name ≠ filepathJoin m.dir e.name)).Sublist es :=
          List.filter_sublist es
        have hnames2 : NamesDistinct (es.filter
            (fun x => filepathJoin m.dir x.name ≠ filepathJoin m.dir e.name)) :=
          hnames.sublist (hsub.map Entry.name)
        have hcand2 : ∀ g ∈ fs, ∃ x ∈ es.filter
            (fun x => filepathJoin m.dir x.name ≠ filepathJoin m.dir e.name),
            x.scanned = true ∧ toFile m x = g := by
          intro g hg
          obtain ⟨x, hx, hxs, hxg⟩ := hcand g (List.mem_cons_of_mem _ hg)
          refine ⟨x, r3 x hx ?_, hxs, hxg⟩
          intro hxe
          apply hfnot
          rw [hpath, ← hxe]
          exact List.mem_map.mpr ⟨g, hg, by rw [← hxg]; rfl⟩
        obtain ⟨i1, i2, i3, i4, i5⟩ := ih (wrap64 (total - f.size)) _
          (log ++ [.evicted (filepathBase f.path) f.size]) hnames2 hnd2 hcand2
        refine ⟨i1.trans hsub, ?_, ?_, ?_, ?_⟩
        · intro x hx hxn
          by_cases hxe : x = e
          · rw [hxe]
            exact ⟨hes, hfail, by rw [hef]; exact List.mem_cons_self _ _⟩
          · obtain ⟨a, b, c⟩ := i2 x (r3 x hx hxe) hxn
            exact ⟨a, b, List.mem_cons_of_mem _ c⟩
        · rcases i3 with h | h
          · exact Or.inl h
          · right
            intro x hx hxf
            rcases List.mem_cons.mp hxf with hxe | hxe
            · have hx2 := i1.subset hx
              have := hsame x (hsub.subset hx2) hxe
              rw [this] at hx2
              exact absurd hx2 r4
            · exact h x hx hxe
        · rw [i4, evictedCount_append]
          simp only [evictedCount]
          omega
        · intro hnn hsum hfit
          have hf0 := hnn f (List.mem_cons_self _ _)
          have hs0 := sizeSum_nonneg fs (fun g hg => hnn g (List.mem_cons_of_mem _ hg))
          rw [sizeSum_cons] at hsum
          have hw : wrap64 (total - f.size) = total - f.size :=
            wrap64_eq_self _ (by omega) (by omega)
          have hsz : f.size = (e.size : Int) := by rw [← hef]; rfl
          have := i5 (fun g hg => hnn g (List.mem_cons_of_mem _ hg)) (by rw [hw]; omega)
            (by rw [hw]; omega)
          rw [hw] at this ⊢
          simp only [hes, if_true] at r2
          omega

/-- What `EnforceLimit` leaves of a directory that is read and whose names are
pairwise distinct, whatever the removals answer. -/
theorem enforce_general (S : SliceSorter) (m : Manager) (d : Dir)
    (hread : d.readErr = false) (hnames : NamesDistinct d.entries) :
    (EnforceLimit S m d).entries.Sublist d.entries ∧
    (∀ e ∈ d.entries, e ∉ (EnforceLimit S m d).entries →
      e.scanned = true ∧ e.remove ≠ .failed) ∧
    (finalTotal S m d ≤ m.maxBytes ∨
      ∀ e ∈ (EnforceLimit S m d).entries, e.scanned = true → e.remove = .failed) ∧
    (EnforceLimit S m d).entries.length + evictedCount (EnforceLimit S m d).log
      = d.entries.length ∧
    (scannedBytes d.entries < 2 ^ 63 →
      finalTotal S m d = scannedBytes (EnforceLimit S m d).entries) := by
  have hp := S.perm (scannedFiles m d)
  have hnd : ((S.sort (scannedFiles m d)).map fileInfo.path).Nodup :=
    ((hp.map fileInfo.path).nodup_iff).mpr (scannedFiles_nodup m d hnames)
  have hcand : ∀ f ∈ S.sort (scannedFiles m d),
      ∃ e ∈ d.entries, e.scanned = true ∧ toFile m e = f := by
    intro f hf
    have hf2 := hp.mem_iff.mp hf
    rw [scannedFiles_eq] at hf2
    obtain ⟨e, he, hef⟩ := List.mem_map.mp hf2
    exact ⟨e, List.mem_of_mem_filter he, (List.mem_filter.mp he).2, hef⟩
  have htot : scannedBytes d.entries < 2 ^ 63 →
      (scanLoop m d.entries [] 0).2 = scannedBytes d.entries := by
    intro hfit
    have := scanLoop_total m d.entries [] 0 (le_refl 0)
      (by rw [← scannedFiles_eq, sizeSum_scannedFiles]; omega)
    rw [this, ← scannedFiles_eq, sizeSum_scannedFiles]
    omega
  obtain ⟨g1, g2, g3, g4, g5⟩ := evictLoop_general m (S.sort (scannedFiles m d))
    (scanLoop m d.entries [] 0).2 d.entries [] hnames hnd hcand
  by_cases hle : (scanLoop m d.entries [] 0).2 ≤ m.maxBytes
  · have hE : (EnforceLimit S m d).entries = d.entries := by
      unfold EnforceLimit; simp [hread, hle]
    have hL : (EnforceLimit S m d).log = [] := by
      unfold EnforceLimit; simp [hread, hle]
    have hT : finalTotal S m d = (scanLoop m d.entries [] 0).2 := by
      unfold finalTotal; simp [hle]
    rw [hE, hL, hT]
    exact ⟨List.Sublist.refl _, fun e he hn => absurd he hn, Or.inl hle, rfl, htot⟩
  · have hE : (EnforceLimit S m d).entries = (evictLoop m (S.sort (scannedFiles m d))
        (scanLoop m d.entries [] 0).2 d.entries []).2.1 := by
      unfold EnforceLimit scannedFiles; simp [hread, hle]
    have hL : (EnforceLimit S m d).log = (evictLoop m (S.sort (scannedFiles m d))
        (scanLoop m d.entries [] 0).2 d.entries []).2.2 := by
      unfold EnforceLimit scannedFiles; simp [hread, hle]
    have hT : finalTotal S m d = (evictLoop m (S.sort (scannedFiles m d))
        (scanLoop m d.entries [] 0).2 d.entries []).1 := by
      unfold finalTotal scannedFiles; simp [hle]
    rw [hE, hL, hT]
    refine ⟨g1, fun e he hn => ⟨(g2 e he hn).1, (g2 e he hn).2.1⟩, ?_, g4, ?_⟩
    · rcases g3 with h | h
      · exact Or.inl h
      · right
        intro e he hs
        apply h e he
        apply hp.mem_iff.mpr
        rw [scannedFiles_eq]
        exact List.mem_map.mpr ⟨e, List.mem_filter.mpr ⟨g1.subset he, hs⟩, rfl⟩
    · intro hfit
      have ht := htot hfit
      have hsum : sizeSum (S.sort (scannedFiles m d)) = scannedBytes d.entries := by
        rw [sizeSum_perm hp, sizeSum_scannedFiles]
      have hnn : ∀ f ∈ S.sort (scannedFiles m d), 0 ≤ f.size := by
        intro f hf
        obtain ⟨e, _, _, hef⟩ := hcand f hf
        rw [← hef]
        simp [toFile]
      have := g5 hnn (by rw [hsum, ht]) (by rw [ht]; exact hfit)
      omega

/-- C11: `EnforceLimit` returns an error if and only if reading the directory
fails.  When the removal of an eviction candidate fails with an error other
than not-exist, the file is kept, the running total is not changed, a record
is logged and the loop goes on with the next candidate; a file whose removal
fails is therefore still in the directory afterwards.  At the return, for a
directory that was read, either the running total is <= maxBytes or the log
shows an attempted removal of every file found by the scan, in sorted order.
In the directory left (names pairwise distinct) this shows as follows: only
scanned artifacts whose removal does not fail are gone, one for each "evicted"
record of the log; either the running total is <= maxBytes or every scanned
artifact still there is one whose removal failed; and, while the sizes scanned
add up to less than 2^63, the running total at the return is the size of the
scanned artifacts still there. -/
theorem C11_enforceLimit_errors (S : SliceSorter) (m : Manager) (d : Dir) :
    ((EnforceLimit S m d).err = true ↔ d.readErr = true) ∧
    (∀ (f : fileInfo) (fs : List fileInfo) (total : Int) (es : List Entry)
      (log : List LogRecord), ¬ total ≤ m.maxBytes → (osRemove m es f.path).1 = .failed →
      (osRemove m es f.path).2 = es ∧
      evictLoop m (f :: fs) total es log =
        evictLoop m fs total es (log ++ [.removeFailed f.path])) ∧
    (NamesDistinct d.entries → ∀ e ∈ d.entries, e.remove = .failed →
      e ∈ (EnforceLimit S m d).entries) ∧
    (d.readErr = false →
      finalTotal S m d ≤ m.maxBytes ∨
      attemptedBases (EnforceLimit S m d).log =
        (S.sort (scannedFiles m d)).map (fun f => filepathBase f.path)) ∧
    (d.readErr = false → NamesDistinct d.entries →
      (EnforceLimit S m d).entries.Sublist d.entries ∧
      (∀ e ∈ d.entries, e ∉ (EnforceLimit S m d).entries →
        e.scanned = true ∧ e.remove ≠ .failed) ∧
      (finalTotal S m d ≤ m.maxBytes ∨
        ∀ e ∈ (EnforceLimit S m d).entries, e.scanned = true → e.remove = .failed) ∧
      (EnforceLimit S m d).entries.length + evictedCount (EnforceLimit S m d).log
        = d.entries.length ∧
      (scannedBytes d.entries < 2 ^ 63 →
        finalTotal S m d = scannedBytes (EnforceLimit S m d).entries)) := by
  refine ⟨?_, ?_, ?_, ?_, enforce_general S m d⟩
  · unfold EnforceLimit
    by_cases hread : d.readErr = true
    · simp [hread]
    · by_cases hle : (scanLoop m d.entries [] 0).2 ≤ m.maxBytes <;> simp [hread, hle]
  · intro f fs total es log hgt hfail
    have hes := osRemove_failed m es f.path hfail
    refine ⟨hes, ?_⟩
    rw [evictLoop_cons]
    simp only [hgt, if_false]
    rcases hx : osRemove m es f.path with ⟨x, es2⟩
    rw [hx] at hfail hes
    simp only at hfail hes
    subst hfail
    subst hes
    rfl
  · intro hnames e he hfail
    unfold EnforceLimit
    by_cases hread : d.readErr = true
    · simpa [hread] using he
    · by_cases hle : (scanLoop m d.entries [] 0).2 ≤ m.maxBytes
      · simpa [hread, hle] using he
      · simp only [hread, Bool.false_eq_true, if_false, hle]
        exact evictLoop_keeps_failed m _ _ _ _ hnames e he hfail
  · intro hread
    unfold finalTotal EnforceLimit scannedFiles
    by_cases hle : (scanLoop m d.entries [] 0).2 ≤ m.maxBytes
    · left; simp [hle]
    · simp only [hread, Bool.false_eq_true, if_false, hle]
      have := evictLoop_attempts m (S.sort (scanLoop m d.entries [] 0).1)
        (scanLoop m d.entries [] 0).2 d.entries []
      simpa [attemptedBases] using this

/-- C11, on a concrete run: the removal of the oldest artifact of the test
directory fails.  `EnforceLimit` returns nil, logs the failure, keeps a.wav and
evicts the next-oldest artifact, b.wav, which is gone afterwards; the running
total at the return, 10, is within the limit and is the size of a.wav and
c.wav, the scanned artifacts still there. -/
theorem C11_witness :
    (EnforceLimit insertionSorter testManager stuckDir).err = false ∧
    (EnforceLimit insertionSorter testManager stuckDir).log =
      [.removeFailed "/cache/a.wav".toList, .evicted "b.wav".toList 5] ∧
    (EnforceLimit insertionSorter testManager stuckDir).entries =
      [{ plainFile "a.wav" 5 1 with remove := .failed }, plainFile "c.wav" 5 3,
        plainFile "ignore.wav.tmp" 3 4] ∧
    plainFile "b.wav" 5 2 ∉ (EnforceLimit insertionSorter testManager stuckDir).entries ∧
    finalTotal insertionSorter testManager stuckDir = 10 ∧
    ((EnforceLimit insertionSorter testManager stuckDir).entries.Sublist stuckDir.entries ∧
      (∀ e ∈ stuckDir.entries, e ∉ (EnforceLimit insertionSorter testManager stuckDir).entries →
        e.scanned = true ∧ e.remove ≠ .failed) ∧
      (finalTotal insertionSorter testManager stuckDir ≤ testManager.maxBytes ∨
        ∀ e ∈ (EnforceLimit insertionSorter testManager stuckDir).entries,
          e.scanned = true → e.remove = .failed) ∧
      (EnforceLimit insertionSorter testManager stuckDir).entries.length
        + evictedCount (EnforceLimit insertionSorter testManager stuckDir).log
        = stuckDir.entries.length ∧
      (scannedBytes stuckDir.entries < 2 ^ 63 →
        finalTotal insertionSorter testManager stuckDir
          = scannedBytes (EnforceLimit insertionSorter testManager stuckDir).entries)) :=
  ⟨by decide, by decide, by decide, by decide, by decide,
    (C11_enforceLimit_errors insertionSorter testManager stuckDir).2.2.2.2 (by decide)
      (by decide)⟩

/-! ## C12 -/

theorem touch_ok (m : Manager) (d : Dir) (now : Int) (path : Str) (h : d.chtimesErr = false) :
    (∀ e ∈ (Touch m d now path).entries, filepathJoin m.dir e.name = path → e.mod = now) ∧
    (∀ e ∈ d.entries, filepathJoin m.dir e.name ≠ path → e ∈ (Touch m d now path).entries) ∧
    (Touch m d now path).entries.map Entry.name = d.entries.map Entry.name ∧
    (Touch m d now path).entries.map Entry.size = d.entries.map Entry.size := by
  unfold Touch
  simp only [h, Bool.false_eq_true, if_false]
  refine ⟨?_, ?_, ?_, ?_⟩
  · intro e he hp
    obtain ⟨e0, _, rfl⟩ := List.mem_map.mp he
    by_cases h0 : filepathJoin m.dir e0.name = path
    · simp [h0]
    · simp only [h0, if_false] at hp
  · intro e he hp
    exact List.mem_map.mpr ⟨e, he, by simp [hp]⟩
  · rw [List.map_map]
    apply List.map_congr_left
    intro e _
    by_cases h0 : filepathJoin m.dir e.name = path <;> simp [h0]
  · rw [List.map_map]
    apply List.map_congr_left
    intro e _
    by_cases h0 : filepathJoin m.dir e.name = path <;> simp [h0]

/-- C12, as stated, fails: on the cache hit of the test with a failing
`os.Chtimes` the response is 200 "cache_hit" and the modification time of the
artifact stays 10, but the only record logged by the request is the
"cache_hit" record: `Touch` discards the error and writes no record. -/
theorem C12_counterexample :
    untouchableDir.chtimesErr = true ∧
    (handleTTS (testServer (1024 * 1024) failingPiper) (freshWorld untouchableDir)
      (postRequest "hello   world".toList)).1
      = .json 200 "cache_hit".toList
          (BuildKey lowBytes "default".toList "hello world".toList ++ wavExt) ∧
    (handleTTS (testServer (1024 * 1024) failingPiper) (freshWorld untouchableDir)
      (postRequest "hello   world".toList)).2.log
      = [.cacheHit (BuildKey lowBytes "default".toList "hello world".toList)
          (BuildKey lowBytes "default".toList "hello world".toList ++ wavExt)] ∧
    (handleTTS (testServer (1024 * 1024) failingPiper) (freshWorld untouchableDir)
      (postRequest "hello   world".toList)).2.dir = untouchableDir := by
  decide

/-- C12 (amended): `Touch` is best-effort and silent.  For every path, when the
timestamp update succeeds the modification time of the entry at that path
becomes the time given and nothing else changes; when it fails `Touch` leaves
the directory as it was and writes no log record.  In both cases the
surrounding cache-hit request responds 200 "cache_hit", dispatches playback and
logs exactly the "cache_hit" record. -/
theorem C12_touch_best_effort (sv : Server) (w : World) (text : Str)
    (hne : normalizeText text ≠ [])
    (hhit : osStat sv.cache w.dir (sv.pathOf text) = .ok) :
    (handleTTS sv w (postRequest text)).1
      = .json 200 "cache_hit".toList (sv.keyOf text ++ wavExt) ∧
    (handleTTS sv w (postRequest text)).2.log
      = w.log ++ [.cacheHit (sv.keyOf text) (sv.keyOf text ++ wavExt)] ∧
    (handleTTS sv w (postRequest text)).2.played = w.played ++ [sv.pathOf text] ∧
    (handleTTS sv w (postRequest text)).2.dir = Touch sv.cache w.dir w.now (sv.pathOf text) ∧
    (w.dir.chtimesErr = true → Touch sv.cache w.dir w.now (sv.pathOf text) = w.dir) ∧
    (w.dir.chtimesErr = false →
      (∀ e ∈ (Touch sv.cache w.dir w.now (sv.pathOf text)).entries,
        filepathJoin sv.cache.dir e.name = sv.pathOf text → e.mod = w.now) ∧
      (∀ e ∈ w.dir.entries, filepathJoin sv.cache.dir e.name ≠ sv.pathOf text →
        e ∈ (Touch sv.cache w.dir w.now (sv.pathOf text)).entries) ∧
      (Touch sv.cache w.dir w.now (sv.pathOf text)).entries.map Entry.name
        = w.dir.entries.map Entry.name) := by
  rw [handleTTS_hit sv w text hne hhit]
  refine ⟨rfl, rfl, rfl, rfl, ?_, ?_⟩
  · intro h
    simp [Touch, h]
  · intro h
    obtain ⟨h1, h2, h3, _⟩ := touch_ok sv.cache w.dir w.now (sv.pathOf text) h
    exact ⟨h1, h2, h3⟩

/-- C12, witness: `TestHandleTTSCacheHit`, where the modification time of the
artifact goes from 10 to the current time, 100. -/
theorem C12_witness :
    (handleTTS (testServer (1024 * 1024) failingPiper) (freshWorld hitDir)
      (postRequest "hello   world".toList)).2.dir.entries.map Entry.mod = [100] ∧
    (handleTTS (testServer (1024 * 1024) failingPiper) (freshWorld hitDir)
      (postRequest "hello   world".toList)).1
      = .json 200 "cache_hit".toList
          ((testServer (1024 * 1024) failingPiper).keyOf "hello   world".toList ++ wavExt) :=
  ⟨by decide,
    (C12_touch_best_effort (testServer (1024 * 1024) failingPiper) (freshWorld hitDir)
      "hello   world".toList (by decide) (by decide)).1⟩

/-! ## C14 -/

theorem delimExtends_colon (a b : Str) (h : delimExtends a b = true) : ':' ∈ b := by
  unfold delimExtends at h
  simp only [Bool.or_eq_true, beq_iff_eq, List.isPrefixOf_iff_prefix] at h
  rcases h with h | ⟨r, h⟩
  · rw [h]; simp
  · rw [← h]; simp

/-- C14: for all voice identifiers that contain no ':' and all texts, equal
hashed strings `voiceID + "::" + text` come from equal voice identifiers and
equal texts: the input of the digest in `BuildKey` is injective on pairs with a
colon-free voice identifier, whatever the texts contain. -/
theorem C14_keyInput_injective (v1 t1 v2 t2 : Str) (h1 : ':' ∉ v1) (h2 : ':' ∉ v2)
    (h : keyInput v1 t1 = keyInput v2 t2) : v1 = v2 ∧ t1 = t2 := by
  rcases keyInput_eq v1 t1 v2 t2 h with hh | hh | hh
  · exact hh
  · exact absurd (delimExtends_colon v1 v2 hh) h2
  · exact absurd (delimExtends_colon v2 v1 hh) h1

/-- C14, witness: the default voice "default" with texts full of colons. -/
theorem C14_witness :
    ':' ∉ "default".toList ∧
    keyInput "default".toList "a::b:".toList = keyInput "default".toList "a::b:".toList ∧
    ("default".toList = "default".toList ∧ "a::b:".toList = "a::b:".toList) :=
  ⟨by decide, rfl,
    C14_keyInput_injective "default".toList "a::b:".toList "default".toList "a::b:".toList
      (by decide) (by decide) rfl⟩

/-! ## C13 -/

/-- The text is its trimmed part between two runs of white space, and the
trimmed part neither starts nor ends with white space. -/
theorem stringsTrimSpace_spec (s : Str) :
    (∃ lead trail, IsBlank lead ∧ IsBlank trail ∧ s = lead ++ stringsTrimSpace s ++ trail) ∧
    (∀ c, (stringsTrimSpace s).head? = some c → isSpace c = false) ∧
    (∀ c, (stringsTrimSpace s).getLast? = some c → isSpace c = false) := by
  have h1 := List.takeWhile_append_dropWhile isSpace s
  have h2 := List.takeWhile_append_dropWhile isSpace (s.dropWhile isSpace).reverse
  have h3 : s.dropWhile isSpace = stringsTrimSpace s ++
      (((s.dropWhile isSpace).reverse).takeWhile isSpace).reverse := by
    have := congrArg List.reverse h2
    rw [List.reverse_append, List.reverse_reverse] at this
    exact this.symm
  have hlast : ∀ c, (stringsTrimSpace s).getLast? = some c → isSpace c = false := by
    intro c hc
    unfold stringsTrimSpace at hc
    rw [List.getLast?_reverse] at hc
    have := List.head?_dropWhile_not isSpace (s.dropWhile isSpace).reverse
    rw [hc] at this
    exact this
  refine ⟨⟨s.takeWhile isSpace, (((s.dropWhile isSpace).reverse).takeWhile isSpace).reverse,
    ?_, ?_, ?_⟩, ?_, hlast⟩
  · intro c hc
    exact List.mem_takeWhile_imp hc
  · intro c hc
    exact List.mem_takeWhile_imp (List.mem_reverse.mp hc)
  · rw [List.append_assoc, ← h3, h1]
  · intro c hc
    have hne : stringsTrimSpace s ≠ [] := by
      intro h0
      rw [h0] at hc
      simp at hc
    have hhead : (s.dropWhile isSpace).head? = some c := by
      rw [h3, List.head?_append_of_ne_nil _ hne]
      exact hc
    have := List.head?_dropWhile_not isSpace s
    rw [hhead] at this
    exact this

theorem normalize_ok_iff (s t : Str) :
    normalize s = .ok t ↔ (stringsTrimSpace s ≠ [] ∧ t = stringsTrimSpace s) := by
  unfold normalize
  by_cases h : stringsTrimSpace s = []
  · simp [h]
  · simp [h, eq_comm]

/-- C13: `ResolveText` picks its input by a fixed precedence on the trimmed path:
"-" reads all of stdin (error "stdin unavailable" when stdin is nil) and another
non-empty path reads that file, in both cases whatever the arguments are; an
empty path uses the arguments joined by single spaces (error "no input
provided" when there are none).  It succeeds exactly when the source picked can
be read and its content is not empty after trimming, and then returns exactly
the trimmed content: never empty, without leading or trailing white space, and
equal to the content up to a run of white space at either end. -/
theorem C13_resolveText (readFile : Str → Option Str) (filePath : Str) (args : List Str)
    (stdin : Option (Option Str)) :
    (∀ t, ResolveText readFile filePath args stdin = .ok t ↔
      ∃ s, chosenSource readFile filePath args stdin = some s ∧
        stringsTrimSpace s ≠ [] ∧ t = stringsTrimSpace s) ∧
    (∀ t, ResolveText readFile filePath args stdin = .ok t →
      t ≠ [] ∧ (∀ c, t.head? = some c → isSpace c = false) ∧
      (∀ c, t.getLast? = some c → isSpace c = false) ∧
      ∃ s lead trail, chosenSource readFile filePath args stdin = some s ∧
        IsBlank lead ∧ IsBlank trail ∧ s = lead ++ t ++ trail) ∧
    (stringsTrimSpace filePath = ['-'] →
      (stdin = none →
        ResolveText readFile filePath args stdin = .error .stdinUnavailable) ∧
      (∀ b, stdin = some (some b) →
        ResolveText readFile filePath args stdin = normalize b) ∧
      (∀ args2, ResolveText readFile filePath args2 stdin
        = ResolveText readFile filePath args stdin)) ∧
    (stringsTrimSpace filePath ≠ ['-'] → stringsTrimSpace filePath ≠ [] →
      (∀ b, readFile (stringsTrimSpace filePath) = some b →
        ResolveText readFile filePath args stdin = normalize b) ∧
      (∀ args2 stdin2, ResolveText readFile filePath args2 stdin2
        = ResolveText readFile filePath args stdin)) ∧
    (stringsTrimSpace filePath = [] →
      (args ≠ [] →
        ResolveText readFile filePath args stdin = normalize (stringsJoin args [' '])) ∧
      (args = [] → ResolveText readFile filePath args stdin = .error .noInput)) := by
  have hiff : ∀ t, ResolveText readFile filePath args stdin = .ok t ↔
      ∃ s, chosenSource readFile filePath args stdin = some s ∧
        stringsTrimSpace s ≠ [] ∧ t = stringsTrimSpace s := by
    intro t
    unfold ResolveText chosenSource
    by_cases hd : stringsTrimSpace filePath = ['-']
    · simp only [hd, if_true]
      rcases stdin with _ | _ | b
      · simp
      · simp
      · simp [normalize_ok_iff]
    · simp only [hd, if_false]
      by_cases he : stringsTrimSpace filePath = []
      · simp only [he, ne_eq, not_true_eq_false, if_false]
        cases args with
        | nil => simp
        | cons a rest => simp [normalize_ok_iff]
      · simp only [ne_eq, he, not_false_eq_true, if_true]
        cases hr : readFile (stringsTrimSpace filePath) with
        | none => simp
        | some b => simp [normalize_ok_iff]
  refine ⟨hiff, ?_, ?_, ?_, ?_⟩
  · intro t ht
    obtain ⟨s, hs, hne, rfl⟩ := (hiff t).mp ht
    obtain ⟨⟨lead, trail, hl, htr, hsplit⟩, hhead, hlast⟩ := stringsTrimSpace_spec s
    exact ⟨hne, hhead, hlast, s, lead, trail, hs, hl, htr, hsplit⟩
  · intro hd
    refine ⟨?_, ?_, ?_⟩
    · intro hs
      simp [ResolveText, hd, hs]
    · intro b hs
      simp [ResolveText, hd, hs]
    · intro args2
      simp [ResolveText, hd]
  · intro hd he
    refine ⟨?_, ?_⟩
    · intro b hb
      simp [ResolveText, hd, he, hb]
    · intro args2 stdin2
      simp [ResolveText, hd, he]
  · intro he
    refine ⟨?_, ?_⟩
    · intro ha
      have : args.length > 0 := List.length_pos.mpr ha
      simp [ResolveText, he, this]
    · intro ha
      simp [ResolveText, he, ha]

/-- C13, on the inputs of the tests: the arguments "hello", "world" give "hello
world"; the file content "from file" followed by a newline gives "from file";
stdin "from stdin" gives "from stdin"; an empty path without arguments is an
error. -/
theorem C13_witness :
    ResolveText testReadFile [] ["hello".toList, "world".toList] none
      = .ok "hello world".toList ∧
    ResolveText testReadFile "/tmp/input.txt".toList [] none = .ok "from file".toList ∧
    ResolveText testReadFile "-".toList [] (some (some "from stdin".toList))
      = .ok "from stdin".toList ∧
    ResolveText testReadFile [] [] none = .error .noInput ∧
    "hello world".toList ≠ [] :=
  ⟨by decide, by decide, by decide, by decide,
    ((C13_resolveText testReadFile [] ["hello".toList, "world".toList] none).2.1
      "hello world".toList (by decide)).1⟩

end PipeUp
